import Mathlib

/-!
# Verification of the exam-markdown validation and normalization core

This file gives a shallow embedding, in Lean 4, of the pure validation /
normalization core of `src/pages/api/exams/process.ts`:

* `assertIntegerPoints`
* `assertNonEmptyAnswers`
* `normalizeTags`
* `normalizeExamMetadataAndTags`

together with the pieces of the JavaScript runtime those functions lean on:
the fenced-block regular expression scan (`matchAll` with
```json ... ``` fences), `JSON.parse`, `JSON.stringify(v, null, 2)` and
`JSON.stringify(v)`, string/number coercions (`String(x)`, `Number(x)`),
`Array.prototype.join`, `String.prototype.trim`, and the tag-cleaning
regular expressions.

Modelling conventions:

* Documents and strings are `List Char`.
* JavaScript numbers are modelled as exact decimal values
  `man / 10 ^ exp` in canonical form (`DecNum`); `Number.isInteger`
  becomes `exp = 0`, `String(number)` prints the canonical (shortest)
  decimal form, and every parsed number is finite.  Binary double rounding,
  `±Infinity` from overflow, and exponent-notation printing of extreme
  magnitudes are outside the model; `Number(string)` coercions that produce
  `NaN` or `±Infinity` are collapsed to `none` (not finite).
* `String.prototype.toLowerCase` is modelled on ASCII letters (other
  characters are kept unchanged).
* Property access on a parsed bare `null` block is modelled as returning
  "absent" (the JavaScript code would instead throw a `TypeError` from
  `Object.prototype.hasOwnProperty.call(null, ·)`; no claim below depends
  on documents containing a bare `null` block).
* `\uXXXX` escapes are interpreted via `Char.ofNat` (UTF-16 surrogate
  pairing is outside the model).
* Several scans carry an explicit fuel argument, always instantiated by a
  provably sufficient bound, so that every definition is structurally
  recursive and evaluates by kernel reduction.
-/

namespace ExamCore

abbrev Chars := List Char

/-! ## Exact decimal numbers -/

/-- A JavaScript number modelled exactly: the value `man / 10 ^ exp`,
kept canonical (`exp = 0`, or `man` not divisible by 10). -/
structure DecNum where
  man : Int
  exp : Nat
deriving DecidableEq, Repr

/-- Strip factors of ten from `(m, e)` until `e = 0` or `10 ∤ m`;
`fuel ≥ e` suffices. -/
def stripTen : Nat → Int → Nat → DecNum
  | 0, m, e => ⟨m, e⟩
  | f + 1, m, e =>
    if e = 0 then ⟨m, 0⟩
    else if m % 10 = 0 then stripTen f (m / 10) (e - 1) else ⟨m, e⟩

/-- The canonical representation of `m / 10 ^ e`. -/
def DecNum.canon (m : Int) (e : Nat) : DecNum := stripTen e m e

def DecNum.ofNat (n : Nat) : DecNum := ⟨n, 0⟩

/-- Exact addition of two JavaScript numbers. -/
def DecNum.add (a b : DecNum) : DecNum :=
  DecNum.canon (a.man * (10 : Int) ^ b.exp + b.man * (10 : Int) ^ a.exp) (a.exp + b.exp)

/-- `Number.isInteger` on a canonical exact decimal. -/
def DecNum.isInt (n : DecNum) : Bool := n.exp == 0

/-- Assemble the value `± (ipart + fval / 10 ^ fexp) · 10 ^ e` from the
parts of a decimal numeral, in canonical form. -/
def DecNum.make (neg : Bool) (ipart fval fexp : Nat) (e : Int) : DecNum :=
  let m0 : Int := ((ipart * 10 ^ fexp + fval : Nat) : Int)
  let m1 : Int := if neg then -m0 else m0
  if (fexp : Int) ≤ e then ⟨m1 * (10 : Int) ^ (e - fexp).toNat, 0⟩
  else DecNum.canon m1 ((fexp : Int) - e).toNat

/-! ## The fenced-block scan

The source scans with the global regex `/```json\n([\s\S]*?)\n```/g`.
`matchAll` repeatedly finds the earliest occurrence of the literal opener
"```json\n", then the earliest later occurrence of the literal closer
"\n```" (the lazy `[\s\S]*?`), yields the match with its start index, full
text and captured inner text, and resumes scanning right after the match. -/

/-- The literal fence opener `"```json\n"` (8 characters). -/
def fenceOpen : Chars := '`' :: '`' :: '`' :: 'j' :: 's' :: 'o' :: 'n' :: '\n' :: []

/-- The literal fence closer `"\n```"` (4 characters). -/
def fenceClose : Chars := '\n' :: '`' :: '`' :: '`' :: []

/-- `leadsWith pat s` : `pat` is a prefix of `s`. -/
def leadsWith : Chars → Chars → Bool
  | [], _ => true
  | p :: ps, s =>
    match s with
    | [] => false
    | c :: cs => p == c && leadsWith ps cs

/-- Index of the first occurrence of `pat` in `s`, if any. -/
def findPat (pat : Chars) : Chars → Option Nat
  | [] => if leadsWith pat [] then some 0 else none
  | c :: cs => if leadsWith pat (c :: cs) then some 0 else (findPat pat cs).map (· + 1)

theorem leadsWith_length {pat s : Chars} (h : leadsWith pat s = true) :
    pat.length ≤ s.length := by
  induction pat generalizing s with
  | nil => simp
  | cons p ps ih =>
    cases s with
    | nil => simp [leadsWith] at h
    | cons c cs =>
      simp only [leadsWith, Bool.and_eq_true] at h
      simpa [Nat.succ_le_succ_iff] using ih h.2

theorem findPat_le {pat s : Chars} {i : Nat} (h : findPat pat s = some i) :
    i + pat.length ≤ s.length := by
  induction s generalizing i with
  | nil =>
    simp only [findPat] at h
    split at h
    · rename_i hlw
      cases h
      have hl := leadsWith_length hlw
      simp only [List.length_nil] at hl ⊢
      omega
    · cases h
  | cons c cs ih =>
    simp only [findPat] at h
    split at h
    · rename_i hlw
      cases h
      have hl := leadsWith_length hlw
      omega
    · cases hrec : findPat pat cs with
      | none => rw [hrec] at h; cases h
      | some j =>
        rw [hrec] at h
        simp only [Option.map_some'] at h
        cases h
        have := ih hrec
        simp only [List.length_cons]
        omega

/-- One regex match: start offset of the whole match in the document,
the full matched text (`match[0]`) and the captured group (`match[1]`). -/
structure MatchInfo where
  start : Nat
  full : Chars
  inner : Chars
deriving DecidableEq, Repr

/-- The scan underlying `examMd.matchAll(/```json\n([\s\S]*?)\n```/g)`:
match the earliest opener, the earliest closer after it, emit the match,
continue after the closer.  `base` is the offset of `s` in the document;
each step consumes at least twelve characters, so `fuel > s.length`
suffices. -/
def scanAux : Nat → Chars → Nat → List MatchInfo
  | 0, _, _ => []
  | fuel + 1, s, base =>
    match findPat fenceOpen s with
    | none => []
    | some i =>
      match findPat fenceClose (s.drop (i + 8)) with
      | none => []
      | some j =>
        { start := base + i
          full := (s.drop i).take (8 + j + 4)
          inner := (s.drop (i + 8)).take j } ::
          scanAux fuel ((s.drop (i + 8)).drop (j + 4)) (base + i + 8 + j + 4)

/-- `[...examMd.matchAll(/```json\n([\s\S]*?)\n```/g)]`. -/
def docMatches (examMd : Chars) : List MatchInfo := scanAux (examMd.length + 1) examMd 0

/-! ## JSON values

`JSON.parse` output: numbers are exact canonical decimals, object member
lists keep JavaScript property insertion order (on duplicate keys the first
occurrence keeps its position and the last value wins, as with repeated
assignment). -/

mutual
inductive JVal where
  | jnull : JVal
  | jbool : Bool → JVal
  | jnum : DecNum → JVal
  | jstr : Chars → JVal
  | jarr : JArr → JVal
  | jobj : JObj → JVal
deriving DecidableEq, Repr

/-- A JSON array (kept non-nested for structural recursion). -/
inductive JArr where
  | anil : JArr
  | acons : JVal → JArr → JArr
deriving DecidableEq, Repr

/-- A JSON object: ordered members. -/
inductive JObj where
  | onil : JObj
  | ocons : Chars → JVal → JObj → JObj
deriving DecidableEq, Repr
end

def JArr.toList : JArr → List JVal
  | .anil => []
  | .acons v t => v :: t.toList

def JArr.ofList : List JVal → JArr
  | [] => .anil
  | v :: t => .acons v (JArr.ofList t)

def JObj.entries : JObj → List (Chars × JVal)
  | .onil => []
  | .ocons k v t => (k, v) :: t.entries

/-- Assoc lookup in property order. -/
def objGet (k : Chars) : JObj → Option JVal
  | .onil => none
  | .ocons k' v t => if k' = k then some v else objGet k t

/-- JavaScript property assignment on an object: an existing key keeps its
position and gets the new value; a fresh key is appended. -/
def objSet (k : Chars) (v : JVal) : JObj → JObj
  | .onil => .ocons k v .onil
  | .ocons k' v' t => if k' = k then .ocons k v t else .ocons k' v' (objSet k v t)

/-- `x[k]` on a parsed JSON value: `undefined` (`none`) unless `x` is an
object with the key. -/
def jget (x : JVal) (k : Chars) : Option JVal :=
  match x with
  | .jobj kvs => objGet k kvs
  | _ => none

/-- `Object.prototype.hasOwnProperty.call(x, k)` (totalized at `null`). -/
def jhas (x : JVal) (k : Chars) : Bool := (jget x k).isSome

/-- `x[k] = v` on a parsed JSON value; assignment to a non-object primitive
is silently dropped, and added array properties are invisible to both
`JSON.stringify` and the later reads the source performs. -/
def jset (x : JVal) (k : Chars) (v : JVal) : JVal :=
  match x with
  | .jobj kvs => .jobj (objSet k v kvs)
  | other => other

/-- JavaScript truthiness of a parsed JSON value. -/
def jTruthy : JVal → Bool
  | .jnull => false
  | .jbool b => b
  | .jnum q => decide (q ≠ ⟨0, 0⟩)
  | .jstr s => decide (s ≠ [])
  | .jarr _ => true
  | .jobj _ => true

/-! ## JSON.parse -/

/-- The four JSON insignificant-whitespace characters. -/
def jsonWsCh (c : Char) : Bool :=
  c.toNat = 32 || c.toNat = 9 || c.toNat = 10 || c.toNat = 13

def dropJsonWs : Chars → Chars
  | [] => []
  | c :: cs => if jsonWsCh c then dropJsonWs cs else c :: cs

def isDigitCh (c : Char) : Bool := 48 ≤ c.toNat && c.toNat ≤ 57

/-- Split off the longest leading digit run. -/
def digitSpan : Chars → Chars × Chars
  | [] => ([], [])
  | c :: cs =>
    if isDigitCh c then
      let (ds, r) := digitSpan cs
      (c :: ds, r)
    else ([], c :: cs)

/-- Numeric value of a digit run. -/
def natOfDigits (ds : Chars) : Nat :=
  ds.foldl (fun a c => 10 * a + (c.toNat - 48)) 0

def hexDigitVal (c : Char) : Option Nat :=
  if 48 ≤ c.toNat && c.toNat ≤ 57 then some (c.toNat - 48)
  else if 97 ≤ c.toNat && c.toNat ≤ 102 then some (c.toNat - 87)
  else if 65 ≤ c.toNat && c.toNat ≤ 70 then some (c.toNat - 55)
  else none

/-- Body of a JSON string literal, after the opening quote.  `JSON.parse`
rejects unescaped control characters (below U+0020) inside strings. -/
def parseJStr (acc : Chars) : Chars → Option (Chars × Chars)
  | [] => none
  | '"' :: r => some (acc.reverse, r)
  | '\\' :: e :: r =>
    match e with
    | '"' => parseJStr ('"' :: acc) r
    | '\\' => parseJStr ('\\' :: acc) r
    | '/' => parseJStr ('/' :: acc) r
    | 'b' => parseJStr (Char.ofNat 8 :: acc) r
    | 'f' => parseJStr (Char.ofNat 12 :: acc) r
    | 'n' => parseJStr ('\n' :: acc) r
    | 'r' => parseJStr ('\r' :: acc) r
    | 't' => parseJStr ('\t' :: acc) r
    | 'u' =>
      match r with
      | a :: b :: c :: d :: r' =>
        match hexDigitVal a, hexDigitVal b, hexDigitVal c, hexDigitVal d with
        | some va, some vb, some vc, some vd =>
          parseJStr (Char.ofNat (((va * 16 + vb) * 16 + vc) * 16 + vd) :: acc) r'
        | _, _, _, _ => none
      | _ => none
    | _ => none
  | c :: r => if c.toNat < 32 then none else parseJStr (c :: acc) r

/-- JSON number grammar: `-? (0 | [1-9][0-9]*) (. [0-9]+)? ([eE][+-]?[0-9]+)?`,
with a leading zero not followed by further integer digits. -/
def parseJNum (cs : Chars) : Option (DecNum × Chars) :=
  let (neg, cs1) : Bool × Chars := match cs with
    | c :: r => if c == '-' then (true, r) else (false, cs)
    | [] => (false, cs)
  match cs1 with
  | [] => none
  | c :: r =>
    if ¬ (isDigitCh c = true) then none
    else
      let (ipart, cs2) : Nat × Chars :=
        if c = '0' then (0, r)
        else
          let (ds, r2) := digitSpan (c :: r)
          (natOfDigits ds, r2)
      if c == '0' && (match r with | d :: _ => isDigitCh d | [] => false) then none
      else
        let (fval, fexp, cs3) : Nat × Nat × Chars :=
          match cs2 with
          | '.' :: r3 =>
            let (fs, r4) := digitSpan r3
            (natOfDigits fs, fs.length, r4)
          | _ => (0, 0, cs2)
        match cs2 with
        | '.' :: r3 => if (digitSpan r3).1 = [] then none else
            parseJNumExp neg ipart fval fexp cs3
        | _ => parseJNumExp neg ipart fval fexp cs3
where
  /-- Optional exponent part, then assemble the value. -/
  parseJNumExp (neg : Bool) (ipart fval fexp : Nat) (cs : Chars) : Option (DecNum × Chars) :=
    match cs with
    | 'e' :: r | 'E' :: r =>
      let (esign, r1) : Int × Chars := match r with
        | s :: r' => if s == '+' then (1, r') else if s == '-' then (-1, r') else (1, r)
        | [] => (1, r)
      let (eds, r2) := digitSpan r1
      if eds = [] then none
      else some (DecNum.make neg ipart fval fexp (esign * (natOfDigits eds : Int)), r2)
    | _ => some (DecNum.make neg ipart fval fexp 0, cs)

mutual
/-- One JSON value (leading whitespace allowed), returning the remainder. -/
def parseJVal : Nat → Chars → Option (JVal × Chars)
  | 0, _ => none
  | fuel + 1, cs =>
    let s := dropJsonWs cs
    if leadsWith "null".toList s then some (.jnull, s.drop 4)
    else if leadsWith "true".toList s then some (.jbool true, s.drop 4)
    else if leadsWith "false".toList s then some (.jbool false, s.drop 5)
    else
      match s with
      | '"' :: r =>
        match parseJStr [] r with
        | some (t, r') => some (.jstr t, r')
        | none => none
      | '[' :: r =>
        match dropJsonWs r with
        | ']' :: r' => some (.jarr .anil, r')
        | _ => match parseJItems fuel r with
               | some (xs, r') => some (.jarr xs, r')
               | none => none
      | '{' :: r =>
        match dropJsonWs r with
        | '}' :: r' => some (.jobj .onil, r')
        | _ => match parseJMembers fuel .onil r with
               | some (kvs, r') => some (.jobj kvs, r')
               | none => none
      | c :: rest =>
        if c == '-' || isDigitCh c then
          match parseJNum (c :: rest) with
          | some (q, r') => some (.jnum q, r')
          | none => none
        else none
      | [] => none

/-- One-or-more comma-separated array elements, up to the closing `]`. -/
def parseJItems : Nat → Chars → Option (JArr × Chars)
  | 0, _ => none
  | fuel + 1, cs =>
    match parseJVal fuel cs with
    | none => none
    | some (v, r) =>
      match dropJsonWs r with
      | ',' :: r' =>
        match parseJItems fuel r' with
        | some (xs, r'') => some (.acons v xs, r'')
        | none => none
      | ']' :: r' => some (.acons v .anil, r')
      | _ => none

/-- One-or-more members, accumulated with assignment semantics (`objSet`),
up to the closing `}`. -/
def parseJMembers : Nat → JObj → Chars → Option (JObj × Chars)
  | 0, _, _ => none
  | fuel + 1, acc, cs =>
    match dropJsonWs cs with
    | '"' :: r =>
      match parseJStr [] r with
      | none => none
      | some (k, r1) =>
        match dropJsonWs r1 with
        | ':' :: r2 =>
          match parseJVal fuel r2 with
          | none => none
          | some (v, r3) =>
            match dropJsonWs r3 with
            | ',' :: r4 => parseJMembers fuel (objSet k v acc) r4
            | '}' :: r4 => some (objSet k v acc, r4)
            | _ => none
        | _ => none
    | _ => none
end

/-- `JSON.parse` on a whole text: one value, then only whitespace. -/
def parseJson (s : Chars) : Option JVal :=
  match parseJVal (s.length + 1) s with
  | some (v, r) => if dropJsonWs r = [] then some v else none
  | none => none

/-! ## JSON.stringify -/

def hexDigitCh (n : Nat) : Char :=
  if n < 10 then Char.ofNat (48 + n) else Char.ofNat (87 + n)

/-- `JSON.stringify`'s escaping of one string character (`QuoteJSONString`):
`"` and `\` get a backslash, the named control escapes are used where they
exist, remaining control characters become `\u00xx`. -/
def escCh (c : Char) : Chars :=
  if c == '"' || c == '\\' then '\\' :: [c]
  else if 32 ≤ c.toNat then [c]
  else if c.toNat = 10 then '\\' :: ['n']
  else if c.toNat = 13 then '\\' :: ['r']
  else if c.toNat = 9 then '\\' :: ['t']
  else if c.toNat = 8 then '\\' :: ['b']
  else if c.toNat = 12 then '\\' :: ['f']
  else '\\' :: 'u' :: '0' :: '0' :: hexDigitCh (c.toNat / 16) :: [hexDigitCh (c.toNat % 16)]

/-- A rendered string literal, quotes included. -/
def renderStr (s : Chars) : Chars := '"' :: (s.flatMap escCh ++ ['"'])

def digitCh (d : Nat) : Char := Char.ofNat (48 + d)

/-- Decimal digit characters of `n`; `fuel > n` suffices. -/
def natCharsF : Nat → Nat → Chars
  | 0, _ => []
  | fuel + 1, n => if n < 10 then [digitCh n] else natCharsF fuel (n / 10) ++ [digitCh (n % 10)]

/-- Decimal digits of `n`, no leading zeros (`"0"` for zero). -/
def natChars (n : Nat) : Chars := natCharsF (n + 1) n

def intChars (i : Int) : Chars :=
  (if i < 0 then ['-'] else []) ++ natChars i.natAbs

/-- `String(q)` for a JavaScript number in the model: integers in plain
decimal, other values in exact shortest decimal notation (the canonical
form has a nonzero last fractional digit). -/
def numChars (n : DecNum) : Chars :=
  if n.exp = 0 then intChars n.man
  else
    let a : Nat := n.man.natAbs
    let frac : Chars := natChars (a % 10 ^ n.exp)
    (if n.man < 0 then ['-'] else []) ++ natChars (a / 10 ^ n.exp) ++
      '.' :: (List.replicate (n.exp - frac.length) '0' ++ frac)

/-- `"  " × n` : the accumulated `JSON.stringify` indent at nesting level
`n` with gap 2. -/
def pad (n : Nat) : Chars := List.replicate (2 * n) ' '

mutual
/-- `JSON.stringify(v, null, 2)` at nesting level `lvl` when `ind = true`,
and plain `JSON.stringify(v)` when `ind = false`. -/
def renderJ : JVal → Bool → Nat → Chars
  | .jnull, _, _ => "null".toList
  | .jbool true, _, _ => "true".toList
  | .jbool false, _, _ => "false".toList
  | .jnum q, _, _ => numChars q
  | .jstr s, _, _ => renderStr s
  | .jarr .anil, _, _ => ['[', ']']
  | .jarr (.acons x xs), ind, lvl =>
    if ind then
      '[' :: '\n' :: (pad (lvl + 1) ++ renderItems (.acons x xs) ind (lvl + 1) ++
        '\n' :: (pad lvl ++ [']']))
    else '[' :: (renderItems (.acons x xs) ind (lvl + 1) ++ [']'])
  | .jobj .onil, _, _ => ['{', '}']
  | .jobj (.ocons k v kvs), ind, lvl =>
    if ind then
      '{' :: '\n' :: (pad (lvl + 1) ++ renderMembers (.ocons k v kvs) ind (lvl + 1) ++
        '\n' :: (pad lvl ++ ['}']))
    else '{' :: (renderMembers (.ocons k v kvs) ind (lvl + 1) ++ ['}'])

/-- Comma-separated rendered elements (with the indented separator when
`ind = true`). -/
def renderItems : JArr → Bool → Nat → Chars
  | .anil, _, _ => []
  | .acons x .anil, ind, lvl => renderJ x ind lvl
  | .acons x (.acons y ys), ind, lvl =>
    renderJ x ind lvl ++
      (if ind then ',' :: '\n' :: pad lvl else [',']) ++ renderItems (.acons y ys) ind lvl

/-- Comma-separated rendered members. -/
def renderMembers : JObj → Bool → Nat → Chars
  | .onil, _, _ => []
  | .ocons k v .onil, ind, lvl =>
    renderStr k ++ (if ind then ':' :: ' ' :: [] else [':']) ++ renderJ v ind lvl
  | .ocons k v (.ocons k' v' kvs), ind, lvl =>
    renderStr k ++ (if ind then ':' :: ' ' :: [] else [':']) ++ renderJ v ind lvl ++
      (if ind then ',' :: '\n' :: pad lvl else [',']) ++
      renderMembers (.ocons k' v' kvs) ind lvl
end

/-- `JSON.stringify(v, null, 2)`. -/
def stringify2 (v : JVal) : Chars := renderJ v true 0

/-- `JSON.stringify(v)`. -/
def stringifyC (v : JVal) : Chars := renderJ v false 0

/-! ## JavaScript coercions -/

mutual
/-- `String(x)` for a parsed JSON value (arrays join with `","`;
`null` elements of a join become empty). -/
def jsToStr : JVal → Chars
  | .jnull => "null".toList
  | .jbool true => "true".toList
  | .jbool false => "false".toList
  | .jnum q => numChars q
  | .jstr s => s
  | .jarr .anil => []
  | .jarr (.acons x xs) =>
    (match x with | .jnull => [] | v => jsToStr v) ++ jsJoinTail xs
  | .jobj _ => "[object Object]".toList

/-- The remaining `","`-separated elements of an array join. -/
def jsJoinTail : JArr → Chars
  | .anil => []
  | .acons y ys => ',' :: ((match y with | .jnull => [] | v => jsToStr v) ++ jsJoinTail ys)
end

/-- `Array.prototype.join` stringifies elements with `String(·)`, except
`null`/`undefined` elements become empty. -/
def jsArrElemStr : JVal → Chars
  | .jnull => []
  | v => jsToStr v

/-- JavaScript `\s` / `String.prototype.trim` whitespace set (WhiteSpace
and LineTerminator code points). -/
def jsWsCh (c : Char) : Bool :=
  c.toNat == 0x20 || c.toNat == 0x09 || c.toNat == 0x0a || c.toNat == 0x0b ||
  c.toNat == 0x0c || c.toNat == 0x0d || c.toNat == 0xa0 || c.toNat == 0x1680 ||
  (0x2000 ≤ c.toNat && c.toNat ≤ 0x200a) || c.toNat == 0x2028 ||
  c.toNat == 0x2029 || c.toNat == 0x202f || c.toNat == 0x205f ||
  c.toNat == 0x3000 || c.toNat == 0xfeff

/-- `s.trim()`. -/
def jsTrim (s : Chars) : Chars :=
  ((s.dropWhile jsWsCh).reverse.dropWhile jsWsCh).reverse

/-- `Number(s)` on a string: trimmed empty is `0`; otherwise a decimal
`StrNumericLiteral` (optional sign, digits with optional fraction and
exponent, `Infinity`); anything else is `NaN`.  `NaN` and `±Infinity` are
collapsed to `none` (only finiteness and the finite value are consumed).
(Hex/octal/binary literal strings, which `Number` also accepts, are
outside the model.) -/
def strToNumber (s : Chars) : Option DecNum :=
  let t := jsTrim s
  if t = [] then some ⟨0, 0⟩
  else
    let (neg, t1) : Bool × Chars := match t with
      | c :: r => if c == '-' then (true, r) else if c == '+' then (false, r) else (false, t)
      | [] => (false, t)
    if t1 = "Infinity".toList then none
    else
      let (ids, t2) := digitSpan t1
      let (fds, t3) : Chars × Chars := match t2 with
        | '.' :: r => digitSpan r
        | _ => ([], t2)
      if ids = [] ∧ fds = [] then none
      else
        let (eok, e, t4) : Bool × Int × Chars := match t3 with
          | 'e' :: r | 'E' :: r =>
            let (es, r1) : Int × Chars := match r with
              | c :: r' => if c == '+' then (1, r') else if c == '-' then (-1, r') else (1, r)
              | [] => (1, r)
            let (eds, r2) := digitSpan r1
            if eds = [] then (false, 0, r2) else (true, es * (natOfDigits eds : Int), r2)
          | _ => (true, 0, t3)
        if ¬ (eok = true) then none
        else if ¬ (t4 = []) then none
        else some (DecNum.make neg (natOfDigits ids) (natOfDigits fds) fds.length e)

/-- `Number(x)` for a parsed JSON value or `undefined` (`none`), collapsed
to `none` when not finite. -/
def jsToNumber : Option JVal → Option DecNum
  | none => none
  | some .jnull => some ⟨0, 0⟩
  | some (.jbool b) => some (if b then ⟨1, 0⟩ else ⟨0, 0⟩)
  | some (.jnum q) => some q
  | some (.jstr s) => strToNumber s
  | some (.jarr .anil) => some ⟨0, 0⟩
  | some (.jarr (.acons x .anil)) => strToNumber (jsArrElemStr x)
  | some (.jarr (.acons x (.acons y ys))) => strToNumber (jsToStr (.jarr (.acons x (.acons y ys))))
  | some (.jobj _) => none

/-! ## normalizeTags (process.ts lines 166–196) -/

/-- ASCII model of `String.prototype.toLowerCase`. -/
def lowerCh (c : Char) : Char :=
  if 65 ≤ c.toNat ∧ c.toNat ≤ 90 then Char.ofNat (c.toNat + 32) else c

/-- The character class `[\s_\/]` of the first tag-cleaning regex. -/
def spacyCh (c : Char) : Bool := jsWsCh c || c == '_' || c == '/'

/-- Replace each run of `[\s_\/]` by one hyphen; `fuel > s.length`
suffices. -/
def dashRunsF : Nat → Chars → Chars
  | 0, _ => []
  | _ + 1, [] => []
  | fuel + 1, c :: cs =>
    if spacyCh c then '-' :: dashRunsF fuel (cs.dropWhile spacyCh)
    else c :: dashRunsF fuel cs

/-- The second cleaning step (replace `[\s_\/]+` runs with `"-"`). -/
def dashRuns (s : Chars) : Chars := dashRunsF (s.length + 1) s

/-- The character class `[a-z0-9-]`. -/
def tagCh (c : Char) : Bool :=
  (97 ≤ c.toNat && c.toNat ≤ 122) || (48 ≤ c.toNat && c.toNat ≤ 57) || c.toNat == 45

/-- Collapse each hyphen run to one hyphen; `fuel > s.length` suffices. -/
def collapseDashF : Nat → Chars → Chars
  | 0, _ => []
  | _ + 1, [] => []
  | fuel + 1, c :: cs =>
    if c = '-' then '-' :: collapseDashF fuel (cs.dropWhile (· = '-'))
    else c :: collapseDashF fuel cs

/-- The fourth cleaning step (collapse `-+` runs to `"-"`). -/
def collapseDash (s : Chars) : Chars := collapseDashF (s.length + 1) s

/-- The fifth cleaning step (strip leading and trailing hyphen runs). -/
def trimDash (s : Chars) : Chars :=
  ((s.dropWhile (· = '-')).reverse.dropWhile (· = '-')).reverse

/-- The per-tag cleaning pipeline of `normalizeTags` (lines 179–183). -/
def cleanTag (tag : Chars) : Chars :=
  trimDash (collapseDash ((dashRuns (tag.map lowerCh)).filter tagCh))

/-- The loop body of `normalizeTags`: skip non-strings, clean, drop
empties, de-duplicate preserving first-seen order.  (The source keeps a
`Set` named `seen` alongside `normalized`; its contents always equal the
set of entries of `normalized`, so membership is checked there.) -/
def normTagsFold (acc : List Chars) : JArr → List Chars
  | .anil => acc
  | .acons t ts =>
    match t with
    | .jstr s =>
      let cleaned := cleanTag s
      if cleaned = [] then normTagsFold acc ts
      else if acc.contains cleaned then normTagsFold acc ts
      else normTagsFold (acc ++ [cleaned]) ts
    | _ => normTagsFold acc ts

/-- `normalizeTags(rawTags)` (lines 166–196); `none` is JavaScript
`undefined` (the `tags` field being absent). -/
def normalizeTags (rawTags : Option JVal) : List Chars :=
  match rawTags with
  | some (.jarr ts) =>
    let normalized := normTagsFold [] ts
    if normalized.length > 0 then normalized else ["misc".toList]
  | _ => ["misc".toList]

/-! ## The hard-fail guards (process.ts lines 108–164) -/

def problemIdKey : Chars := "problem_id".toList
def pointsKey : Chars := "points".toList
def answerKey : Chars := "answer".toList
def tagsKey : Chars := "tags".toList

/-- `` `${x}` `` for the template literals in the error messages
(`undefined` is interpolated as "undefined"; unreachable after the
`hasOwnProperty` test). -/
def interp : Option JVal → Chars
  | some v => jsToStr v
  | none => "undefined".toList

/-- The error text of `assertIntegerPoints`. -/
def nonIntegerMsg (pid : Option JVal) (q : DecNum) : Chars :=
  "Non-integer points for problem_id ".toList ++ interp pid ++ ": ".toList ++ numChars q

/-- The loop of `assertIntegerPoints`: scan the matches, skip parse
failures and blocks without `problem_id`; throw on the first block whose
`points` is a number that is not an integer. -/
def aipGo : List MatchInfo → Except Chars Unit
  | [] => .ok ()
  | m :: rest =>
    match parseJson m.inner with
    | none => aipGo rest
    | some parsed =>
      if ¬ (jhas parsed problemIdKey = true) then aipGo rest
      else
        match jget parsed pointsKey with
        | some (.jnum q) =>
          if ¬ (q.isInt = true) then .error (nonIntegerMsg (jget parsed problemIdKey) q)
          else aipGo rest
        | _ => aipGo rest

/-- `assertIntegerPoints` (lines 108–133). -/
def assertIntegerPoints (examMd : Chars) : Except Chars Unit :=
  aipGo (docMatches examMd)

/-- `String(parsed.problem_id ?? "?")`. -/
def pidFallbackStr (pid : Option JVal) : Chars :=
  match pid with
  | some .jnull => ['?']
  | some v => jsToStr v
  | none => ['?']

/-- `missingAnswers.join(", ")`. -/
def joinCommaSp : List Chars → Chars
  | [] => []
  | [x] => x
  | x :: y :: ys => x ++ ',' :: ' ' :: joinCommaSp (y :: ys)

/-- The list of offending `problem_id` strings collected by
`assertNonEmptyAnswers` (lines 140–157). -/
def missingAnswerIds (examMd : Chars) : List Chars :=
  (docMatches examMd).foldl
    (fun acc m =>
      match parseJson m.inner with
      | none => acc
      | some parsed =>
        if ¬ (jhas parsed problemIdKey = true) then acc
        else
          match jget parsed answerKey with
          | some (.jstr s) =>
            if (jsTrim s).length = 0 then acc ++ [pidFallbackStr (jget parsed problemIdKey)]
            else acc
          | _ => acc ++ [pidFallbackStr (jget parsed problemIdKey)])
    []

/-- The error text of `assertNonEmptyAnswers`. -/
def missingAnswersMsg (ids : List Chars) : Chars :=
  "Missing or empty answers for problem_id(s): ".toList ++ joinCommaSp ids

/-- `assertNonEmptyAnswers` (lines 135–164): aggregate all offenders, then
throw a single error listing them. -/
def assertNonEmptyAnswers (examMd : Chars) : Except Chars Unit :=
  if missingAnswerIds examMd ≠ [] then .error (missingAnswersMsg (missingAnswerIds examMd))
  else .ok ()

/-- The post-normalization guard phase of the `POST` handler
(process.ts lines 755–756): `assertIntegerPoints` first, then
`assertNonEmptyAnswers`. -/
def guardPhase (examMd : Chars) : Except Chars Unit := do
  let _ ← assertIntegerPoints examMd
  assertNonEmptyAnswers examMd

/-! ## normalizeExamMetadataAndTags (process.ts lines 198–298) -/

/-- A pending replacement `{ start, end, text }`. -/
structure Upd where
  start : Nat
  stop : Nat
  text : Chars
deriving DecidableEq, Repr

/-- Loop state: `questionCount`, `totalPoints`, the `updates` array, and
the captured `metadata` / `metadataMatch`. -/
structure NormSt where
  qc : Nat
  total : DecNum
  updates : List Upd
  meta : Option (JVal × MatchInfo)

/-- A replacement block: `fenceOpen ++ body ++ fenceClose`. -/
def fenceWrap (body : Chars) : Chars := fenceOpen ++ body ++ fenceClose

/-- The body of the main loop (lines 213–254) for the match at position
`idx` in the matches array.  (`totalPoints += points` is guarded by
`typeof points === "number" && Number.isFinite(points)` in the source;
every number is finite in the model.) -/
def normStep (st : NormSt) (idx : Nat) (m : MatchInfo) : NormSt :=
  match parseJson m.inner with
  | none => st
  | some parsed =>
    let hasPid := jhas parsed problemIdKey
    if idx = 0 ∧ hasPid = false then { st with meta := some (parsed, m) }
    else if hasPid = false then st
    else
      let total' := match jget parsed pointsKey with
        | some (.jnum q) => st.total.add q
        | _ => st.total
      let ntags := normalizeTags (jget parsed tagsKey)
      let ntagsArr : JVal := .jarr (JArr.ofList (ntags.map .jstr))
      let tagsChanged :=
        some (stringifyC ntagsArr) ≠ (jget parsed tagsKey).map stringifyC
      if tagsChanged then
        let parsed' := jset parsed tagsKey ntagsArr
        { st with
          qc := st.qc + 1
          total := total'
          updates := st.updates ++
            [{ start := m.start, stop := m.start + m.full.length
               text := fenceWrap (stringify2 parsed') }] }
      else { st with qc := st.qc + 1, total := total' }

/-- `numQuestions !== questionCount`: strict, type-sensitive comparison
of the stored `num_questions` (or `undefined`) with the computed count
(line 259). -/
def mdChanged1 (md : JVal) (qc : Nat) : Bool :=
  match jget md "num_questions".toList with
  | some (.jnum q) => decide (q ≠ DecNum.ofNat qc)
  | _ => true

/-- `typeof scoreTotalRaw === "number" ? scoreTotalRaw : Number(scoreTotalRaw)`
(lines 264–266). -/
def scoreView (x : Option JVal) : Option DecNum :=
  match x with
  | some (.jnum q) => some q
  | other => jsToNumber other

/-- `!Number.isFinite(scoreTotal) || scoreTotal !== totalPoints`
(line 267). -/
def mdChanged2 (md1 : JVal) (total : DecNum) : Bool :=
  match scoreView (jget md1 "score_total".toList) with
  | none => true
  | some q => decide (q ≠ total)

/-- The metadata object after the `num_questions` repair (lines 259–262). -/
def mdAfter1 (md : JVal) (qc : Nat) : JVal :=
  if mdChanged1 md qc then jset md "num_questions".toList (.jnum (DecNum.ofNat qc)) else md

/-- The metadata object after both repairs (lines 259–270). -/
def mdAfter2 (md : JVal) (qc : Nat) (total : DecNum) : JVal :=
  if mdChanged2 (mdAfter1 md qc) total
  then jset (mdAfter1 md qc) "score_total".toList (.jnum total)
  else mdAfter1 md qc

/-- The metadata-repair step (lines 256–281), returning the final updates
array. -/
def metaStep (st : NormSt) : List Upd :=
  match st.meta with
  | none => st.updates
  | some (md, mm) =>
    if jTruthy md = true ∧ st.qc > 0 then
      if mdChanged1 md st.qc || mdChanged2 (mdAfter1 md st.qc) st.total then
        st.updates ++
          [{ start := mm.start, stop := mm.start + mm.full.length
             text := fenceWrap (stringify2 (mdAfter2 md st.qc st.total)) }]
      else st.updates
    else st.updates

/-- Insertion into a list kept in descending `start` order (the
`updates.sort((a, b) => b.start - a.start)`; starts are pairwise
distinct). -/
def insDesc (u : Upd) : List Upd → List Upd
  | [] => [u]
  | v :: t => if v.start ≤ u.start then u :: v :: t else v :: insDesc u t

def sortDescUpd (us : List Upd) : List Upd := us.foldr insDesc []

/-- `updatedExamMd.slice(0, start) + text + updatedExamMd.slice(end)`. -/
def applyUpd (s : Chars) (u : Upd) : Chars := s.take u.start ++ u.text ++ s.drop u.stop

/-- Fold of the main loop over the enumerated matches. -/
def normLoop (ms : List MatchInfo) : NormSt :=
  (ms.enum.foldl (fun st p => normStep st p.1 p.2)
    { qc := 0, total := ⟨0, 0⟩, updates := [], meta := none })

/-- `normalizeExamMetadataAndTags` (lines 198–298). -/
def normalizeExamMetadataAndTags (examMd : Chars) : Chars :=
  let ms := docMatches examMd
  if ms = [] then examMd
  else
    let updates := metaStep (normLoop ms)
    if updates = [] then examMd
    else (sortDescUpd updates).foldl applyUpd examMd

/-! ## Derived views of the scan

These definitions re-express what the loops above compute, for use in the
specification theorems; the lemmas connecting them to the loops are proved
below. -/

/-- A parsed block is a Question Block iff it has a `problem_id` key. -/
def isQuestion (p : JVal) : Bool := jhas p problemIdKey

/-- The parsed values of all parseable Question Blocks, in document
order. -/
def questionVals (doc : Chars) : List JVal :=
  ((docMatches doc).filterMap fun m => parseJson m.inner).filter isQuestion

/-- The `points` field, when it is number-typed. -/
def pointsOf (p : JVal) : Option DecNum :=
  match jget p pointsKey with
  | some (.jnum q) => some q
  | _ => none

/-- A number-typed, non-integer `points` field. -/
def fracPoints (p : JVal) : Bool :=
  match pointsOf p with
  | some q => ! q.isInt
  | none => false

/-- An `answer` that is missing, not a string, or empty after trimming. -/
def badAnswer (p : JVal) : Bool :=
  match jget p answerKey with
  | some (.jstr s) => decide ((jsTrim s).length = 0)
  | _ => true

/-! ## Characterizing the guards -/

theorem aipGo_spec (ms : List MatchInfo) :
    aipGo ms =
      match ((ms.filterMap fun m => parseJson m.inner).filter isQuestion).find? fracPoints with
      | none => .ok ()
      | some p => .error (nonIntegerMsg (jget p problemIdKey) ((pointsOf p).getD ⟨0, 0⟩)) := by
  induction ms with
  | nil => simp [aipGo]
  | cons m rest ih =>
    rw [aipGo]
    cases hp : parseJson m.inner with
    | none => simpa [hp] using ih
    | some p =>
      by_cases hq : jhas p problemIdKey = true
      · have hiq : isQuestion p = true := hq
        cases hpts : jget p pointsKey with
        | none =>
          have hfp : fracPoints p = false := by simp [fracPoints, pointsOf, hpts]
          simpa [hp, hq, hiq, hpts, List.find?, hfp] using ih
        | some v =>
          cases v with
          | jnum q =>
            by_cases hint : q.isInt = true
            · have hfp : fracPoints p = false := by
                simp [fracPoints, pointsOf, hpts, hint]
              simpa [hp, hq, hiq, hpts, hint, List.find?, hfp] using ih
            · have hfp : fracPoints p = true := by
                simp [fracPoints, pointsOf, hpts]
                simpa using hint
              have hpo : (pointsOf p).getD ⟨0, 0⟩ = q := by simp [pointsOf, hpts]
              simp [hp, hq, hiq, hpts, hint, List.find?, hfp, hpo]
          | jnull =>
            have hfp : fracPoints p = false := by simp [fracPoints, pointsOf, hpts]
            simpa [hp, hq, hiq, hpts, List.find?, hfp] using ih
          | jbool b =>
            have hfp : fracPoints p = false := by simp [fracPoints, pointsOf, hpts]
            simpa [hp, hq, hiq, hpts, List.find?, hfp] using ih
          | jstr s =>
            have hfp : fracPoints p = false := by simp [fracPoints, pointsOf, hpts]
            simpa [hp, hq, hiq, hpts, List.find?, hfp] using ih
          | jarr a =>
            have hfp : fracPoints p = false := by simp [fracPoints, pointsOf, hpts]
            simpa [hp, hq, hiq, hpts, List.find?, hfp] using ih
          | jobj o =>
            have hfp : fracPoints p = false := by simp [fracPoints, pointsOf, hpts]
            simpa [hp, hq, hiq, hpts, List.find?, hfp] using ih
      · have hiq : isQuestion p = false := by
          simp [isQuestion]
          simpa using hq
        simpa [hp, hq, hiq] using ih

theorem missingAnswerIds_go (ms : List MatchInfo) :
    ∀ init : List Chars,
      ms.foldl
        (fun acc m =>
          match parseJson m.inner with
          | none => acc
          | some parsed =>
            if ¬ (jhas parsed problemIdKey = true) then acc
            else
              match jget parsed answerKey with
              | some (.jstr s) =>
                if (jsTrim s).length = 0 then acc ++ [pidFallbackStr (jget parsed problemIdKey)]
                else acc
              | _ => acc ++ [pidFallbackStr (jget parsed problemIdKey)])
        init
      = init ++
        (((ms.filterMap fun m => parseJson m.inner).filter isQuestion).filter badAnswer).map
          (fun p => pidFallbackStr (jget p problemIdKey)) := by
  induction ms with
  | nil => intro init; simp
  | cons m rest ih =>
    intro init
    rw [List.foldl_cons]
    cases hp : parseJson m.inner with
    | none => simpa [hp] using ih init
    | some p =>
      by_cases hq : jhas p problemIdKey = true
      · have hiq : isQuestion p = true := hq
        cases ha : jget p answerKey with
        | none =>
          have hba : badAnswer p = true := by simp [badAnswer, ha]
          simpa [hp, hq, hiq, ha, hba] using ih (init ++ [pidFallbackStr (jget p problemIdKey)])
        | some v =>
          cases v with
          | jstr s =>
            by_cases hz : (jsTrim s).length = 0
            · have hba : badAnswer p = true := by simp [badAnswer, ha, hz]
              simpa [hp, hq, hiq, ha, hz, hba]
                using ih (init ++ [pidFallbackStr (jget p problemIdKey)])
            · have hba : badAnswer p = false := by simp [badAnswer, ha, hz]
              simpa [hp, hq, hiq, ha, hz, hba] using ih init
          | jnull =>
            have hba : badAnswer p = true := by simp [badAnswer, ha]
            simpa [hp, hq, hiq, ha, hba] using ih (init ++ [pidFallbackStr (jget p problemIdKey)])
          | jbool b =>
            have hba : badAnswer p = true := by simp [badAnswer, ha]
            simpa [hp, hq, hiq, ha, hba] using ih (init ++ [pidFallbackStr (jget p problemIdKey)])
          | jnum q =>
            have hba : badAnswer p = true := by simp [badAnswer, ha]
            simpa [hp, hq, hiq, ha, hba] using ih (init ++ [pidFallbackStr (jget p problemIdKey)])
          | jarr a =>
            have hba : badAnswer p = true := by simp [badAnswer, ha]
            simpa [hp, hq, hiq, ha, hba] using ih (init ++ [pidFallbackStr (jget p problemIdKey)])
          | jobj o =>
            have hba : badAnswer p = true := by simp [badAnswer, ha]
            simpa [hp, hq, hiq, ha, hba] using ih (init ++ [pidFallbackStr (jget p problemIdKey)])
      · have hiq : isQuestion p = false := by
          simp [isQuestion]
          simpa using hq
        simpa [hp, hq, hiq] using ih init

/-- `missingAnswerIds` collects, in document order, the coerced
`problem_id` of exactly the parseable Question Blocks with a bad
answer. -/
theorem missingAnswerIds_spec (doc : Chars) :
    missingAnswerIds doc =
      ((questionVals doc).filter badAnswer).map
        (fun p => pidFallbackStr (jget p problemIdKey)) := by
  rw [missingAnswerIds, questionVals]
  simpa using missingAnswerIds_go (docMatches doc) []

/-! ## Characterizing the normalization loop -/

/-- The number of parseable Question Blocks among the matches. -/
def qCount (ms : List MatchInfo) : Nat :=
  ((ms.filterMap fun m => parseJson m.inner).filter isQuestion).length

/-- The running `totalPoints` after folding the number-typed `points` of
the parseable Question Blocks onto `t`. -/
def qTotalFrom (t : DecNum) (ms : List MatchInfo) : DecNum :=
  ((ms.filterMap fun m => parseJson m.inner).filter isQuestion).foldl
    (fun t p => match pointsOf p with | some q => t.add q | none => t) t

/-- `totalPoints` of a match list. -/
def qTotal (ms : List MatchInfo) : DecNum := qTotalFrom ⟨0, 0⟩ ms

/-- The tag-rewrite update a single match contributes, if any. -/
def questionUpd (m : MatchInfo) : Option Upd :=
  match parseJson m.inner with
  | none => none
  | some p =>
    if isQuestion p then
      let ntags := normalizeTags (jget p tagsKey)
      let ntagsArr : JVal := .jarr (JArr.ofList (ntags.map .jstr))
      if some (stringifyC ntagsArr) ≠ (jget p tagsKey).map stringifyC then
        some { start := m.start, stop := m.start + m.full.length
               text := fenceWrap (stringify2 (jset p tagsKey ntagsArr)) }
      else none
    else none

/-- All tag-rewrite updates, in match order. -/
def qUpdates (ms : List MatchInfo) : List Upd := ms.filterMap questionUpd

/-- The block captured as `metadata`/`metadataMatch`: the match at index 0,
provided it parses and has no `problem_id`. -/
def metaOf : List MatchInfo → Option (JVal × MatchInfo)
  | [] => none
  | m :: _ =>
    match parseJson m.inner with
    | none => none
    | some p => if isQuestion p then none else some (p, m)

theorem normStep_pos (st : NormSt) (k : Nat) (hk : 1 ≤ k) (m : MatchInfo) :
    normStep st k m =
      match parseJson m.inner with
      | none => st
      | some p =>
        if isQuestion p then
          { st with
            qc := st.qc + 1
            total := match pointsOf p with | some q => st.total.add q | none => st.total
            updates := st.updates ++ (questionUpd m).toList }
        else st := by
  rw [normStep]
  cases hp : parseJson m.inner with
  | none => rfl
  | some p =>
    have h1 : ¬ (k = 0 ∧ jhas p problemIdKey = false) := by
      rintro ⟨h, -⟩
      omega
    dsimp only
    rw [if_neg h1]
    by_cases hq : jhas p problemIdKey = true
    · have hiq : isQuestion p = true := hq
      have hq' : ¬ (jhas p problemIdKey = false) := by simp [hq]
      rw [if_neg hq', if_pos hiq]
      by_cases htc :
          some (stringifyC (.jarr (JArr.ofList ((normalizeTags (jget p tagsKey)).map .jstr))))
            ≠ (jget p tagsKey).map stringifyC
      · rw [if_pos htc]
        simp only [questionUpd, hp, hiq, if_pos htc, if_true, Option.toList_some]
        cases hpts : jget p pointsKey with
        | none => simp [pointsOf, hpts]
        | some v => cases v <;> simp [pointsOf, hpts]
      · rw [if_neg htc]
        simp only [questionUpd, hp, hiq, if_neg htc, if_true, Option.toList_none,
          List.append_nil]
        cases hpts : jget p pointsKey with
        | none => simp [pointsOf, hpts]
        | some v => cases v <;> simp [pointsOf, hpts]
    · have hiq : isQuestion p = false := by
        simp only [isQuestion]
        simpa using hq
      have hq' : jhas p problemIdKey = false := by simpa using hq
      simp [hq', hiq]

theorem normFold_tail (ms : List MatchInfo) :
    ∀ (st : NormSt) (k : Nat), 1 ≤ k →
      ((ms.enumFrom k).foldl (fun st p => normStep st p.1 p.2) st) =
        { qc := st.qc + qCount ms
          total := qTotalFrom st.total ms
          updates := st.updates ++ qUpdates ms
          meta := st.meta } := by
  induction ms with
  | nil =>
    intro st k hk
    simp [qCount, qTotalFrom, qUpdates]
  | cons m rest ih =>
    intro st k hk
    rw [List.enumFrom, List.foldl_cons, normStep_pos st k hk m]
    cases hp : parseJson m.inner with
    | none =>
      dsimp only
      rw [ih st (k + 1) (by omega)]
      simp [qCount, qTotalFrom, qUpdates, hp, questionUpd]
    | some p =>
      dsimp only
      by_cases hiq : isQuestion p = true
      · rw [if_pos hiq,
            ih _ (k + 1) (by omega)]
        simp only [qCount, qTotalFrom, qUpdates, List.filterMap_cons, hp, List.filter_cons,
          hiq, if_true, List.length_cons, List.foldl_cons, questionUpd, NormSt.mk.injEq]
        refine ⟨by omega, ?_, ?_, trivial⟩
        · cases hpo : pointsOf p <;> simp [hpo]
        · by_cases hc :
              some (stringifyC (JVal.jarr (JArr.ofList
                  (List.map JVal.jstr (normalizeTags (jget p tagsKey)))))) =
                Option.map stringifyC (jget p tagsKey) <;>
            simp [hc]
      · rw [if_neg hiq, ih st (k + 1) (by omega)]
        simp [qCount, qTotalFrom, qUpdates, hp, hiq, questionUpd]

/-- What the main loop computes: the Question-Block count, the sum of
number-typed `points`, the tag updates in match order, and the metadata
captured only from the match at index 0. -/
theorem normLoop_spec (ms : List MatchInfo) :
    normLoop ms =
      { qc := qCount ms, total := qTotal ms, updates := qUpdates ms, meta := metaOf ms } := by
  cases ms with
  | nil => rfl
  | cons m rest =>
    rw [normLoop]
    have henum : (m :: rest).enum = (0, m) :: rest.enumFrom 1 := by
      simp [List.enum]
    rw [henum, List.foldl_cons]
    have hstep : normStep { qc := 0, total := ⟨0, 0⟩, updates := [], meta := none } 0 m =
        match parseJson m.inner with
        | none => { qc := 0, total := ⟨0, 0⟩, updates := [], meta := none }
        | some p =>
          if isQuestion p then
            { qc := 1
              total := match pointsOf p with | some q => DecNum.add ⟨0, 0⟩ q | none => ⟨0, 0⟩
              updates := (questionUpd m).toList
              meta := none }
          else { qc := 0, total := ⟨0, 0⟩, updates := [], meta := some (p, m) } := by
      rw [normStep]
      cases hp : parseJson m.inner with
      | none => rfl
      | some p =>
        by_cases hq : jhas p problemIdKey = true
        · have hiq : isQuestion p = true := hq
          have hq' : ¬ (0 = 0 ∧ jhas p problemIdKey = false) := by simp [hq]
          have hq'' : ¬ (jhas p problemIdKey = false) := by simp [hq]
          dsimp only
          rw [if_neg hq', if_neg hq'', if_pos hiq]
          by_cases htc :
              some (stringifyC (.jarr (JArr.ofList ((normalizeTags (jget p tagsKey)).map .jstr))))
                ≠ (jget p tagsKey).map stringifyC
          · rw [if_pos htc]
            simp only [questionUpd, hp, hiq, if_pos htc, if_true, Option.toList_some]
            cases hpts : jget p pointsKey with
            | none => simp [pointsOf, hpts]
            | some v => cases v <;> simp [pointsOf, hpts]
          · rw [if_neg htc]
            simp only [questionUpd, hp, hiq, if_neg htc, if_true, Option.toList_none,
              List.append_nil]
            cases hpts : jget p pointsKey with
            | none => simp [pointsOf, hpts]
            | some v => cases v <;> simp [pointsOf, hpts]
        · have hiq : isQuestion p = false := by
            simp only [isQuestion]
            simpa using hq
          have hq' : jhas p problemIdKey = false := by simpa using hq
          simp [hq', hiq]
    rw [hstep]
    cases hp : parseJson m.inner with
    | none =>
      dsimp only
      rw [normFold_tail rest _ 1 (by omega)]
      simp [qCount, qTotal, qTotalFrom, qUpdates, metaOf, hp, questionUpd]
    | some p =>
      dsimp only
      by_cases hiq : isQuestion p = true
      · rw [if_pos hiq, normFold_tail rest _ 1 (by omega)]
        simp only [qCount, qTotal, qTotalFrom, qUpdates, metaOf, List.filterMap_cons, hp,
          List.filter_cons, hiq, if_true, List.length_cons, List.foldl_cons, questionUpd,
          NormSt.mk.injEq]
        refine ⟨by omega, ?_, ?_, trivial⟩
        · cases hpo : pointsOf p <;> simp [hpo]
        · by_cases hc :
              some (stringifyC (JVal.jarr (JArr.ofList
                  (List.map JVal.jstr (normalizeTags (jget p tagsKey)))))) =
                Option.map stringifyC (jget p tagsKey) <;>
            simp [hc]
      · rw [if_neg hiq, normFold_tail rest _ 1 (by omega)]
        simp [qCount, qTotal, qTotalFrom, qUpdates, metaOf, hp, hiq, questionUpd]

/-! ## Claim theorems: the hard-fail guards -/

set_option maxRecDepth 200000

/-- C7: `assertIntegerPoints` raises an error iff some parseable Question
Block has a number-typed, non-integer `points`; the error message then
names the first such block's `problem_id` and `points` value, and with no
such block the function returns normally (it never modifies the document —
it only reads it and returns unit). -/
theorem claim_C7 (doc : Chars) :
    assertIntegerPoints doc =
      match (questionVals doc).find? fracPoints with
      | none => .ok ()
      | some p => .error (nonIntegerMsg (jget p problemIdKey) ((pointsOf p).getD ⟨0, 0⟩)) := by
  unfold assertIntegerPoints questionVals
  exact aipGo_spec _

/-- C1, counterexample document: a fractional `points` on `q1` together
with an empty `answer` on `q2`. -/
def c1doc : Chars :=
  ("```json\n\x7b\"problem_id\": \"q1\", \"points\": 2.5, \"tags\": [\"a\"], \"answer\": \"x\"\x7d\n```\n\n" ++
   "```json\n\x7b\"problem_id\": \"q2\", \"points\": 3, \"tags\": [\"a\"], \"answer\": \"\"\x7d\n```\n").toList

/-- C1 fails as stated: on `c1doc` some question has an empty answer, yet
the guard phase raises the integer-points error for `q1` (because
`assertIntegerPoints` runs first), not the aggregate answer error, and the
raised message does not list `q2`. -/
theorem claim_C1_cex :
    missingAnswerIds c1doc = [['q', '2']] ∧
    guardPhase c1doc = .error (nonIntegerMsg (some (.jstr ['q', '1'])) ⟨25, 1⟩) ∧
    nonIntegerMsg (some (.jstr ['q', '1'])) ⟨25, 1⟩ ≠
      missingAnswersMsg (missingAnswerIds c1doc) := by
  refine ⟨by decide, by rfl, by decide⟩

/-- C1 (amended): `assertNonEmptyAnswers` aggregates all offending
`problem_id`s into a single error, and the guard phase raises exactly that
error — provided no parseable Question Block has a fractional number-typed
`points` (otherwise `assertIntegerPoints`, which runs first, preempts
it). -/
theorem claim_C1 (doc : Chars)
    (hfrac : ∀ p ∈ questionVals doc, fracPoints p = false)
    (hmiss : missingAnswerIds doc ≠ []) :
    guardPhase doc = .error (missingAnswersMsg (missingAnswerIds doc)) := by
  have h1 : assertIntegerPoints doc = .ok () := by
    rw [claim_C7 doc]
    have hnone : (questionVals doc).find? fracPoints = none :=
      List.find?_eq_none.mpr fun p hp => by simp [hfrac p hp]
    rw [hnone]
  have h2 : assertNonEmptyAnswers doc = .error (missingAnswersMsg (missingAnswerIds doc)) := by
    rw [assertNonEmptyAnswers, if_pos hmiss]
  rw [guardPhase, h1]
  simpa using h2

def c1wdoc : Chars :=
  ("```json\n\x7b\"problem_id\": \"a1\", \"points\": 4, \"tags\": [\"x\"], \"answer\": \" \"\x7d\n```\n\n" ++
   "```json\n\x7b\"problem_id\": \"a2\", \"points\": 6, \"tags\": [\"x\"]\x7d\n```\n").toList

theorem claim_C1_witness :
    guardPhase c1wdoc = .error (missingAnswersMsg (missingAnswerIds c1wdoc)) ∧
    missingAnswerIds c1wdoc = [['a', '1'], ['a', '2']] :=
  ⟨claim_C1 c1wdoc (by decide) (by decide), by decide⟩

/-- C10: a Question Block whose `points` is present but not number-typed
never makes `assertIntegerPoints` raise, and contributes nothing to the
computed total; a document whose only points irregularities are non-number
`points` values (all number-typed `points` are integers) and whose answers
are all present passes both hard-fail guards. -/
theorem claim_C10 (doc : Chars)
    (hnum : ∀ p ∈ questionVals doc, ∀ q, pointsOf p = some q → q.isInt = true)
    (hans : ∀ p ∈ questionVals doc, badAnswer p = false) :
    guardPhase doc = .ok () ∧
    (normLoop (docMatches doc)).total =
      (questionVals doc).foldl
        (fun t p => match pointsOf p with | some q => t.add q | none => t) ⟨0, 0⟩ := by
  constructor
  · have h1 : assertIntegerPoints doc = .ok () := by
      rw [claim_C7 doc]
      have hnone : (questionVals doc).find? fracPoints = none :=
        List.find?_eq_none.mpr fun p hp => by
          cases hq : pointsOf p with
          | none => simp [fracPoints, hq]
          | some q => simp [fracPoints, hq, hnum p hp q hq]
      rw [hnone]
    have h2 : missingAnswerIds doc = [] := by
      rw [missingAnswerIds_spec]
      have : (questionVals doc).filter badAnswer = [] :=
        List.filter_eq_nil_iff.mpr fun p hp => by simp [hans p hp]
      rw [this]
      rfl
    have h3 : assertNonEmptyAnswers doc = .ok () := by
      rw [assertNonEmptyAnswers]
      simp [h2]
    rw [guardPhase, h1]
    simpa using h3
  · rw [normLoop_spec]
    rfl

def c10wdoc : Chars :=
  ("```json\n\x7b\"exam_id\": \"e\", \"num_questions\": 2, \"score_total\": 4\x7d\n```\n\n" ++
   "```json\n\x7b\"problem_id\": \"b1\", \"points\": \"2.5\", \"tags\": [\"x\"], \"answer\": \"u\"\x7d\n```\n\n" ++
   "```json\n\x7b\"problem_id\": \"b2\", \"points\": 4, \"tags\": [\"x\"], \"answer\": \"v\"\x7d\n```\n").toList

theorem claim_C10_witness :
    (guardPhase c10wdoc = .ok () ∧
      (normLoop (docMatches c10wdoc)).total =
        (questionVals c10wdoc).foldl
          (fun t p => match pointsOf p with | some q => t.add q | none => t) ⟨0, 0⟩) ∧
    (∃ p ∈ questionVals c10wdoc, jget p pointsKey = some (.jstr ['2', '.', '5'])) ∧
    (normLoop (docMatches c10wdoc)).total = ⟨4, 0⟩ :=
  ⟨claim_C10 c10wdoc (by decide) (by decide), by decide, by decide⟩

/-! ## Claim theorems: metadata identification (C3) -/

/-- C3, counterexample document: the first fenced block fails to parse;
the second is a parseable block without `problem_id` (stale
`num_questions: 9`); the third is a Question Block. -/
def c3doc : Chars :=
  ("```json\n\x7bnot json\n```\n\n" ++
   "```json\n\x7b\"exam_id\": \"e\", \"num_questions\": 9, \"score_total\": 9\x7d\n```\n\n" ++
   "```json\n\x7b\"problem_id\": \"1\", \"points\": 5, \"tags\": [\"a\"], \"answer\": \"x\"\x7d\n```\n").toList

/-- C3 fails as stated: in `c3doc` the first parseable block without
`problem_id` is the second fenced block, and its counters are stale
(`num_questions` 9 against 1 Question Block), yet normalization treats no
block as the Metadata Block (the loop's `metadata` stays `null` because
only match index 0 can bind it) and returns the document unchanged. -/
theorem claim_C3_cex :
    normalizeExamMetadataAndTags c3doc = c3doc ∧
    ((docMatches c3doc).map fun m => (parseJson m.inner).map fun p => jhas p problemIdKey)
      = [none, some false, some true] ∧
    ((docMatches c3doc).get? 1).map
        (fun m => (parseJson m.inner).map fun p => jget p "num_questions".toList)
      = some (some (some (.jnum ⟨9, 0⟩))) ∧
    qCount (docMatches c3doc) = 1 ∧
    (normLoop (docMatches c3doc)).meta = none := by
  refine ⟨by rfl, by decide, by decide, by decide, ?_⟩
  rw [normLoop_spec]
  decide

/-- C3 (amended): the loop captures as Metadata Block exactly the fenced
match at index 0, and only when it parses and lacks `problem_id`
(`metaOf`); if the first fenced block fails to parse or carries
`problem_id`, no metadata is captured, no matter what follows.  Every
parseable block with a `problem_id`, at any position (index 0 included),
is counted as a Question Block. -/
theorem claim_C3 (doc : Chars) :
    (normLoop (docMatches doc)).meta = metaOf (docMatches doc) ∧
    (normLoop (docMatches doc)).qc = (questionVals doc).length := by
  rw [normLoop_spec]
  exact ⟨rfl, rfl⟩

/-! ## Claim theorems: metadata repair (C6, C2) -/

theorem objGet_objSet_self (k : Chars) (v : JVal) : ∀ o : JObj,
    objGet k (objSet k v o) = some v
  | .onil => by simp [objGet, objSet]
  | .ocons k' v' t => by
    by_cases h : k' = k
    · simp [objGet, objSet, h]
    · simp [objGet, objSet, h, objGet_objSet_self k v t]

theorem objGet_objSet_ne (k k' : Chars) (v : JVal) (h : k ≠ k') : ∀ o : JObj,
    objGet k' (objSet k v o) = objGet k' o
  | .onil => by simp [objGet, objSet, h]
  | .ocons k'' v'' t => by
    by_cases h2 : k'' = k
    · subst h2
      simp [objGet, objSet, h]
    · simp [objGet, objSet, h2, objGet_objSet_ne k k' v h t]

/-- C6, counterexample document: `score_total` is the string `"5"`, the
points total is the number `5`. -/
def c6doc : Chars :=
  ("```json\n\x7b\n  \"exam_id\": \"e\",\n  \"num_questions\": 1,\n  \"score_total\": \"5\"\n\x7d\n```\n\n" ++
   "```json\n\x7b\"problem_id\": \"1\", \"points\": 5, \"tags\": [\"a\"], \"answer\": \"x\"\x7d\n```\n").toList

/-- C6 fails as stated: in `c6doc` the Metadata Block stores `score_total`
as the string `"5"`, whose numeric value equals the computed total `5`,
and normalization returns the document byte-identically — the string is
NOT rewritten to a true integer. -/
theorem claim_C6_cex :
    normalizeExamMetadataAndTags c6doc = c6doc ∧
    ((normLoop (docMatches c6doc)).meta).map (fun x => jget x.1 "score_total".toList)
      = some (some (.jstr ['5'])) ∧
    (normLoop (docMatches c6doc)).total = ⟨5, 0⟩ := by
  refine ⟨by rfl, by decide, by decide⟩

/-- C6 (amended): `num_questions` is compared with strict, type-sensitive
equality against the computed count, but `score_total` is compared after
`Number(·)` coercion of a non-number value: when `num_questions` already
equals the count as a number and the stored `score_total` is a string
whose coerced value equals the computed total, the metadata repair leaves
the Metadata Block unrewritten. -/
theorem claim_C6 (st : NormSt) (md : JVal) (mm : MatchInfo) (s : Chars)
    (hm : st.meta = some (md, mm)) (ht : jTruthy md = true) (hqc : 0 < st.qc)
    (hnq : jget md "num_questions".toList = some (.jnum (DecNum.ofNat st.qc)))
    (hsc : jget md "score_total".toList = some (.jstr s))
    (hco : strToNumber s = some st.total) :
    metaStep st = st.updates := by
  have hc1 : mdChanged1 md st.qc = false := by
    rw [mdChanged1, hnq]
    simp
  have h1 : mdAfter1 md st.qc = md := by
    rw [mdAfter1, hc1]
    simp
  have hc2 : mdChanged2 (mdAfter1 md st.qc) st.total = false := by
    rw [h1, mdChanged2, hsc]
    simp only [scoreView, jsToNumber]
    rw [hco]
    simp
  rw [metaStep, hm]
  dsimp only
  rw [if_pos ⟨ht, hqc⟩, hc1, hc2]
  simp

def c6wmd : JVal :=
  .jobj (.ocons "num_questions".toList (.jnum ⟨1, 0⟩)
    (.ocons "score_total".toList (.jstr ['5']) .onil))

def c6wst : NormSt :=
  { qc := 1, total := ⟨5, 0⟩, updates := [], meta := some (c6wmd, ⟨0, [], []⟩) }

theorem claim_C6_witness : metaStep c6wst = [] := by
  have h := claim_C6 c6wst c6wmd ⟨0, [], []⟩ ['5'] rfl (by decide) (by decide)
    (by decide) (by decide) (by decide)
  simpa using h

/-- C2, counterexample document: no Question Blocks at all, stale
metadata counters. -/
def c2doc : Chars :=
  "```json\n\x7b\n  \"exam_id\": \"e\",\n  \"num_questions\": 5,\n  \"score_total\": 10\n\x7d\n```\n".toList

/-- C2 fails as stated: `c2doc` has a Metadata Block and zero Question
Blocks, and normalization returns it unchanged — `num_questions` stays 5
instead of the exact count 0 (the repair is guarded by
`questionCount > 0`). -/
theorem claim_C2_cex :
    normalizeExamMetadataAndTags c2doc = c2doc ∧
    ((normLoop (docMatches c2doc)).meta).map (fun x => jget x.1 "num_questions".toList)
      = some (some (.jnum ⟨5, 0⟩)) ∧
    qCount (docMatches c2doc) = 0 := by
  refine ⟨by rfl, by decide, by decide⟩

/-- C2 (amended): when the loop captured an object-typed, truthy Metadata
Block: with zero Question Blocks no metadata repair happens at all; with
at least one, the metadata object that the output document carries (the
original one when nothing had to change, else the rewritten one) has
`num_questions` exactly the Question-Block count as a number, and a
`score_total` whose coerced numeric value is exactly the computed total of
number-typed `points` (exactly the integer total whenever it is
rewritten). -/
theorem claim_C2 (st : NormSt) (md : JVal) (mm : MatchInfo) (o : JObj)
    (hm : st.meta = some (md, mm)) (hobj : md = .jobj o) (ht : jTruthy md = true) :
    (st.qc = 0 → metaStep st = st.updates) ∧
    (0 < st.qc → ∃ md2 : JVal,
      ((metaStep st = st.updates ∧ md2 = md) ∨
        metaStep st = st.updates ++
          [{ start := mm.start, stop := mm.start + mm.full.length
             text := fenceWrap (stringify2 md2) }]) ∧
      jget md2 "num_questions".toList = some (.jnum (DecNum.ofNat st.qc)) ∧
      scoreView (jget md2 "score_total".toList) = some st.total) := by
  constructor
  · intro hqc0
    rw [metaStep, hm]
    dsimp only
    rw [if_neg]
    rintro ⟨-, h⟩
    omega
  · intro hqc
    have hmd1nq :
        jget (mdAfter1 md st.qc) "num_questions".toList
          = some (.jnum (DecNum.ofNat st.qc)) := by
      rw [mdAfter1]
      by_cases h : mdChanged1 md st.qc = true
      · rw [if_pos h, hobj]
        simp [jset, jget, objGet_objSet_self]
      · rw [if_neg h]
        have h' : mdChanged1 md st.qc = false := by
          cases hb : mdChanged1 md st.qc
          · rfl
          · exact absurd hb h
        rw [mdChanged1] at h'
        revert h'
        cases hg : jget md "num_questions".toList with
        | none => intro h'; cases h'
        | some v =>
          cases v with
          | jnum q =>
            intro h'
            simp only [decide_eq_false_iff_not, not_not] at h'
            rw [h']
          | jnull => intro h'; cases h'
          | jbool b => intro h'; cases h'
          | jstr s => intro h'; cases h'
          | jarr a => intro h'; cases h'
          | jobj ob => intro h'; cases h'
    have hmd1obj : ∃ o1, mdAfter1 md st.qc = .jobj o1 := by
      rw [mdAfter1, hobj]
      by_cases h : mdChanged1 (JVal.jobj o) st.qc = true
      · rw [if_pos h]
        exact ⟨_, rfl⟩
      · rw [if_neg h]
        exact ⟨o, rfl⟩
    obtain ⟨o1, ho1⟩ := hmd1obj
    refine ⟨mdAfter2 md st.qc st.total, ?_, ?_, ?_⟩
    · rw [metaStep, hm]
      dsimp only
      rw [if_pos ⟨ht, hqc⟩]
      by_cases hc : (mdChanged1 md st.qc || mdChanged2 (mdAfter1 md st.qc) st.total) = true
      · right
        rw [if_pos hc]
      · left
        rw [if_neg hc]
        refine ⟨rfl, ?_⟩
        simp only [Bool.or_eq_true, not_or, Bool.not_eq_true] at hc
        rw [mdAfter2, hc.2]
        simp [mdAfter1, hc.1]
    · rw [mdAfter2]
      by_cases h : mdChanged2 (mdAfter1 md st.qc) st.total = true
      · rw [if_pos h, ho1]
        have hne : "score_total".toList ≠ "num_questions".toList := by decide
        rw [show jget (jset (JVal.jobj o1) "score_total".toList (.jnum st.total))
              "num_questions".toList
            = objGet "num_questions".toList
                (objSet "score_total".toList (.jnum st.total) o1) from rfl]
        rw [objGet_objSet_ne _ _ _ hne]
        rw [ho1] at hmd1nq
        exact hmd1nq
      · rw [if_neg h]
        exact hmd1nq
    · rw [mdAfter2]
      by_cases h : mdChanged2 (mdAfter1 md st.qc) st.total = true
      · rw [if_pos h, ho1]
        rw [show jget (jset (JVal.jobj o1) "score_total".toList (.jnum st.total))
              "score_total".toList
            = objGet "score_total".toList
                (objSet "score_total".toList (.jnum st.total) o1) from rfl]
        rw [objGet_objSet_self]
        rfl
      · have h' : mdChanged2 (mdAfter1 md st.qc) st.total = false := by
          cases hb : mdChanged2 (mdAfter1 md st.qc) st.total
          · rfl
          · exact absurd hb h
        rw [mdChanged2] at h'
        rw [if_neg h]
        revert h'
        cases hv : scoreView (jget (mdAfter1 md st.qc) "score_total".toList) with
        | none => intro h'; cases h'
        | some q =>
          intro h'
          simp only [decide_eq_false_iff_not, not_not] at h'
          rw [h']

/-! ## Tag cleaning: idempotence (C8) -/

theorem dashRunsF_congr : ∀ (f g : Nat) (s : Chars), s.length < f → s.length < g →
    dashRunsF f s = dashRunsF g s
  | 0, _, s, hf, _ => by omega
  | _ + 1, 0, s, _, hg => by omega
  | _ + 1, _ + 1, [], _, _ => by simp [dashRunsF]
  | f + 1, g + 1, c :: cs, hf, hg => by
    have hd : (cs.dropWhile spacyCh).length ≤ cs.length :=
      (List.dropWhile_sublist _).length_le
    simp only [List.length_cons] at hf hg
    rw [dashRunsF, dashRunsF]
    by_cases h : spacyCh c = true
    · rw [if_pos h, if_pos h,
        dashRunsF_congr f g (cs.dropWhile spacyCh) (by omega) (by omega)]
    · rw [if_neg h, if_neg h, dashRunsF_congr f g cs (by omega) (by omega)]

theorem dashRuns_cons (c : Char) (cs : Chars) :
    dashRuns (c :: cs) =
      if spacyCh c then '-' :: dashRuns (cs.dropWhile spacyCh) else c :: dashRuns cs := by
  have hd : (cs.dropWhile spacyCh).length ≤ cs.length :=
    (List.dropWhile_sublist _).length_le
  rw [dashRuns, List.length_cons, dashRunsF]
  by_cases h : spacyCh c = true
  · rw [if_pos h, if_pos h,
      dashRunsF_congr (cs.length + 1) ((cs.dropWhile spacyCh).length + 1) _ (by omega) (by omega)]
    rfl
  · rw [if_neg h, if_neg h]
    rfl

theorem collapseDashF_congr : ∀ (f g : Nat) (s : Chars), s.length < f → s.length < g →
    collapseDashF f s = collapseDashF g s
  | 0, _, s, hf, _ => by omega
  | _ + 1, 0, s, _, hg => by omega
  | _ + 1, _ + 1, [], _, _ => by simp [collapseDashF]
  | f + 1, g + 1, c :: cs, hf, hg => by
    have hd : (cs.dropWhile (· = '-')).length ≤ cs.length :=
      (List.dropWhile_sublist _).length_le
    simp only [List.length_cons] at hf hg
    rw [collapseDashF, collapseDashF]
    by_cases h : c = '-'
    · rw [if_pos h, if_pos h,
        collapseDashF_congr f g (cs.dropWhile (· = '-')) (by omega) (by omega)]
    · rw [if_neg h, if_neg h, collapseDashF_congr f g cs (by omega) (by omega)]

theorem collapseDash_cons (c : Char) (cs : Chars) :
    collapseDash (c :: cs) =
      if c = '-' then '-' :: collapseDash (cs.dropWhile (· = '-'))
      else c :: collapseDash cs := by
  have hd : (cs.dropWhile (· = '-')).length ≤ cs.length :=
    (List.dropWhile_sublist _).length_le
  rw [collapseDash, List.length_cons, collapseDashF]
  by_cases h : c = '-'
  · rw [if_pos h, if_pos h,
      collapseDashF_congr (cs.length + 1) ((cs.dropWhile (· = '-')).length + 1) _
        (by omega) (by omega)]
    rfl
  · rw [if_neg h, if_neg h]
    rfl

theorem dashRuns_id : ∀ (s : Chars), (∀ c ∈ s, spacyCh c = false) → dashRuns s = s
  | [], _ => rfl
  | c :: cs, h => by
    rw [dashRuns_cons, if_neg (by simp [h c (by simp)]),
      dashRuns_id cs fun x hx => h x (by simp [hx])]

/-- No two adjacent hyphens. -/
def noDD (s : Chars) : Prop := List.Chain' (fun a b => ¬ (a = '-' ∧ b = '-')) s

theorem head?_dropWhile (p : Char → Bool) : ∀ (l : Chars) (c : Char),
    (l.dropWhile p).head? = some c → p c = false
  | [], c => by simp
  | a :: t, c => by
    rw [List.dropWhile_cons]
    by_cases h : p a = true
    · rw [if_pos h]
      exact head?_dropWhile p t c
    · rw [if_neg h]
      intro he
      cases he
      simpa using h

theorem dropWhile_head_eq_self (p : Char → Bool) (l : Chars)
    (h : ∀ c, l.head? = some c → p c = false) : l.dropWhile p = l := by
  cases l with
  | nil => rfl
  | cons a t =>
    rw [List.dropWhile_cons, if_neg]
    simp [h a rfl]

theorem collapseDash_head : ∀ (s : Chars), (collapseDash s).head? = s.head?
  | [] => rfl
  | a :: t => by
    rw [collapseDash_cons]
    by_cases h : a = '-'
    · rw [if_pos h, h]
      rfl
    · rw [if_neg h]
      rfl

theorem collapseDash_noDD : ∀ (n : Nat) (s : Chars), s.length ≤ n → noDD (collapseDash s)
  | 0, [], _ => by simp [collapseDash, collapseDashF, noDD]
  | 0, c :: cs, h => by simp at h
  | n + 1, [], _ => by simp [collapseDash, collapseDashF, noDD]
  | n + 1, a :: t, h => by
    simp only [List.length_cons] at h
    rw [collapseDash_cons]
    by_cases ha : a = '-'
    · rw [if_pos ha]
      have hlen : (t.dropWhile (· = '-')).length ≤ n :=
        le_trans (List.dropWhile_sublist _).length_le (by omega)
      have htail : noDD (collapseDash (t.dropWhile (· = '-'))) := collapseDash_noDD n _ hlen
      rw [noDD, List.chain'_cons']
      refine ⟨?_, htail⟩
      intro y hy
      rintro ⟨-, hy'⟩
      rw [collapseDash_head] at hy
      have := head?_dropWhile (· = '-') t y hy
      simp [hy'] at this
    · rw [if_neg ha]
      have htail : noDD (collapseDash t) := collapseDash_noDD n t (by omega)
      rw [noDD, List.chain'_cons']
      exact ⟨fun y _ => fun hc => ha hc.1, htail⟩

theorem collapseDash_id : ∀ (n : Nat) (s : Chars), s.length ≤ n → noDD s →
    collapseDash s = s
  | _, [], _, _ => rfl
  | 0, c :: cs, h, _ => by simp at h
  | n + 1, a :: t, h, hdd => by
    simp only [List.length_cons] at h
    rw [collapseDash_cons]
    have htail : noDD t := (List.chain'_cons'.mp hdd).2
    by_cases ha : a = '-'
    · rw [if_pos ha]
      have hdw : t.dropWhile (· = '-') = t := by
        refine dropWhile_head_eq_self _ _ fun c hc => ?_
        have := (List.chain'_cons'.mp hdd).1 c hc
        subst ha
        simp only [decide_eq_false_iff_not]
        intro hc'
        exact this ⟨rfl, hc'⟩
      rw [hdw, collapseDash_id n t (by omega) htail, ha]
    · rw [if_neg ha, collapseDash_id n t (by omega) htail]

theorem mem_of_mem_collapseDash : ∀ (n : Nat) (s : Chars), s.length ≤ n →
    ∀ c ∈ collapseDash s, c ∈ s ∨ c = '-'
  | _, [], _, c => by simp [collapseDash, collapseDashF]
  | 0, a :: t, h, c => by simp at h
  | n + 1, a :: t, h, c => by
    simp only [List.length_cons] at h
    rw [collapseDash_cons]
    by_cases ha : a = '-'
    · rw [if_pos ha]
      intro hc
      rcases List.mem_cons.mp hc with hc | hc
      · exact Or.inr hc
      · have hlen : (t.dropWhile (· = '-')).length ≤ n :=
          le_trans (List.dropWhile_sublist _).length_le (by omega)
        rcases mem_of_mem_collapseDash n _ hlen c hc with hm | hm
        · exact Or.inl (List.mem_cons_of_mem _ ((List.dropWhile_sublist _).subset hm))
        · exact Or.inr hm
    · rw [if_neg ha]
      intro hc
      rcases List.mem_cons.mp hc with hc | hc
      · exact Or.inl (hc ▸ List.mem_cons_self a t)
      · rcases mem_of_mem_collapseDash n t (by omega) c hc with hm | hm
        · exact Or.inl (List.mem_cons_of_mem _ hm)
        · exact Or.inr hm

theorem mem_of_mem_trimDash {s : Chars} {c : Char} (h : c ∈ trimDash s) : c ∈ s := by
  rw [trimDash] at h
  rw [List.mem_reverse] at h
  have h1 := (List.dropWhile_sublist (l := (s.dropWhile (· = '-')).reverse) (· = '-')).subset h
  rw [List.mem_reverse] at h1
  exact (List.dropWhile_sublist _).subset h1

theorem trimDash_noDD {s : Chars} (h : noDD s) : noDD (trimDash s) := by
  have hflip : (flip fun a b : Char => ¬ (a = '-' ∧ b = '-')) = fun a b : Char => ¬ (a = '-' ∧ b = '-') := by
    funext a b
    simp [flip, and_comm]
  have h1 : noDD (s.dropWhile (· = '-')) := h.suffix (List.dropWhile_suffix _)
  have h2 : noDD (s.dropWhile (· = '-')).reverse := by
    rw [noDD, List.chain'_reverse, hflip]
    exact h1
  have h3 : noDD ((s.dropWhile (· = '-')).reverse.dropWhile (· = '-')) :=
    h2.suffix (List.dropWhile_suffix _)
  rw [trimDash, noDD, List.chain'_reverse, hflip]
  exact h3

theorem trimDash_head {s : Chars} {c : Char} (h : (trimDash s).head? = some c) : c ≠ '-' := by
  rw [trimDash, List.head?_reverse] at h
  have hne : (s.dropWhile (· = '-')).reverse.dropWhile (· = '-') ≠ [] := by
    intro he
    rw [he] at h
    cases h
  obtain ⟨pre, hpre⟩ := List.dropWhile_suffix (l := (s.dropWhile (· = '-')).reverse) (· = '-')
  have hlast : ((s.dropWhile (· = '-')).reverse.dropWhile (· = '-')).getLast? =
      (s.dropWhile (· = '-')).reverse.getLast? := by
    conv_rhs => rw [← hpre]
    rw [List.getLast?_append]
    cases hx : ((s.dropWhile (· = '-')).reverse.dropWhile (· = '-')).getLast? with
    | none => exact absurd (List.getLast?_eq_none_iff.mp hx) hne
    | some y => simp
  rw [hlast, List.getLast?_reverse] at h
  have := head?_dropWhile (· = '-') s c h
  simpa using this

theorem trimDash_last {s : Chars} {c : Char} (h : (trimDash s).getLast? = some c) : c ≠ '-' := by
  rw [trimDash, List.getLast?_reverse] at h
  have := head?_dropWhile (· = '-') (s.dropWhile (· = '-')).reverse c h
  simpa using this

theorem trimDash_id (s : Chars) (hh : ∀ c, s.head? = some c → c ≠ '-')
    (hl : ∀ c, s.getLast? = some c → c ≠ '-') : trimDash s = s := by
  have h1 : s.dropWhile (· = '-') = s :=
    dropWhile_head_eq_self _ s fun c hc => by simp [hh c hc]
  have h2 : s.reverse.dropWhile (· = '-') = s.reverse :=
    dropWhile_head_eq_self _ s.reverse fun c hc => by
      rw [List.head?_reverse] at hc
      simp [hl c hc]
  rw [trimDash, h1, h2, List.reverse_reverse]

theorem tagCh_dash : tagCh '-' = true := by decide

theorem lowerCh_of_tagCh {c : Char} (h : tagCh c = true) : lowerCh c = c := by
  rw [tagCh] at h
  rw [lowerCh, if_neg]
  simp only [Bool.or_eq_true, Bool.and_eq_true, decide_eq_true_eq, beq_iff_eq] at h
  omega

theorem spacyCh_of_tagCh {c : Char} (h : tagCh c = true) : spacyCh c = false := by
  rw [tagCh] at h
  simp only [Bool.or_eq_true, Bool.and_eq_true, decide_eq_true_eq, beq_iff_eq] at h
  rw [spacyCh, jsWsCh]
  simp only [Bool.or_eq_false_iff, beq_eq_false_iff_ne, ne_eq, Bool.and_eq_false_iff,
    decide_eq_false_iff_not]
  refine ⟨⟨?_, ?_⟩, ?_⟩
  · omega
  · intro he
    have : c.toNat = '_'.toNat := by rw [he]
    simp at this
    omega
  · intro he
    have : c.toNat = '/'.toNat := by rw [he]
    simp at this
    omega

/-- Every character of a cleaned tag is in `[a-z0-9-]`. -/
theorem cleanTag_all_tagCh (s : Chars) : ∀ c ∈ cleanTag s, tagCh c = true := by
  intro c hc
  rw [cleanTag] at hc
  have h1 := mem_of_mem_trimDash hc
  rcases mem_of_mem_collapseDash _ _ le_rfl c h1 with h2 | h2
  · exact List.of_mem_filter h2
  · rw [h2]
    exact tagCh_dash

/-- A cleaned tag has no adjacent hyphens. -/
theorem cleanTag_noDD (s : Chars) : noDD (cleanTag s) := by
  rw [cleanTag]
  exact trimDash_noDD (collapseDash_noDD _ _ le_rfl)

/-- The per-tag cleaning pipeline is idempotent. -/
theorem cleanTag_idem (s : Chars) : cleanTag (cleanTag s) = cleanTag s := by
  have hall := cleanTag_all_tagCh s
  have hmapgen : ∀ (l : Chars), (∀ c ∈ l, tagCh c = true) → l.map lowerCh = l := by
    intro l hl
    induction l with
    | nil => rfl
    | cons a t ih =>
      rw [List.map_cons, lowerCh_of_tagCh (hl a (by simp)),
        ih fun x hx => hl x (by simp [hx])]
  rw [cleanTag, hmapgen _ hall]
  rw [dashRuns_id _ fun c hc => spacyCh_of_tagCh (hall c hc)]
  rw [List.filter_eq_self.mpr hall]
  rw [collapseDash_id _ _ le_rfl (cleanTag_noDD s)]
  rw [trimDash_id _ (fun c hc => trimDash_head (s := collapseDash
      ((dashRuns (List.map lowerCh s)).filter tagCh)) (by rw [← cleanTag]; exact hc))
    (fun c hc => trimDash_last (s := collapseDash
      ((dashRuns (List.map lowerCh s)).filter tagCh)) (by rw [← cleanTag]; exact hc))]

theorem normTagsFold_entry : ∀ (ts : JArr) (acc : List Chars),
    ∀ x ∈ normTagsFold acc ts, x ∈ acc ∨ (∃ s, x = cleanTag s ∧ x ≠ [])
  | .anil, acc, x => by
    rw [normTagsFold]
    exact fun h => Or.inl h
  | .acons t ts, acc, x => by
    cases t with
    | jstr s =>
      rw [normTagsFold]
      by_cases hz : cleanTag s = []
      · rw [if_pos hz]
        exact normTagsFold_entry ts acc x
      · rw [if_neg hz]
        by_cases hm : acc.contains (cleanTag s)
        · rw [if_pos hm]
          exact normTagsFold_entry ts acc x
        · rw [if_neg hm]
          intro hx
          rcases normTagsFold_entry ts (acc ++ [cleanTag s]) x hx with h | h
          · rcases List.mem_append.mp h with h | h
            · exact Or.inl h
            · rcases List.mem_singleton.mp h with rfl
              exact Or.inr ⟨s, rfl, hz⟩
          · exact Or.inr h
    | jnull => rw [normTagsFold] <;> first | exact normTagsFold_entry ts acc x | simp
    | jbool b => rw [normTagsFold] <;> first | exact normTagsFold_entry ts acc x | simp
    | jnum q => rw [normTagsFold] <;> first | exact normTagsFold_entry ts acc x | simp
    | jarr a => rw [normTagsFold] <;> first | exact normTagsFold_entry ts acc x | simp
    | jobj o => rw [normTagsFold] <;> first | exact normTagsFold_entry ts acc x | simp

theorem normTagsFold_nodup : ∀ (ts : JArr) (acc : List Chars), acc.Nodup →
    (normTagsFold acc ts).Nodup
  | .anil, acc, h => by
    rw [normTagsFold]
    exact h
  | .acons t ts, acc, h => by
    cases t with
    | jstr s =>
      rw [normTagsFold]
      by_cases hz : cleanTag s = []
      · rw [if_pos hz]
        exact normTagsFold_nodup ts acc h
      · rw [if_neg hz]
        by_cases hm : acc.contains (cleanTag s)
        · rw [if_pos hm]
          exact normTagsFold_nodup ts acc h
        · rw [if_neg hm]
          refine normTagsFold_nodup ts _ ?_
          have hnm : cleanTag s ∉ acc := by
            intro hmem
            exact hm (List.elem_eq_true_of_mem hmem)
          simp [List.nodup_append, h, hnm]
    | jnull => rw [normTagsFold] <;> first | exact normTagsFold_nodup ts acc h | simp
    | jbool b => rw [normTagsFold] <;> first | exact normTagsFold_nodup ts acc h | simp
    | jnum q => rw [normTagsFold] <;> first | exact normTagsFold_nodup ts acc h | simp
    | jarr a => rw [normTagsFold] <;> first | exact normTagsFold_nodup ts acc h | simp
    | jobj o => rw [normTagsFold] <;> first | exact normTagsFold_nodup ts acc h | simp

theorem normTagsFold_replay : ∀ (es : List Chars) (acc : List Chars),
    (∀ x ∈ es, cleanTag x = x ∧ x ≠ []) → (acc ++ es).Nodup →
    normTagsFold acc (JArr.ofList (es.map .jstr)) = acc ++ es
  | [], acc, _, _ => by
    simp [JArr.ofList, normTagsFold]
  | e :: es, acc, hes, hnd => by
    simp only [List.map_cons, JArr.ofList]
    rw [normTagsFold]
    obtain ⟨hce, hne⟩ := hes e (by simp)
    rw [hce, if_neg hne, if_neg ?hc]
    case hc =>
      intro hmem
      have : e ∈ acc := by simpa using hmem
      have : ¬ (acc ++ e :: es).Nodup := by
        intro hn
        rcases List.disjoint_of_nodup_append hn this with h
        simp at h
      exact this hnd
    rw [normTagsFold_replay es (acc ++ [e])
      (fun x hx => hes x (by simp [hx]))
      (by simpa using hnd)]
    simp

/-- The entries of `normalizeTags` output: cleaned (fixed by `cleanTag`),
nonempty, and over `[a-z0-9-]`. -/
theorem normalizeTags_entries (t : Option JVal) :
    ∀ x ∈ normalizeTags t, cleanTag x = x ∧ x ≠ [] ∧ ∀ c ∈ x, tagCh c = true := by
  intro x hx
  have hmisc : cleanTag "misc".toList = "misc".toList := by decide
  have hof : ∀ h : x ∈ ["misc".toList],
      cleanTag x = x ∧ x ≠ [] ∧ ∀ c ∈ x, tagCh c = true := by
    intro h
    rcases List.mem_singleton.mp h with rfl
    exact ⟨hmisc, by decide, by decide⟩
  match t with
  | none => exact hof hx
  | some .jnull => exact hof hx
  | some (.jbool b) => exact hof hx
  | some (.jnum q) => exact hof hx
  | some (.jstr s) => exact hof hx
  | some (.jobj o) => exact hof hx
  | some (.jarr ts) =>
    rw [normalizeTags] at hx
    by_cases hl : (normTagsFold [] ts).length > 0
    · rw [if_pos hl] at hx
      rcases normTagsFold_entry ts [] x hx with h | ⟨s, rfl, hne⟩
      · simp at h
      · exact ⟨cleanTag_idem s, hne, fun c hc => cleanTag_all_tagCh s c hc⟩
    · rw [if_neg hl] at hx
      exact hof hx

theorem normalizeTags_nodup (t : Option JVal) : (normalizeTags t).Nodup := by
  have hof : (["misc".toList] : List Chars).Nodup := by decide
  match t with
  | none => exact hof
  | some .jnull => exact hof
  | some (.jbool b) => exact hof
  | some (.jnum q) => exact hof
  | some (.jstr s) => exact hof
  | some (.jobj o) => exact hof
  | some (.jarr ts) =>
    rw [normalizeTags]
    by_cases hl : (normTagsFold [] ts).length > 0
    · rw [if_pos hl]
      exact normTagsFold_nodup ts [] (by simp)
    · rw [if_neg hl]
      exact hof

theorem normalizeTags_ne_nil (t : Option JVal) : normalizeTags t ≠ [] := by
  have hof : (["misc".toList] : List Chars) ≠ [] := by decide
  match t with
  | none => exact hof
  | some .jnull => exact hof
  | some (.jbool b) => exact hof
  | some (.jnum q) => exact hof
  | some (.jstr s) => exact hof
  | some (.jobj o) => exact hof
  | some (.jarr ts) =>
    rw [normalizeTags]
    by_cases hl : (normTagsFold [] ts).length > 0
    · rw [if_pos hl]
      intro he
      rw [he] at hl
      simp at hl
    · rw [if_neg hl]
      exact hof

/-- C8: tag cleaning is total and idempotent — re-normalizing the
normalized tag list returns it unchanged, and applying the per-tag
cleaning steps twice equals applying them once. -/
theorem claim_C8 :
    (∀ t : Option JVal,
      normalizeTags (some (.jarr (JArr.ofList ((normalizeTags t).map .jstr))))
        = normalizeTags t) ∧
    (∀ s : Chars, cleanTag (cleanTag s) = cleanTag s) := by
  constructor
  · intro t
    have hent := normalizeTags_entries t
    have hnd := normalizeTags_nodup t
    have hne := normalizeTags_ne_nil t
    rw [normalizeTags]
    rw [normTagsFold_replay (normalizeTags t) []
      (fun x hx => ⟨(hent x hx).1, (hent x hx).2.1⟩) (by simpa using hnd)]
    rw [List.nil_append, if_pos (by simpa [List.length_pos] using hne)]
  · exact cleanTag_idem

/-! ## The frame property (C9)

The regex matches of a document form a chain of disjoint spans, each
reproducing the document text at its offset; the update-application fold
(descending starts, rightmost first) rewrites exactly the spans that got
an update and copies every other character through unchanged. -/

/-- The matches, from scan position `pos` on: ordered, disjoint, in
bounds, and each `full` text is the document slice at its span. -/
def MatchesChain (doc : Chars) : Nat → List MatchInfo → Prop
  | _, [] => True
  | pos, m :: rest =>
    pos ≤ m.start ∧
    m.start + m.full.length ≤ doc.length ∧
    12 ≤ m.full.length ∧
    m.full = (doc.drop m.start).take m.full.length ∧
    MatchesChain doc (m.start + m.full.length) rest

theorem scanAux_chain : ∀ (fuel : Nat) (s : Chars) (base : Nat) (doc : Chars),
    s.length < fuel → s = doc.drop base → base ≤ doc.length →
    MatchesChain doc base (scanAux fuel s base)
  | 0, s, base, doc, hf, _, _ => by omega
  | fuel + 1, s, base, doc, hf, hs, hb => by
    rw [scanAux]
    cases ho : findPat fenceOpen s with
    | none => trivial
    | some i =>
      dsimp only
      cases hc : findPat fenceClose (s.drop (i + 8)) with
      | none => trivial
      | some j =>
        dsimp only
        have hi := findPat_le ho
        have hj := findPat_le hc
        simp only [fenceOpen, fenceClose, List.length_cons, List.length_nil,
          List.length_drop] at hi hj
        have hslen : s.length = doc.length - base := by rw [hs, List.length_drop]
        have hfull : ((s.drop i).take (8 + j + 4)).length = 8 + j + 4 := by
          rw [List.length_take, List.length_drop]
          omega
        dsimp only [MatchesChain]
        rw [hfull]
        refine ⟨by omega, ?_, ?_, ?_, ?_⟩
        · omega
        · omega
        · rw [hs, List.drop_drop]
        · have harg : (s.drop (i + 8)).drop (j + 4) = doc.drop (base + i + 8 + j + 4) := by
            rw [hs, List.drop_drop, List.drop_drop]
            congr 1
            omega
          have hlen : ((s.drop (i + 8)).drop (j + 4)).length < fuel := by
            simp only [List.length_drop]
            omega
          have hrec := scanAux_chain fuel ((s.drop (i + 8)).drop (j + 4))
            (base + i + 8 + j + 4) doc hlen harg (by omega)
          have he : base + i + (8 + j + 4) = base + i + 8 + j + 4 := by omega
          rw [he]
          exact hrec

theorem docMatches_chain (doc : Chars) : MatchesChain doc 0 (docMatches doc) := by
  rw [docMatches]
  exact scanAux_chain (doc.length + 1) doc 0 doc (by omega) (by simp) (by omega)

theorem chain_lower {doc : Chars} : ∀ {ms : List MatchInfo} {pos : Nat},
    MatchesChain doc pos ms → ∀ m ∈ ms, pos ≤ m.start
  | [], _, _, m, hm => by cases hm
  | m0 :: rest, pos, h, m, hm => by
    rcases List.mem_cons.mp hm with rfl | hm
    · exact h.1
    · have := chain_lower h.2.2.2.2 m hm
      have h1 := h.1
      have h3 := h.2.2.1
      omega

theorem chain_tail {doc : Chars} {ms : List MatchInfo} {pos pos' : Nat}
    (h : MatchesChain doc pos ms) (h' : pos' ≤ pos) : MatchesChain doc pos' ms := by
  cases ms with
  | nil => trivial
  | cons m rest => exact ⟨le_trans h' h.1, h.2⟩

/-- Rebuild a document from position `pos`: copy the gap before each
match verbatim, then the replacement text (or the original match text),
then continue after the match; the tail after the last match is copied
verbatim. -/
def rebuild (doc : Chars) : Nat → List (MatchInfo × Option Chars) → Chars
  | pos, [] => doc.drop pos
  | pos, (m, r) :: rest =>
    (doc.drop pos).take (m.start - pos) ++ r.getD m.full ++
      rebuild doc (m.start + m.full.length) rest

/-- The update a pair contributes. -/
def mkUpd : MatchInfo × Option Chars → Option Upd
  | (_, none) => none
  | (m, some t) => some { start := m.start, stop := m.start + m.full.length, text := t }

/-- The metadata update of a document's match list, if any. -/
def metaUpd (ms : List MatchInfo) : Option Upd :=
  match metaOf ms with
  | none => none
  | some (md, mm) =>
    if jTruthy md = true ∧ qCount ms > 0 then
      if mdChanged1 md (qCount ms) || mdChanged2 (mdAfter1 md (qCount ms)) (qTotal ms) then
        some { start := mm.start, stop := mm.start + mm.full.length
               text := fenceWrap (stringify2 (mdAfter2 md (qCount ms) (qTotal ms))) }
      else none
    else none

theorem metaStep_normLoop (ms : List MatchInfo) :
    metaStep (normLoop ms) = qUpdates ms ++ (metaUpd ms).toList := by
  rw [normLoop_spec, metaStep, metaUpd]
  cases hmo : metaOf ms with
  | none => simp
  | some pair =>
    obtain ⟨md, mm⟩ := pair
    dsimp only
    by_cases h1 : jTruthy md = true ∧ qCount ms > 0
    · rw [if_pos h1, if_pos h1]
      by_cases h2 : (mdChanged1 md (qCount ms)
          || mdChanged2 (mdAfter1 md (qCount ms)) (qTotal ms)) = true
      · rw [if_pos h2, if_pos h2]
        rfl
      · rw [if_neg h2, if_neg h2]
        simp
    · rw [if_neg h1, if_neg h1]
      simp

/-- The per-match replacement: the metadata rewrite for the match at
index 0, else the tag rewrite, if any. -/
def matchUpd (ms : List MatchInfo) (i : Nat) (m : MatchInfo) : Option Upd :=
  if i = 0 then
    match metaUpd ms with
    | some u => some u
    | none => questionUpd m
  else questionUpd m

/-- The matches paired with their replacement texts. -/
def rewritePairs (ms : List MatchInfo) : List (MatchInfo × Option Chars) :=
  ms.enum.map fun p => (p.2, (matchUpd ms p.1 p.2).map Upd.text)

theorem take_join (doc : Chars) (a b : Nat) (h : a ≤ b) :
    doc.take a ++ (doc.drop a).take (b - a) = doc.take b := by
  conv_rhs => rw [← List.take_append_drop a (doc.take b)]
  congr 1
  · rw [List.take_take, min_eq_left h]
  · rw [List.take_drop, Nat.add_sub_cancel' h]

/-- Applying the pending updates in descending start order equals the
left-to-right rebuild: gaps and unrewritten matches are copied from the
document verbatim. -/
theorem foldl_applyUpd_rebuild :
    ∀ (pairs : List (MatchInfo × Option Chars)) (pos : Nat) (doc : Chars),
      MatchesChain doc pos (pairs.map Prod.fst) →
      ((pairs.filterMap mkUpd).reverse.foldl applyUpd doc)
        = doc.take pos ++ rebuild doc pos pairs
  | [], pos, doc, _ => by
    simp [rebuild]
  | (m, r) :: rest, pos, doc, hch => by
    dsimp only [List.map_cons, MatchesChain] at hch
    obtain ⟨hpos, hbound, h12, hfull, hrest⟩ := hch
    have hIH := foldl_applyUpd_rebuild rest (m.start + m.full.length) doc hrest
    have hjoin1 : doc.take pos ++ (doc.drop pos).take (m.start - pos) = doc.take m.start :=
      take_join doc pos m.start hpos
    have hjoin2 : doc.take m.start ++ m.full = doc.take (m.start + m.full.length) := by
      conv_lhs => rw [hfull]
      have := take_join doc m.start (m.start + m.full.length) (by omega)
      simpa using this
    cases r with
    | none =>
      rw [show List.filterMap mkUpd ((m, none) :: rest) = List.filterMap mkUpd rest from by
        rw [List.filterMap_cons]
        rfl]
      rw [hIH, rebuild]
      rw [show (Option.none : Option Chars).getD m.full = m.full from rfl]
      rw [← List.append_assoc, ← List.append_assoc, hjoin1, hjoin2]
    | some t =>
      rw [show List.filterMap mkUpd ((m, some t) :: rest)
          = { start := m.start, stop := m.start + m.full.length, text := t } ::
            List.filterMap mkUpd rest from by
        rw [List.filterMap_cons]
        rfl]
      rw [List.reverse_cons, List.foldl_append, hIH]
      rw [List.foldl_cons, List.foldl_nil, applyUpd]
      have hlen : (doc.take (m.start + m.full.length)).length = m.start + m.full.length := by
        rw [List.length_take]
        omega
      have htk : (doc.take (m.start + m.full.length) ++
            rebuild doc (m.start + m.full.length) rest).take m.start = doc.take m.start := by
        rw [List.take_append_of_le_length (by omega), List.take_take, min_eq_left (by omega)]
      have hdr : (doc.take (m.start + m.full.length) ++
            rebuild doc (m.start + m.full.length) rest).drop (m.start + m.full.length)
          = rebuild doc (m.start + m.full.length) rest :=
        List.drop_left' hlen
      rw [htk, hdr, rebuild]
      rw [show (some t).getD m.full = t from rfl]
      rw [← List.append_assoc, ← List.append_assoc, hjoin1]

theorem questionUpd_shape (m : MatchInfo) (u : Upd) (h : questionUpd m = some u) :
    u.start = m.start ∧ u.stop = m.start + m.full.length := by
  unfold questionUpd at h
  split at h
  · exact absurd h (by simp)
  · simp only [] at h
    split at h
    · split at h
      · injection h with h
        subst h
        exact ⟨rfl, rfl⟩
      · exact absurd h (by simp)
    · exact absurd h (by simp)

theorem metaOf_spec : ∀ (ms : List MatchInfo) (p : JVal) (mm : MatchInfo),
    metaOf ms = some (p, mm) →
    ∃ rest, ms = mm :: rest ∧ parseJson mm.inner = some p ∧ isQuestion p = false
  | [], p, mm, h => absurd h (by simp [metaOf])
  | m :: rest, p, mm, h => by
    rw [metaOf] at h
    cases hp : parseJson m.inner with
    | none => rw [hp] at h; exact absurd h (by simp)
    | some q =>
      rw [hp] at h
      dsimp only at h
      by_cases hq : isQuestion q
      · rw [if_pos hq] at h
        exact absurd h (by simp)
      · rw [if_neg hq] at h
        injection h with h
        injection h with h1 h2
        subst h1
        subst h2
        exact ⟨rest, rfl, hp, by simpa using hq⟩

theorem metaUpd_shape (ms : List MatchInfo) (u : Upd) (h : metaUpd ms = some u) :
    ∃ mm rest, ms = mm :: rest ∧ u.start = mm.start ∧
      u.stop = mm.start + mm.full.length ∧ questionUpd mm = none := by
  unfold metaUpd at h
  cases hmo : metaOf ms with
  | none => rw [hmo] at h; exact absurd h (by simp)
  | some pr =>
    obtain ⟨md, mm⟩ := pr
    obtain ⟨rest, hms, hp, hq⟩ := metaOf_spec ms md mm hmo
    rw [hmo] at h
    dsimp only at h
    split at h
    · split at h
      · injection h with h
        subst h
        refine ⟨mm, rest, hms, rfl, rfl, ?_⟩
        rw [questionUpd, hp]
        simp [hq]
      · exact absurd h (by simp)
    · exact absurd h (by simp)

theorem qUpdates_lower {doc : Chars} : ∀ {ms : List MatchInfo} {pos : Nat},
    MatchesChain doc pos ms → ∀ a ∈ qUpdates ms, pos ≤ a.start := by
  intro ms pos h a ha
  obtain ⟨m, hm, hq⟩ := List.mem_filterMap.mp ha
  have h1 := (questionUpd_shape m a hq).1
  have h2 := chain_lower h m hm
  omega

theorem qUpdates_pairwise {doc : Chars} : ∀ {ms : List MatchInfo} {pos : Nat},
    MatchesChain doc pos ms → (qUpdates ms).Pairwise (fun x y => x.start < y.start)
  | [], _, _ => List.Pairwise.nil
  | m :: rest, pos, h => by
    rw [qUpdates, List.filterMap_cons]
    cases hq : questionUpd m with
    | none => exact qUpdates_pairwise h.2.2.2.2
    | some u =>
      refine List.Pairwise.cons ?_ (qUpdates_pairwise h.2.2.2.2)
      intro y hy
      have h1 := (questionUpd_shape m u hq).1
      have h2 := qUpdates_lower h.2.2.2.2 y hy
      have h12 := h.2.2.1
      omega

theorem insDesc_middle : ∀ (l₁ : List Upd) (a : Upd) (l₂ : List Upd),
    (∀ v ∈ l₁, a.start < v.start) → (∀ t ∈ l₂, t.start ≤ a.start) →
    insDesc a (l₁ ++ l₂) = l₁ ++ a :: l₂
  | [], a, l₂, _, h₂ => by
    cases l₂ with
    | nil => rfl
    | cons v t =>
      rw [List.nil_append, insDesc, if_pos (h₂ v (List.mem_cons_self v t))]
      rfl
  | v :: l₁, a, l₂, h₁, h₂ => by
    rw [List.cons_append, insDesc,
      if_neg (by have := h₁ v (List.mem_cons_self v l₁); omega),
      insDesc_middle l₁ a l₂ (fun u hu => h₁ u (List.mem_cons_of_mem v hu)) h₂]
    rfl

theorem foldr_insDesc_asc : ∀ (l tail : List Upd),
    l.Pairwise (fun x y => x.start < y.start) →
    (∀ a ∈ l, ∀ t ∈ tail, t.start ≤ a.start) →
    l.foldr insDesc tail = l.reverse ++ tail
  | [], tail, _, _ => rfl
  | a :: l, tail, hp, ht => by
    rw [List.foldr_cons,
      foldr_insDesc_asc l tail (List.Pairwise.of_cons hp)
        (fun x hx => ht x (List.mem_cons_of_mem a hx)),
      insDesc_middle l.reverse a tail
        (fun v hv => (List.pairwise_cons.mp hp).1 v (List.mem_reverse.mp hv))
        (ht a (List.mem_cons_self a l))]
    simp

/-- The sort in descending start order sends `questionUpdates ++ metaUpdate`
to `questionUpdates.reverse ++ metaUpdate`. -/
theorem sorted_updates {doc : Chars} {ms : List MatchInfo}
    (hch : MatchesChain doc 0 ms) :
    sortDescUpd (qUpdates ms ++ (metaUpd ms).toList)
      = (qUpdates ms).reverse ++ (metaUpd ms).toList := by
  rw [sortDescUpd, List.foldr_append]
  have htail : (metaUpd ms).toList.foldr insDesc [] = (metaUpd ms).toList := by
    cases metaUpd ms <;> rfl
  rw [htail]
  refine foldr_insDesc_asc _ _ (qUpdates_pairwise hch) ?_
  intro a ha t htl
  cases hmu : metaUpd ms with
  | none => rw [hmu] at htl; cases htl
  | some u =>
    rw [hmu] at htl
    have htu : t = u := by simpa [Option.toList] using htl
    obtain ⟨mm, rest, hms, hs, _, hqn⟩ := metaUpd_shape ms u hmu
    subst hms
    rw [qUpdates, List.filterMap_cons, hqn] at ha
    have h2 := qUpdates_lower hch.2.2.2.2 a ha
    have h12 := hch.2.2.1
    rw [htu, hs]
    omega

theorem mkUpd_of_shape (m : MatchInfo) (u : Upd) (h1 : u.start = m.start)
    (h2 : u.stop = m.start + m.full.length) : mkUpd (m, some u.text) = some u := by
  cases u with
  | mk s e t =>
    simp only [mkUpd, Option.some.injEq, Upd.mk.injEq]
    exact ⟨h1.symm, h2.symm, trivial⟩

theorem mkUpd_questionUpd (m : MatchInfo) :
    mkUpd (m, (questionUpd m).map Upd.text) = questionUpd m := by
  cases hq : questionUpd m with
  | none => rfl
  | some u =>
    obtain ⟨h1, h2⟩ := questionUpd_shape m u hq
    rw [Option.map_some', mkUpd_of_shape m u h1 h2]

theorem tailPairs_eq (ms : List MatchInfo) : ∀ (l : List MatchInfo) (k : Nat), 1 ≤ k →
    (((l.enumFrom k).map fun p => (p.2, (matchUpd ms p.1 p.2).map Upd.text)).filterMap mkUpd)
      = qUpdates l
  | [], _, _ => rfl
  | m :: rest, k, hk => by
    rw [List.enumFrom_cons, List.map_cons, List.filterMap_cons]
    dsimp only
    rw [show matchUpd ms k m = questionUpd m from by rw [matchUpd, if_neg (by omega)],
      mkUpd_questionUpd, tailPairs_eq ms rest (k + 1) (by omega)]
    conv_rhs => rw [qUpdates, List.filterMap_cons]
    rfl

/-- The per-match replacements, read off left to right, contribute exactly
the metadata update (if any) followed by the tag updates in match order. -/
theorem rewritePairs_filterMap (ms : List MatchInfo) :
    (rewritePairs ms).filterMap mkUpd = (metaUpd ms).toList ++ qUpdates ms := by
  cases ms with
  | nil => rfl
  | cons m rest =>
    rw [rewritePairs, List.enum_cons, List.map_cons, List.filterMap_cons]
    dsimp only
    rw [tailPairs_eq (m :: rest) rest 1 le_rfl]
    cases hmu : metaUpd (m :: rest) with
    | none =>
      rw [show matchUpd (m :: rest) 0 m = questionUpd m from by
          rw [matchUpd, if_pos rfl, hmu],
        mkUpd_questionUpd]
      conv_rhs => rw [qUpdates, List.filterMap_cons]
      rfl
    | some u =>
      obtain ⟨mm, rest', hms, h1, h2, hqn⟩ := metaUpd_shape (m :: rest) u hmu
      injection hms with hmm hrest
      subst hmm
      subst hrest
      rw [show matchUpd (m :: rest) 0 m = some u from by
          rw [matchUpd, if_pos rfl, hmu],
        Option.map_some', mkUpd_of_shape m u h1 h2]
      conv_rhs => rw [qUpdates, List.filterMap_cons, hqn]
      rfl

theorem rewritePairs_map_fst (ms : List MatchInfo) :
    (rewritePairs ms).map Prod.fst = ms := by
  rw [rewritePairs, List.map_map]
  rw [show (Prod.fst ∘ fun p : Nat × MatchInfo =>
      (p.2, (matchUpd ms p.1 p.2).map Upd.text)) = Prod.snd from rfl]
  exact List.enum_map_snd ms

theorem drop_split (doc : Chars) (a b : Nat) (h : a ≤ b) :
    (doc.drop a).take (b - a) ++ doc.drop b = doc.drop a := by
  conv_rhs => rw [← List.take_append_drop (b - a) (doc.drop a)]
  congr 1
  rw [List.drop_drop]
  congr 1
  omega

/-- When every replacement slot is empty, rebuilding returns the document
tail unchanged. -/
theorem rebuild_none : ∀ (l : List (MatchInfo × Option Chars)) (pos : Nat) (doc : Chars),
    MatchesChain doc pos (l.map Prod.fst) → (∀ p ∈ l, p.2 = none) →
    rebuild doc pos l = doc.drop pos
  | [], _, _, _, _ => rfl
  | (m, r) :: rest, pos, doc, hch, hn => by
    dsimp only [List.map_cons, MatchesChain] at hch
    obtain ⟨hpos, hbound, h12, hfull, hrest⟩ := hch
    have hr : r = none := hn (m, r) (List.mem_cons_self _ _)
    subst hr
    rw [rebuild, rebuild_none rest _ doc hrest (fun p hp => hn p (List.mem_cons_of_mem _ hp)),
      show (Option.none : Option Chars).getD m.full = m.full from rfl]
    have e1 : m.full ++ doc.drop (m.start + m.full.length) = doc.drop m.start := by
      have h := drop_split doc m.start (m.start + m.full.length) (by omega)
      rw [Nat.add_sub_cancel_left, ← hfull] at h
      exact h
    rw [List.append_assoc, e1]
    exact drop_split doc pos m.start hpos

theorem chain_full {doc : Chars} : ∀ {ms : List MatchInfo} {pos : Nat},
    MatchesChain doc pos ms → ∀ m ∈ ms, m.full = (doc.drop m.start).take m.full.length
  | [], _, _, m, hm => by cases hm
  | m0 :: rest, _, h, m, hm => by
    rcases List.mem_cons.mp hm with rfl | hm
    · exact h.2.2.2.1
    · exact chain_full h.2.2.2.2 m hm

/-- The function's output is the left-to-right rebuild of the input in
which only the rewritten fenced spans are replaced. -/
theorem normalize_rebuild (doc : Chars) :
    normalizeExamMetadataAndTags doc = rebuild doc 0 (rewritePairs (docMatches doc)) := by
  have hch : MatchesChain doc 0 (docMatches doc) := docMatches_chain doc
  simp only [normalizeExamMetadataAndTags]
  by_cases hnil : docMatches doc = []
  · rw [if_pos hnil, rewritePairs, hnil]
    simp [rebuild]
  · rw [if_neg hnil]
    simp only [metaStep_normLoop]
    by_cases hupd : qUpdates (docMatches doc) ++ (metaUpd (docMatches doc)).toList = []
    · rw [if_pos hupd]
      obtain ⟨hq, hm⟩ := List.append_eq_nil.mp hupd
      have hmn : metaUpd (docMatches doc) = none := by
        cases h : metaUpd (docMatches doc) <;> simp [h] at hm ⊢
      rw [qUpdates] at hq
      have hq' := List.filterMap_eq_nil_iff.mp hq
      rw [rebuild_none (rewritePairs (docMatches doc)) 0 doc
          (by rw [rewritePairs_map_fst]; exact hch) ?_, List.drop_zero]
      intro p hp
      rw [rewritePairs] at hp
      obtain ⟨q, hq2, rfl⟩ := List.mem_map.mp hp
      have hmem : q.2 ∈ docMatches doc := List.snd_mem_of_mem_enum hq2
      have hqn : matchUpd (docMatches doc) q.1 q.2 = none := by
        rw [matchUpd]
        split
        · simp only [hmn]
          exact hq' q.2 hmem
        · exact hq' q.2 hmem
      simp [hqn]
    · rw [if_neg hupd, sorted_updates hch]
      have hrev : ((rewritePairs (docMatches doc)).filterMap mkUpd).reverse
          = (qUpdates (docMatches doc)).reverse ++ (metaUpd (docMatches doc)).toList := by
        rw [rewritePairs_filterMap, List.reverse_append]
        congr 1
        cases metaUpd (docMatches doc) <;> rfl
      rw [← hrev,
        foldl_applyUpd_rebuild (rewritePairs (docMatches doc)) 0 doc
          (by rw [rewritePairs_map_fst]; exact hch),
        List.take_zero, List.nil_append]

/-- C9: the output of `normalizeExamMetadataAndTags` is the left-to-right
rebuild of the input in which only the rewritten fenced spans are replaced:
every character outside those spans — prose, separators, and unchanged
blocks — is copied through verbatim (`rebuild` copies all gaps from the
input document), and each match span is the literal document slice. -/
theorem claim_C9 (doc : Chars) :
    normalizeExamMetadataAndTags doc = rebuild doc 0 (rewritePairs (docMatches doc)) ∧
    ∀ m ∈ docMatches doc, m.full = (doc.drop m.start).take m.full.length :=
  ⟨normalize_rebuild doc, chain_full (docMatches_chain doc)⟩

def c2wmd : JVal :=
  .jobj (.ocons "num_questions".toList (.jnum ⟨3, 0⟩)
    (.ocons "score_total".toList (.jnum ⟨9, 0⟩) .onil))

def c2wst : NormSt :=
  { qc := 2, total := ⟨7, 0⟩, updates := [], meta := some (c2wmd, ⟨0, [], []⟩) }

theorem claim_C2_witness :
    (c2wst.qc = 0 → metaStep c2wst = c2wst.updates) ∧
    (0 < c2wst.qc → ∃ md2 : JVal,
      ((metaStep c2wst = c2wst.updates ∧ md2 = c2wmd) ∨
        metaStep c2wst = c2wst.updates ++
          [{ start := (0 : Nat), stop := 0 + ([] : Chars).length
             text := fenceWrap (stringify2 md2) }]) ∧
      jget md2 "num_questions".toList = some (.jnum (DecNum.ofNat c2wst.qc)) ∧
      scoreView (jget md2 "score_total".toList) = some c2wst.total) :=
  claim_C2 c2wst c2wmd ⟨0, [], []⟩
    (.ocons "num_questions".toList (.jnum ⟨3, 0⟩)
      (.ocons "score_total".toList (.jnum ⟨9, 0⟩) .onil))
    rfl rfl (by decide)

/-! ## Parse-produced values

`JSON.parse` output satisfies an invariant — canonical numbers and
duplicate-free object keys — under which `JSON.parse` inverts
`JSON.stringify`. -/

/-- Whether `k` is a key of the object. -/
def hasKeyO (k : Chars) : JObj → Bool
  | .onil => false
  | .ocons k2 _ t => k2 == k || hasKeyO k t

/-- The mantissa / exponent pair is in canonical form. -/
def canonB (n : DecNum) : Bool := n.exp == 0 || n.man % 10 != 0

mutual
/-- The invariant of `JSON.parse` output: every number canonical, every
object's keys duplicate-free. -/
def wfJ : JVal → Bool
  | .jnull => true
  | .jbool _ => true
  | .jnum q => canonB q
  | .jstr _ => true
  | .jarr xs => wfA xs
  | .jobj kvs => wfO kvs

def wfA : JArr → Bool
  | .anil => true
  | .acons v t => wfJ v && wfA t

def wfO : JObj → Bool
  | .onil => true
  | .ocons k v t => !hasKeyO k t && wfJ v && wfO t
end

theorem stripTen_canon : ∀ (f : Nat) (m : Int) (e : Nat), e ≤ f →
    canonB (stripTen f m e) = true
  | 0, m, e, h => by
    rw [stripTen]
    have : e = 0 := by omega
    subst this
    rfl
  | f + 1, m, e, h => by
    rw [stripTen]
    by_cases he : e = 0
    · rw [if_pos he]
      rfl
    · rw [if_neg he]
      by_cases hm : m % 10 = 0
      · rw [if_pos hm]
        exact stripTen_canon f (m / 10) (e - 1) (by omega)
      · rw [if_neg hm]
        simp [canonB, hm]

theorem make_canon (neg : Bool) (ipart fval fexp : Nat) (e : Int) :
    canonB (DecNum.make neg ipart fval fexp e) = true := by
  rw [DecNum.make]
  split
  · rfl
  · exact stripTen_canon _ _ _ le_rfl

theorem add_canon (a b : DecNum) : canonB (a.add b) = true :=
  stripTen_canon _ _ _ le_rfl

theorem parseJNum_canon (cs : Chars) (q : DecNum) (r : Chars)
    (h : parseJNum cs = some (q, r)) : canonB q = true := by
  rw [parseJNum.eq_def] at h
  unfold parseJNum.parseJNumExp at h
  repeat' split at h
  all_goals first
    | exact Option.noConfusion h
    | (injection h with h; injection h with h1 h2; rw [← h1]; exact make_canon ..)

theorem hasKeyO_objSet_ne (a k : Chars) (v : JVal) (hne : ¬ k = a) :
    ∀ o : JObj, hasKeyO a (objSet k v o) = hasKeyO a o
  | .onil => by simp [objSet, hasKeyO, hne]
  | .ocons k2 v2 t => by
    rw [objSet]
    by_cases hk : k2 = k
    · subst hk
      rw [if_pos rfl]
      simp [hasKeyO]
    · rw [if_neg hk, hasKeyO, hasKeyO, hasKeyO_objSet_ne a k v hne t]

theorem objSet_wf (k : Chars) (v : JVal) (hv : wfJ v = true) :
    ∀ o : JObj, wfO o = true → wfO (objSet k v o) = true
  | .onil, _ => by simp [objSet, wfO, hasKeyO, hv]
  | .ocons k2 v2 t, ho => by
    rw [wfO, Bool.and_eq_true, Bool.and_eq_true] at ho
    obtain ⟨⟨hnk, hv2⟩, ht⟩ := ho
    rw [objSet]
    by_cases hk : k2 = k
    · subst hk
      rw [if_pos rfl, wfO, hnk]
      simp [hv, ht]
    · rw [if_neg hk, wfO, hasKeyO_objSet_ne k2 k v (fun h => hk h.symm) t, hnk]
      simp [hv2, objSet_wf k v hv t ht]

mutual
theorem parseJVal_wf : ∀ (fuel : Nat) (cs : Chars) (v : JVal) (r : Chars),
    parseJVal fuel cs = some (v, r) → wfJ v = true
  | 0, cs, v, r, h => absurd h (by rw [parseJVal]; simp)
  | fuel + 1, cs, v, r, h => by
    rw [parseJVal] at h
    split at h
    · injection h with h
      injection h with h1 h2
      rw [← h1]
      rfl
    · split at h
      · injection h with h
        injection h with h1 h2
        rw [← h1]
        rfl
      · split at h
        · injection h with h
          injection h with h1 h2
          rw [← h1]
          rfl
        · split at h
          · split at h
            · injection h with h
              injection h with h1 h2
              rw [← h1]
              rfl
            · exact absurd h (by simp)
          · split at h
            · injection h with h
              injection h with h1 h2
              rw [← h1]
              rfl
            · split at h
              · rename_i heq
                injection h with h
                injection h with h1 h2
                rw [← h1]
                exact parseJItems_wf fuel _ _ _ heq
              · exact absurd h (by simp)
          · split at h
            · injection h with h
              injection h with h1 h2
              rw [← h1]
              rfl
            · split at h
              · rename_i heq
                injection h with h
                injection h with h1 h2
                rw [← h1]
                exact parseJMembers_wf fuel .onil _ _ _ rfl heq
              · exact absurd h (by simp)
          · split at h
            · split at h
              · rename_i heq
                injection h with h
                injection h with h1 h2
                rw [← h1]
                exact parseJNum_canon _ _ _ heq
              · exact absurd h (by simp)
            · exact absurd h (by simp)
          · exact absurd h (by simp)

theorem parseJItems_wf : ∀ (fuel : Nat) (cs : Chars) (xs : JArr) (r : Chars),
    parseJItems fuel cs = some (xs, r) → wfA xs = true
  | 0, cs, xs, r, h => absurd h (by rw [parseJItems]; simp)
  | fuel + 1, cs, xs, r, h => by
    rw [parseJItems] at h
    split at h
    · exact absurd h (by simp)
    · rename_i hv
      split at h
      · split at h
        · rename_i hrec
          injection h with h
          injection h with h1 h2
          rw [← h1, wfA]
          simp [parseJVal_wf fuel _ _ _ hv, parseJItems_wf fuel _ _ _ hrec]
        · exact absurd h (by simp)
      · injection h with h
        injection h with h1 h2
        rw [← h1, wfA]
        simp [parseJVal_wf fuel _ _ _ hv, wfA]
      · exact absurd h (by simp)

theorem parseJMembers_wf : ∀ (fuel : Nat) (acc : JObj) (cs : Chars) (o : JObj) (r : Chars),
    wfO acc = true → parseJMembers fuel acc cs = some (o, r) → wfO o = true
  | 0, acc, cs, o, r, _, h => absurd h (by rw [parseJMembers]; simp)
  | fuel + 1, acc, cs, o, r, ha, h => by
    rw [parseJMembers] at h
    split at h
    · split at h
      · exact absurd h (by simp)
      · split at h
        · split at h
          · exact absurd h (by simp)
          · rename_i hv
            split at h
            · exact parseJMembers_wf fuel _ _ _ _
                (objSet_wf _ _ (parseJVal_wf fuel _ _ _ hv) acc ha) h
            · injection h with h
              injection h with h1 h2
              rw [← h1]
              exact objSet_wf _ _ (parseJVal_wf fuel _ _ _ hv) acc ha
            · exact absurd h (by simp)
        · exact absurd h (by simp)
    · exact absurd h (by simp)
end

theorem parseJson_wf (s : Chars) (v : JVal) (h : parseJson s = some v) : wfJ v = true := by
  rw [parseJson] at h
  split at h
  · rename_i hv
    split at h
    · injection h with h
      rw [← h]
      exact parseJVal_wf _ _ _ _ hv
    · exact absurd h (by simp)
  · exact absurd h (by simp)

/-! ## Decimal digit strings invert `natOfDigits` -/

theorem ne_of_toNat_ne {c d : Char} (h : c.toNat ≠ d.toNat) : c ≠ d :=
  fun he => h (he ▸ rfl)

theorem digitCh_toNat (d : Nat) (h : d < 10) : (digitCh d).toNat = 48 + d := by
  interval_cases d <;> rfl

theorem isDigitCh_digitCh (d : Nat) (h : d < 10) : isDigitCh (digitCh d) = true := by
  simp only [isDigitCh, digitCh_toNat d h, Bool.and_eq_true, decide_eq_true_eq]
  omega

theorem natCharsF_digits : ∀ (f n : Nat), n < f → ∀ c ∈ natCharsF f n, isDigitCh c = true
  | f + 1, n, h, c, hc => by
    rw [natCharsF] at hc
    split at hc
    · rename_i h10
      rw [List.mem_singleton] at hc
      subst hc
      exact isDigitCh_digitCh n (by omega)
    · rename_i h10
      rcases List.mem_append.mp hc with hc | hc
      · exact natCharsF_digits f (n / 10) (by omega) c hc
      · rw [List.mem_singleton] at hc
        subst hc
        exact isDigitCh_digitCh (n % 10) (by omega)

theorem natOfDigits_append1 (ds : Chars) (c : Char) :
    natOfDigits (ds ++ [c]) = 10 * natOfDigits ds + (c.toNat - 48) := by
  rw [natOfDigits, natOfDigits, List.foldl_append]
  rfl

theorem natOfDigits_natCharsF : ∀ (f n : Nat), n < f → natOfDigits (natCharsF f n) = n
  | f + 1, n, h => by
    rw [natCharsF]
    split
    · rename_i h10
      show 10 * 0 + ((digitCh n).toNat - 48) = n
      rw [digitCh_toNat n (by omega)]
      omega
    · rename_i h10
      rw [natOfDigits_append1, natOfDigits_natCharsF f (n / 10) (by omega),
        digitCh_toNat (n % 10) (by omega)]
      omega

theorem natCharsF_head : ∀ (f n : Nat), n < f → 1 ≤ n →
    ∃ c cs, natCharsF f n = c :: cs ∧ 49 ≤ c.toNat ∧ c.toNat ≤ 57
  | f + 1, n, h, h1 => by
    rw [natCharsF]
    split
    · rename_i h10
      exact ⟨digitCh n, [], rfl, by rw [digitCh_toNat n (by omega)]; omega,
        by rw [digitCh_toNat n (by omega)]; omega⟩
    · rename_i h10
      obtain ⟨c, cs, hcs, hl, hu⟩ := natCharsF_head f (n / 10) (by omega) (by omega)
      exact ⟨c, cs ++ [digitCh (n % 10)], by rw [hcs]; rfl, hl, hu⟩

theorem natCharsF_ne_nil : ∀ (f n : Nat), n < f → natCharsF f n ≠ []
  | f + 1, n, h => by
    rw [natCharsF]
    split
    · simp
    · simp

theorem natCharsF_length_le : ∀ (f n k : Nat), n < f → n < 10 ^ k → 1 ≤ k →
    (natCharsF f n).length ≤ k
  | f + 1, n, k, h, hp, hk => by
    rw [natCharsF]
    split
    · simpa using hk
    · rename_i h10
      have hk2 : 2 ≤ k := by
        by_contra hc
        have : k = 1 := by omega
        subst this
        simp at hp
        omega
      have hdiv : n / 10 < 10 ^ (k - 1) := by
        have he : 10 ^ k = 10 * 10 ^ (k - 1) := by
          conv_lhs => rw [show k = (k - 1) + 1 from by omega]
          rw [pow_succ]
          ring
        rw [he] at hp
        omega
      have := natCharsF_length_le f (n / 10) (k - 1) (by omega) hdiv (by omega)
      simp only [List.length_append, List.length_cons, List.length_nil]
      omega

theorem natChars_digits (n : Nat) : ∀ c ∈ natChars n, isDigitCh c = true :=
  natCharsF_digits (n + 1) n (by omega)

theorem natOfDigits_natChars (n : Nat) : natOfDigits (natChars n) = n :=
  natOfDigits_natCharsF (n + 1) n (by omega)

theorem natChars_head (n : Nat) (h : 1 ≤ n) :
    ∃ c cs, natChars n = c :: cs ∧ 49 ≤ c.toNat ∧ c.toNat ≤ 57 :=
  natCharsF_head (n + 1) n (by omega) h

theorem natChars_ne_nil (n : Nat) : natChars n ≠ [] :=
  natCharsF_ne_nil (n + 1) n (by omega)

theorem natChars_length_le (n k : Nat) (hp : n < 10 ^ k) (hk : 1 ≤ k) :
    (natChars n).length ≤ k :=
  natCharsF_length_le (n + 1) n k (by omega) hp hk

/-- The rest of the input after a digit run starts with a non-digit (or
ends). -/
def notDigitHead : Chars → Prop
  | [] => True
  | c :: _ => isDigitCh c = false

theorem digitSpan_append : ∀ (ds rest : Chars), (∀ c ∈ ds, isDigitCh c = true) →
    notDigitHead rest → digitSpan (ds ++ rest) = (ds, rest)
  | [], rest, _, hrest => by
    cases rest with
    | nil => rfl
    | cons c cs =>
      rw [List.nil_append, digitSpan, if_neg ?_]
      simpa [notDigitHead] using hrest
  | d :: ds, rest, hds, hrest => by
    rw [List.cons_append, digitSpan,
      if_pos (hds d (List.mem_cons_self d ds)),
      digitSpan_append ds rest (fun c hc => hds c (List.mem_cons_of_mem d hc)) hrest]

theorem natOfDigits_rep_zero (k : Nat) (ds : Chars) :
    natOfDigits (List.replicate k '0' ++ ds) = natOfDigits ds := by
  induction k with
  | zero => rfl
  | succ k ih =>
    rw [List.replicate_succ, List.cons_append]
    show natOfDigits (List.replicate k '0' ++ ds) = natOfDigits ds
    exact ih

/-! ## JSON.parse inverts number printing -/

def numDelim : Chars → Prop
  | [] => True
  | c :: _ => isDigitCh c = false ∧ c ≠ '.' ∧ c ≠ 'e' ∧ c ≠ 'E'

theorem numDelim_notDigit {rest : Chars} (h : numDelim rest) : notDigitHead rest := by
  cases rest with
  | nil => trivial
  | cons c cs => exact h.1

theorem make_exp0 (neg : Bool) (a : Nat) :
    DecNum.make neg a 0 0 0 = ⟨if neg then -(a : Int) else (a : Int), 0⟩ := by
  rw [DecNum.make]
  simp

theorem canon_eq_self (m : Int) (e : Nat) (hm : ¬ m % 10 = 0) : DecNum.canon m e = ⟨m, e⟩ := by
  cases e with
  | zero => rfl
  | succ e =>
    rw [DecNum.canon, stripTen, if_neg (by omega), if_neg hm]

theorem make_fracpos (neg : Bool) (i fv e : Nat) (he : 0 < e) :
    DecNum.make neg i fv e 0 =
      DecNum.canon (if neg then -(((i * 10 ^ e + fv : Nat) : Int)) else ((i * 10 ^ e + fv : Nat) : Int)) e := by
  rw [DecNum.make]
  split
  · rename_i hle
    exfalso
    omega
  · congr 1

theorem parseJNumExp_tail (neg : Bool) (ip fv e : Nat) (rest : Chars) (hrest : numDelim rest) :
    parseJNum.parseJNumExp neg ip fv e rest = some (DecNum.make neg ip fv e 0, rest) := by
  match rest, hrest with
  | [], _ => rfl
  | c :: rs, hrest =>
    rw [parseJNum.parseJNumExp.eq_def]
    split
    · rename_i hsp
      injection hsp with h1 _
      exact absurd h1 hrest.2.2.1
    · rename_i hsp
      injection hsp with h1 _
      exact absurd h1 hrest.2.2.2
    · rfl

theorem parseJNum_natChars_pos (a : Nat) (ha : 1 ≤ a) (neg : Bool) (rest : Chars)
    (hrest : numDelim rest) :
    parseJNum ((if neg then ['-'] else []) ++ (natChars a ++ rest)) =
      some (⟨if neg then -(a : Int) else (a : Int), 0⟩, rest) := by
  have h0 : ('0' : Char).toNat = 48 := rfl
  have hdsh : ('-' : Char).toNat = 45 := rfl
  obtain ⟨c0, ctail, hnc, hl, hu⟩ := natChars_head a ha
  have hdig : isDigitCh c0 = true :=
    natChars_digits a c0 (by rw [hnc]; exact List.mem_cons_self _ _)
  have hne0 : ¬ c0 = '0' := ne_of_toNat_ne (by omega)
  have hned : (c0 == '-') = false := by
    simp only [beq_eq_false_iff_ne, ne_eq]
    exact ne_of_toNat_ne (by omega)
  have hjoin : c0 :: (ctail ++ rest) = natChars a ++ rest := by rw [hnc]; rfl
  cases neg with
  | true =>
    rw [if_pos rfl, List.cons_append, List.nil_append, parseJNum.eq_def]
    dsimp only
    rw [hnc, List.cons_append]
    rw [if_pos (show ('-' == '-') = true from rfl)]
    dsimp only
    rw [if_neg (by simp [hdig]), if_neg (by simp [hne0]), if_neg hne0, hjoin,
      digitSpan_append _ _ (natChars_digits a) (numDelim_notDigit hrest)]
    dsimp only
    rw [natOfDigits_natChars]
    match rest, hrest with
    | [], _ =>
      dsimp only
      rw [parseJNum.parseJNumExp.eq_def]
      dsimp only
      rw [make_exp0]
    | c :: rs, hrest =>
      split
      · rename_i r3 hsp
        injection hsp with h1 _
        exact absurd h1 hrest.2.1
      · split
        · rename_i r3 hsp
          injection hsp with h1 _
          exact absurd h1 hrest.2.1
        · dsimp only
          rw [parseJNumExp_tail _ _ _ _ _ hrest, make_exp0]
  | false =>
    rw [if_neg (by simp), List.nil_append, hnc, List.cons_append, parseJNum.eq_def]
    dsimp only
    rw [if_neg (by simp [hned])]
    dsimp only
    rw [if_neg (by simp [hdig]), if_neg (by simp [hne0]), if_neg hne0, hjoin,
      digitSpan_append _ _ (natChars_digits a) (numDelim_notDigit hrest)]
    dsimp only
    rw [natOfDigits_natChars]
    match rest, hrest with
    | [], _ =>
      dsimp only
      rw [parseJNum.parseJNumExp.eq_def]
      dsimp only
      rw [make_exp0]
    | c :: rs, hrest =>
      split
      · rename_i r3 hsp
        injection hsp with h1 _
        exact absurd h1 hrest.2.1
      · split
        · rename_i r3 hsp
          injection hsp with h1 _
          exact absurd h1 hrest.2.1
        · dsimp only
          rw [parseJNumExp_tail _ _ _ _ _ hrest, make_exp0]

theorem parseJNum_zero (rest : Chars) (hrest : numDelim rest) :
    parseJNum ('0' :: rest) = some (⟨0, 0⟩, rest) := by
  match rest, hrest with
  | [], _ => rfl
  | c :: rs, hrest =>
    rw [parseJNum.eq_def]
    dsimp only
    rw [if_neg (by simp)]
    dsimp only
    rw [if_neg (by decide), if_neg (by simp [hrest.1]), if_pos rfl]
    split
    · rename_i r3 hsp
      injection hsp with h1 _
      exact absurd h1 hrest.2.1
    · split
      · rename_i r3 hsp
        injection hsp with h1 _
        exact absurd h1 hrest.2.1
      · dsimp only
        rw [parseJNumExp_tail _ _ _ _ _ hrest, make_exp0]
        simp



theorem parseJNum_frac (a e : Nat) (he : 1 ≤ e) (neg : Bool) (rest : Chars)
    (hrest : numDelim rest)
    (hmod : ¬ ((if neg then -(a : Int) else (a : Int)) % 10 = 0)) :
    parseJNum ((if neg then ['-'] else []) ++ (natChars (a / 10 ^ e) ++
      '.' :: ((List.replicate (e - (natChars (a % 10 ^ e)).length) '0' ++
        natChars (a % 10 ^ e)) ++ rest))) =
      some (⟨if neg then -(a : Int) else (a : Int), e⟩, rest) := by
  have h0 : ('0' : Char).toNat = 48 := rfl
  have hdsh : ('-' : Char).toNat = 45 := rfl
  have hpow : 0 < 10 ^ e := Nat.pos_pow_of_pos e (by omega)
  set fr : Chars := natChars (a % 10 ^ e) with hfr
  set fs : Chars := List.replicate (e - fr.length) '0' ++ fr with hfs
  have hfs_digits : ∀ c ∈ fs, isDigitCh c = true := by
    intro c hcm
    rcases List.mem_append.mp hcm with hcm | hcm
    · rw [List.eq_of_mem_replicate hcm]
      decide
    · exact natChars_digits _ c hcm
  have hfr_len : fr.length ≤ e := natChars_length_le _ e (Nat.mod_lt a hpow) he
  have hfs_len : fs.length = e := by
    rw [hfs, List.length_append, List.length_replicate]
    omega
  have hfs_ne : ¬ fs = [] := by
    rw [hfs]
    intro hcon
    exact natChars_ne_nil (a % 10 ^ e) (List.append_eq_nil.mp hcon).2
  have hfs_val : natOfDigits fs = a % 10 ^ e := by
    rw [hfs, natOfDigits_rep_zero, hfr, natOfDigits_natChars]
  have hspan : digitSpan (fs ++ rest) = (fs, rest) :=
    digitSpan_append _ _ hfs_digits (numDelim_notDigit hrest)
  have hfinal : DecNum.make neg (a / 10 ^ e) (natOfDigits fs) fs.length 0 =
      ⟨if neg then -(a : Int) else (a : Int), e⟩ := by
    rw [hfs_val, hfs_len, make_fracpos _ _ _ _ (by omega), Nat.div_add_mod',
      canon_eq_self _ _ hmod]
  by_cases hi : a / 10 ^ e = 0
  · rw [hi] at hfinal
    rw [hi, show natChars 0 = ['0'] from rfl]
    cases neg with
    | true =>
      rw [if_pos rfl, List.cons_append, List.nil_append, List.cons_append, parseJNum.eq_def]
      dsimp only
      rw [if_pos (show ('-' == '-') = true from rfl)]
      dsimp only
      rw [if_neg (by decide), if_neg (by simp <;> decide), if_pos rfl]
      simp only [List.nil_append]
      rw [hspan]
      dsimp only
      rw [if_neg hfs_ne, parseJNumExp_tail _ _ _ _ _ hrest, hfinal]
      try simp
    | false =>
      rw [if_neg (by simp), List.nil_append, List.cons_append, parseJNum.eq_def]
      dsimp only
      rw [if_neg (by decide)]
      dsimp only
      rw [if_neg (by decide), if_neg (by simp <;> decide), if_pos rfl]
      simp only [List.nil_append]
      rw [hspan]
      dsimp only
      rw [if_neg hfs_ne, parseJNumExp_tail _ _ _ _ _ hrest, hfinal]
      try simp
  · have hi1 : 1 ≤ a / 10 ^ e := Nat.pos_of_ne_zero hi
    obtain ⟨c0, ctail, hnc, hl, hu⟩ := natChars_head _ hi1
    have hdig : isDigitCh c0 = true :=
      natChars_digits _ c0 (by rw [hnc]; exact List.mem_cons_self _ _)
    have hne0 : ¬ c0 = '0' := ne_of_toNat_ne (by omega)
    have hned : (c0 == '-') = false := by
      simp only [beq_eq_false_iff_ne, ne_eq]
      exact ne_of_toNat_ne (by omega)
    have hjoin : c0 :: (ctail ++ '.' :: (fs ++ rest)) =
        natChars (a / 10 ^ e) ++ '.' :: (fs ++ rest) := by rw [hnc]; rfl
    have hspan2 : digitSpan (natChars (a / 10 ^ e) ++ '.' :: (fs ++ rest)) =
        (natChars (a / 10 ^ e), '.' :: (fs ++ rest)) :=
      digitSpan_append _ _ (natChars_digits _) rfl
    cases neg with
    | true =>
      rw [if_pos rfl, List.cons_append, List.nil_append, parseJNum.eq_def]
      dsimp only
      rw [hnc, List.cons_append]
      rw [if_pos (show ('-' == '-') = true from rfl)]
      dsimp only
      rw [if_neg (by simp [hdig]), if_neg (by simp [hne0]), if_neg hne0, hjoin, hspan2]
      dsimp only
      rw [natOfDigits_natChars]
      split
      · rename_i r3 hsp
        injection hsp with h2 h3
        subst h3
        rw [hspan]
        dsimp only
        rw [if_neg hfs_ne]
        split
        · rename_i r4 hsp2
          injection hsp2 with h4 h5
          subst h5
          rw [hspan]
          dsimp only
          rw [parseJNumExp_tail _ _ _ _ _ hrest, hfinal]
        · rename_i hx
          exact ((hx (fs ++ rest)) rfl).elim
      · rename_i hx
        exact ((hx (fs ++ rest)) rfl).elim
    | false =>
      rw [if_neg (by simp), List.nil_append, hnc, List.cons_append, parseJNum.eq_def]
      dsimp only
      rw [if_neg (by simp [hned])]
      dsimp only
      rw [if_neg (by simp [hdig]), if_neg (by simp [hne0]), if_neg hne0, hjoin, hspan2]
      dsimp only
      rw [natOfDigits_natChars]
      split
      · rename_i r3 hsp
        injection hsp with h2 h3
        subst h3
        rw [hspan]
        dsimp only
        rw [if_neg hfs_ne]
        split
        · rename_i r4 hsp2
          injection hsp2 with h4 h5
          subst h5
          rw [hspan]
          dsimp only
          rw [parseJNumExp_tail _ _ _ _ _ hrest, hfinal]
        · rename_i hx
          exact ((hx (fs ++ rest)) rfl).elim
      · rename_i hx
        exact ((hx (fs ++ rest)) rfl).elim



theorem parseJNum_numChars (q : DecNum) (hc : canonB q = true) (rest : Chars)
    (hrest : numDelim rest) : parseJNum (numChars q ++ rest) = some (q, rest) := by
  obtain ⟨man, exp⟩ := q
  by_cases hexp : exp = 0
  · subst hexp
    rw [numChars, if_pos rfl, intChars]
    by_cases hm : man = 0
    · subst hm
      rw [show ((if (0 : Int) < 0 then ['-'] else []) ++ natChars (0 : Int).natAbs) ++ rest
          = '0' :: rest from by norm_num; rfl]
      exact parseJNum_zero rest hrest
    · by_cases hm2 : man < 0
      · rw [if_pos hm2,
          show (['-'] ++ natChars man.natAbs) ++ rest
            = (if true then ['-'] else []) ++ (natChars man.natAbs ++ rest) from by simp,
          parseJNum_natChars_pos man.natAbs (by omega) true rest hrest]
        simp only [Option.some.injEq, Prod.mk.injEq, DecNum.mk.injEq, and_true]
        try simp only [Bool.false_eq_true, ite_true, ite_false]
        omega
      · rw [if_neg hm2,
          show (([] : Chars) ++ natChars man.natAbs) ++ rest
            = (if false then ['-'] else []) ++ (natChars man.natAbs ++ rest) from by simp,
          parseJNum_natChars_pos man.natAbs (by omega) false rest hrest]
        simp only [Option.some.injEq, Prod.mk.injEq, DecNum.mk.injEq, and_true]
        try simp only [Bool.false_eq_true, ite_true, ite_false]
        omega
  · have hmod : ¬ man % 10 = 0 := by
      simp only [canonB, Bool.or_eq_true, beq_iff_eq, bne_iff_ne, ne_eq] at hc
      rcases hc with h | h
      · exact absurd h hexp
      · exact h
    rw [numChars, if_neg hexp]
    dsimp only
    by_cases hm2 : man < 0
    · rw [if_pos hm2,
        show ((['-'] ++ natChars (man.natAbs / 10 ^ exp)) ++
            '.' :: (List.replicate (exp - (natChars (man.natAbs % 10 ^ exp)).length) '0' ++
              natChars (man.natAbs % 10 ^ exp))) ++ rest
          = (if true then ['-'] else []) ++ (natChars (man.natAbs / 10 ^ exp) ++
            '.' :: ((List.replicate (exp - (natChars (man.natAbs % 10 ^ exp)).length) '0' ++
              natChars (man.natAbs % 10 ^ exp)) ++ rest)) from by simp,
        parseJNum_frac man.natAbs exp (by omega) true rest hrest (by simpa using (by omega : ¬ -((man.natAbs : Int)) % 10 = 0))]
      simp only [Option.some.injEq, Prod.mk.injEq, DecNum.mk.injEq, and_true]
      try simp only [Bool.false_eq_true, ite_true, ite_false]
      omega
    · rw [if_neg hm2,
        show ((([] : Chars) ++ natChars (man.natAbs / 10 ^ exp)) ++
            '.' :: (List.replicate (exp - (natChars (man.natAbs % 10 ^ exp)).length) '0' ++
              natChars (man.natAbs % 10 ^ exp))) ++ rest
          = (if false then ['-'] else []) ++ (natChars (man.natAbs / 10 ^ exp) ++
            '.' :: ((List.replicate (exp - (natChars (man.natAbs % 10 ^ exp)).length) '0' ++
              natChars (man.natAbs % 10 ^ exp)) ++ rest)) from by simp,
        parseJNum_frac man.natAbs exp (by omega) false rest hrest (by simpa using (by omega : ¬ ((man.natAbs : Int)) % 10 = 0))]
      simp only [Option.some.injEq, Prod.mk.injEq, DecNum.mk.injEq, and_true]
      try simp only [Bool.false_eq_true, ite_true, ite_false]
      omega

/-! ## JSON.parse inverts string escaping -/

theorem char_toNat_ofNat_lt (n : Nat) (h : n < 55296) : (Char.ofNat n).toNat = n := by
  rw [Char.ofNat, dif_pos (Or.inl h : Nat.isValidChar n)]
  rfl

theorem char_eq_of_toNat {c d : Char} (h : c.toNat = d.toNat) : c = d := by
  apply Char.eq_of_val_eq
  apply UInt32.eq_of_toBitVec_eq
  apply BitVec.eq_of_toNat_eq
  exact h

theorem char_ofNat_toNat (c : Char) (h : c.toNat < 55296) : Char.ofNat c.toNat = c :=
  char_eq_of_toNat (char_toNat_ofNat_lt c.toNat h)



theorem hexDigitVal_hexDigitCh (v : Nat) (h : v < 16) : hexDigitVal (hexDigitCh v) = some v := by
  interval_cases v <;> rfl

theorem parseJStr_cons_plain (c : Char) (h1 : ¬ c = '"') (h2 : ¬ c = '\\')
    (h3 : 32 ≤ c.toNat) (acc r : Chars) :
    parseJStr acc (c :: r) = parseJStr (c :: acc) r := by
  rw [parseJStr.eq_def]
  split
  · rename_i heq
    exact List.noConfusion heq
  · simp_all
  · simp_all
  · first
      | rw [if_neg (by omega)]
      | (rename_i c2 r2 heq
         injection heq with hc hr
         subst hc
         subst hr
         rw [if_neg (by omega)])

theorem parseJStr_render : ∀ (s acc r : Chars),
    parseJStr acc (s.flatMap escCh ++ ('"' :: r)) = some (acc.reverse ++ s, r)
  | [], acc, r => by
    simp [parseJStr]
  | c :: cs, acc, r => by
    rw [List.flatMap_cons, List.append_assoc, escCh]
    by_cases h1 : (c == '"' || c == '\\') = true
    · rw [if_pos h1]
      simp only [List.cons_append, List.nil_append]
      rcases Bool.or_eq_true_iff.mp h1 with hq | hb
      · obtain rfl : c = '"' := by simpa using hq
        rw [show parseJStr acc ('\\' :: '"' :: (cs.flatMap escCh ++ ('"' :: r)))
            = parseJStr ('"' :: acc) (cs.flatMap escCh ++ ('"' :: r)) from rfl,
          parseJStr_render cs ('"' :: acc) r]
        simp
      · obtain rfl : c = '\\' := by simpa using hb
        rw [show parseJStr acc ('\\' :: '\\' :: (cs.flatMap escCh ++ ('"' :: r)))
            = parseJStr ('\\' :: acc) (cs.flatMap escCh ++ ('"' :: r)) from rfl,
          parseJStr_render cs ('\\' :: acc) r]
        simp
    · rw [if_neg h1]
      have hne1 : ¬ c = '"' := by
        intro hcon
        subst hcon
        simp at h1
      have hne2 : ¬ c = '\\' := by
        intro hcon
        subst hcon
        simp at h1
      by_cases h2 : 32 ≤ c.toNat
      · rw [if_pos h2, List.singleton_append,
          parseJStr_cons_plain c hne1 hne2 h2, parseJStr_render cs (c :: acc) r]
        simp
      · rw [if_neg h2]
        by_cases h10 : c.toNat = 10
        · obtain rfl : c = '\n' := char_eq_of_toNat h10
          rw [if_pos h10]
          simp only [List.cons_append, List.nil_append]
          rw [
            show parseJStr acc ('\\' :: 'n' :: (cs.flatMap escCh ++ ('"' :: r)))
              = parseJStr ('\n' :: acc) (cs.flatMap escCh ++ ('"' :: r)) from rfl,
            parseJStr_render cs ('\n' :: acc) r]
          simp
        · rw [if_neg h10]
          by_cases h13 : c.toNat = 13
          · obtain rfl : c = '\r' := char_eq_of_toNat h13
            rw [if_pos h13]
            simp only [List.cons_append, List.nil_append]
            rw [
              show parseJStr acc ('\\' :: 'r' :: (cs.flatMap escCh ++ ('"' :: r)))
                = parseJStr ('\r' :: acc) (cs.flatMap escCh ++ ('"' :: r)) from rfl,
              parseJStr_render cs ('\r' :: acc) r]
            simp
          · rw [if_neg h13]
            by_cases h9 : c.toNat = 9
            · obtain rfl : c = '\t' := char_eq_of_toNat h9
              rw [if_pos h9]
              simp only [List.cons_append, List.nil_append]
              rw [
                show parseJStr acc ('\\' :: 't' :: (cs.flatMap escCh ++ ('"' :: r)))
                  = parseJStr ('\t' :: acc) (cs.flatMap escCh ++ ('"' :: r)) from rfl,
                parseJStr_render cs ('\t' :: acc) r]
              simp
            · rw [if_neg h9]
              by_cases h8 : c.toNat = 8
              · obtain rfl : c = Char.ofNat 8 := char_eq_of_toNat (by rw [h8]; rfl)
                rw [if_pos h8]
                simp only [List.cons_append, List.nil_append]
                rw [
                  show parseJStr acc ('\\' :: 'b' :: (cs.flatMap escCh ++ ('"' :: r)))
                    = parseJStr (Char.ofNat 8 :: acc) (cs.flatMap escCh ++ ('"' :: r)) from rfl,
                  parseJStr_render cs (Char.ofNat 8 :: acc) r]
                simp
              · rw [if_neg h8]
                by_cases h12 : c.toNat = 12
                · obtain rfl : c = Char.ofNat 12 := char_eq_of_toNat (by rw [h12]; rfl)
                  rw [if_pos h12]
                  simp only [List.cons_append, List.nil_append]
                  rw [
                    show parseJStr acc ('\\' :: 'f' :: (cs.flatMap escCh ++ ('"' :: r)))
                      = parseJStr (Char.ofNat 12 :: acc) (cs.flatMap escCh ++ ('"' :: r)) from rfl,
                    parseJStr_render cs (Char.ofNat 12 :: acc) r]
                  simp
                · rw [if_neg h12]
                  simp only [List.cons_append, List.nil_append]
                  rw [show parseJStr acc ('\\' :: 'u' :: '0' :: '0' :: hexDigitCh (c.toNat / 16) ::
                        hexDigitCh (c.toNat % 16) :: (cs.flatMap escCh ++ ('"' :: r)))
                      = (match hexDigitVal '0', hexDigitVal '0', hexDigitVal (hexDigitCh (c.toNat / 16)),
                            hexDigitVal (hexDigitCh (c.toNat % 16)) with
                        | some va, some vb, some vc, some vd =>
                          parseJStr (Char.ofNat (((va * 16 + vb) * 16 + vc) * 16 + vd) :: acc)
                            (cs.flatMap escCh ++ ('"' :: r))
                        | _, _, _, _ => none) from rfl]
                  rw [show hexDigitVal '0' = some 0 from rfl,
                    hexDigitVal_hexDigitCh (c.toNat / 16) (by omega),
                    hexDigitVal_hexDigitCh (c.toNat % 16) (by omega)]
                  dsimp only
                  rw [show ((0 * 16 + 0) * 16 + c.toNat / 16) * 16 + c.toNat % 16 = c.toNat from by omega,
                    char_ofNat_toNat c (by omega),
                    parseJStr_render cs (c :: acc) r]
                  simp

end ExamCore

namespace ExamCore

/-- Delimiters that may follow a complete JSON value inside a rendering. -/
def jsonDelim : Chars → Prop
  | [] => True
  | c :: _ => c = ',' ∨ c = ']' ∨ c = '}' ∨ c = '\n'

theorem jsonDelim_numDelim {rest : Chars} (h : jsonDelim rest) : numDelim rest := by
  cases rest with
  | nil => trivial
  | cons c cs =>
    rcases h with h | h | h | h <;> subst h <;> refine ⟨by decide, by decide, by decide, by decide⟩

theorem dropJsonWs_not {c : Char} (h : jsonWsCh c = false) (cs : Chars) :
    dropJsonWs (c :: cs) = c :: cs := by
  rw [dropJsonWs, if_neg (by simp [h])]

theorem dropJsonWs_idem (x : Chars) : dropJsonWs (dropJsonWs x) = dropJsonWs x := by
  induction x with
  | nil => rfl
  | cons c cs ih =>
    rw [dropJsonWs]
    split
    · exact ih
    · rename_i h
      rw [dropJsonWs, if_neg h]

theorem dropJsonWs_ws_prefix : ∀ (ws x : Chars), (∀ c ∈ ws, jsonWsCh c = true) →
    dropJsonWs (ws ++ x) = dropJsonWs x
  | [], x, _ => rfl
  | c :: ws, x, h => by
    rw [List.cons_append, dropJsonWs, if_pos (h c (List.mem_cons_self c ws))]
    exact dropJsonWs_ws_prefix ws x (fun d hd => h d (List.mem_cons_of_mem c hd))

theorem parseJVal_dropWs (fuel : Nat) (x : Chars) :
    parseJVal (fuel + 1) x = parseJVal (fuel + 1) (dropJsonWs x) := by
  rw [parseJVal, parseJVal, dropJsonWs_idem]

theorem parseJVal_ws_prefix (fuel : Nat) (hf : 1 ≤ fuel) (ws x : Chars)
    (hws : ∀ c ∈ ws, jsonWsCh c = true) : parseJVal fuel (ws ++ x) = parseJVal fuel x := by
  obtain ⟨f, rfl⟩ : ∃ f, fuel = f + 1 := ⟨fuel - 1, by omega⟩
  rw [parseJVal_dropWs, dropJsonWs_ws_prefix ws x hws, ← parseJVal_dropWs]

theorem parseJMembers_dropWs (fuel : Nat) (acc : JObj) (x : Chars) :
    parseJMembers (fuel + 1) acc x = parseJMembers (fuel + 1) acc (dropJsonWs x) := by
  rw [parseJMembers, parseJMembers, dropJsonWs_idem]

theorem parseJMembers_ws_prefix (fuel : Nat) (hf : 1 ≤ fuel) (acc : JObj) (ws x : Chars)
    (hws : ∀ c ∈ ws, jsonWsCh c = true) :
    parseJMembers fuel acc (ws ++ x) = parseJMembers fuel acc x := by
  obtain ⟨f, rfl⟩ : ∃ f, fuel = f + 1 := ⟨fuel - 1, by omega⟩
  rw [parseJMembers_dropWs, dropJsonWs_ws_prefix ws x hws, ← parseJMembers_dropWs]

theorem leadsWith_append_self : ∀ (p r : Chars), leadsWith p (p ++ r) = true
  | [], _ => rfl
  | c :: p, r => by
    rw [List.cons_append, leadsWith]
    simp [leadsWith_append_self p r]

theorem leadsWith_head_ne (p c : Char) (hne : ¬ p = c) (ps cs : Chars) :
    leadsWith (p :: ps) (c :: cs) = false := by
  rw [leadsWith]
  simp [hne]

theorem natChars_head_digit (a : Nat) :
    ∃ c cs, natChars a = c :: cs ∧ isDigitCh c = true := by
  cases hnc : natChars a with
  | nil => exact absurd hnc (natChars_ne_nil a)
  | cons c cs =>
    exact ⟨c, cs, rfl, natChars_digits a c (by rw [hnc]; exact List.mem_cons_self c cs)⟩

theorem numChars_head (q : DecNum) :
    ∃ c cs, numChars q = c :: cs ∧ (c = '-' ∨ isDigitCh c = true) := by
  obtain ⟨man, exp⟩ := q
  rw [numChars]
  by_cases hexp : exp = 0
  · rw [if_pos hexp, intChars]
    by_cases hm : man < 0
    · rw [if_pos hm]
      obtain ⟨c, cs, hnc, _⟩ := natChars_head_digit man.natAbs
      exact ⟨'-', natChars man.natAbs, rfl, Or.inl rfl⟩
    · rw [if_neg hm, List.nil_append]
      obtain ⟨c, cs, hnc, hd⟩ := natChars_head_digit man.natAbs
      exact ⟨c, cs, hnc, Or.inr hd⟩
  · rw [if_neg hexp]
    dsimp only
    by_cases hm : man < 0
    · rw [if_pos hm]
      exact ⟨'-', _, rfl, Or.inl rfl⟩
    · rw [if_neg hm, List.nil_append]
      obtain ⟨c, cs, hnc, hd⟩ := natChars_head_digit (man.natAbs / 10 ^ exp)
      rw [hnc, List.cons_append]
      exact ⟨c, _, rfl, Or.inr hd⟩

/-- The first character of a rendered value: never whitespace, a closing
bracket, a comma, or a backtick. -/
theorem renderJ_head (v : JVal) (ind : Bool) (lvl : Nat) :
    ∃ c cs, renderJ v ind lvl = c :: cs ∧ jsonWsCh c = false ∧ ¬ c = ']' ∧ ¬ c = '}' ∧
      ¬ c = ',' ∧ ¬ c = '`' := by
  cases v with
  | jnull => exact ⟨'n', _, rfl, by decide, by decide, by decide, by decide, by decide⟩
  | jbool b =>
    cases b with
    | true => exact ⟨'t', _, rfl, by decide, by decide, by decide, by decide, by decide⟩
    | false => exact ⟨'f', _, rfl, by decide, by decide, by decide, by decide, by decide⟩
  | jnum q =>
    have e1 : (']' : Char).toNat = 93 := rfl
    have e2 : ('}' : Char).toNat = 125 := rfl
    have e3 : (',' : Char).toNat = 44 := rfl
    have e4 : ('`' : Char).toNat = 96 := rfl
    obtain ⟨c, cs, hnc, hd⟩ := numChars_head q
    refine ⟨c, cs, hnc, ?_, ?_, ?_, ?_, ?_⟩ <;>
      rcases hd with rfl | hd
    · decide
    · simp only [isDigitCh, Bool.and_eq_true, decide_eq_true_eq] at hd
      simp only [jsonWsCh, Bool.or_eq_false_iff, decide_eq_false_iff_not]
      omega
    · decide
    · simp only [isDigitCh, Bool.and_eq_true, decide_eq_true_eq] at hd
      exact ne_of_toNat_ne (by omega)
    · decide
    · simp only [isDigitCh, Bool.and_eq_true, decide_eq_true_eq] at hd
      exact ne_of_toNat_ne (by omega)
    · decide
    · simp only [isDigitCh, Bool.and_eq_true, decide_eq_true_eq] at hd
      exact ne_of_toNat_ne (by omega)
    · decide
    · simp only [isDigitCh, Bool.and_eq_true, decide_eq_true_eq] at hd
      exact ne_of_toNat_ne (by omega)
  | jstr s => exact ⟨'"', _, rfl, by decide, by decide, by decide, by decide, by decide⟩
  | jarr xs =>
    cases xs with
    | anil => exact ⟨'[', _, rfl, by decide, by decide, by decide, by decide, by decide⟩
    | acons x t =>
      cases ind with
      | true => exact ⟨'[', _, rfl, by decide, by decide, by decide, by decide, by decide⟩
      | false => exact ⟨'[', _, rfl, by decide, by decide, by decide, by decide, by decide⟩
  | jobj o =>
    cases o with
    | onil => exact ⟨'{', _, rfl, by decide, by decide, by decide, by decide, by decide⟩
    | ocons k v t =>
      cases ind with
      | true => exact ⟨'{', _, rfl, by decide, by decide, by decide, by decide, by decide⟩
      | false => exact ⟨'{', _, rfl, by decide, by decide, by decide, by decide, by decide⟩

/-- Concatenation of two member lists. -/
def oappend : JObj → JObj → JObj
  | .onil, o => o
  | .ocons k v t, o => .ocons k v (oappend t o)

theorem oappend_onil : ∀ o : JObj, oappend o .onil = o
  | .onil => rfl
  | .ocons k v t => by rw [oappend, oappend_onil t]

theorem oappend_assoc : ∀ (a b c : JObj), oappend (oappend a b) c = oappend a (oappend b c)
  | .onil, _, _ => rfl
  | .ocons k v t, b, c => by rw [oappend, oappend, oappend, oappend_assoc t b c]

theorem objSet_append (k : Chars) (v : JVal) :
    ∀ (acc : JObj), hasKeyO k acc = false → objSet k v acc = oappend acc (.ocons k v .onil)
  | .onil, _ => rfl
  | .ocons k2 v2 t, h => by
    rw [hasKeyO, Bool.or_eq_false_iff] at h
    rw [objSet, if_neg (by simpa using h.1), oappend, objSet_append k v t h.2]

end ExamCore

namespace ExamCore

theorem renderJ_length_pos (v : JVal) (ind : Bool) (lvl : Nat) :
    1 ≤ (renderJ v ind lvl).length := by
  obtain ⟨c, cs, hr, -⟩ := renderJ_head v ind lvl
  rw [hr]
  simp

theorem pad_ws : ∀ c ∈ pad n, jsonWsCh c = true := by
  intro c hc
  rw [List.eq_of_mem_replicate hc]
  decide

theorem dropJsonWs_ws_cons (wsc : Chars) (hws : ∀ c ∈ wsc, jsonWsCh c = true)
    (c : Char) (hc : jsonWsCh c = false) (out : Chars) :
    dropJsonWs (wsc ++ (c :: out)) = c :: out := by
  rw [ dropJsonWs_ws_prefix _ _ hws, dropJsonWs_not hc]

theorem notNull {c : Char} (h : ¬ 'n' = c) (cs : Chars) :
    leadsWith "null".toList (c :: cs) = false := by
  rw [show ("null".toList : Chars) = 'n' :: ['u', 'l', 'l'] from rfl]
  exact leadsWith_head_ne 'n' c h ['u', 'l', 'l'] cs

theorem notTrue {c : Char} (h : ¬ 't' = c) (cs : Chars) :
    leadsWith "true".toList (c :: cs) = false := by
  rw [show ("true".toList : Chars) = 't' :: ['r', 'u', 'e'] from rfl]
  exact leadsWith_head_ne 't' c h ['r', 'u', 'e'] cs

theorem notFalse {c : Char} (h : ¬ 'f' = c) (cs : Chars) :
    leadsWith "false".toList (c :: cs) = false := by
  rw [show ("false".toList : Chars) = 'f' :: ['a', 'l', 's', 'e'] from rfl]
  exact leadsWith_head_ne 'f' c h ['a', 'l', 's', 'e'] cs

-- stub for developing the val cases
theorem rt_val_null (ind : Bool) (lvl fuel : Nat) (rest : Chars)
    (hfuel : (renderJ .jnull ind lvl).length < fuel) (hrest : jsonDelim rest) :
    parseJVal fuel (renderJ .jnull ind lvl ++ rest) = some (.jnull, rest) := by
  obtain ⟨f, rfl⟩ : ∃ f, fuel = f + 1 := ⟨fuel - 1, by omega⟩
  rw [parseJVal]
  rw [show renderJ .jnull ind lvl ++ rest = 'n' :: (['u', 'l', 'l'] ++ rest) from rfl,
    dropJsonWs_not (by decide),
    show 'n' :: (['u', 'l', 'l'] ++ rest) = "null".toList ++ rest from rfl,
    if_pos (leadsWith_append_self "null".toList rest)]
  rw [show ("null".toList ++ rest).drop 4 = rest from List.drop_left' rfl]

theorem rt_val_str (s : Chars) (ind : Bool) (lvl fuel : Nat) (rest : Chars)
    (hfuel : (renderJ (.jstr s) ind lvl).length < fuel) (hrest : jsonDelim rest) :
    parseJVal fuel (renderJ (.jstr s) ind lvl ++ rest) = some (.jstr s, rest) := by
  obtain ⟨f, rfl⟩ : ∃ f, fuel = f + 1 := ⟨fuel - 1, by omega⟩
  rw [parseJVal]
  rw [show renderJ (.jstr s) ind lvl ++ rest
      = '"' :: ((s.flatMap escCh ++ ['"']) ++ rest) from rfl,
    dropJsonWs_not (by decide),
    if_neg (by rw [notNull (show ¬ 'n' = '"' from by decide)]; simp),
    if_neg (by rw [notTrue (show ¬ 't' = '"' from by decide)]; simp),
    if_neg (by rw [notFalse (show ¬ 'f' = '"' from by decide)]; simp)]
  show (match parseJStr [] ((s.flatMap escCh ++ ['"']) ++ rest) with
      | some (t, r') => some (JVal.jstr t, r')
      | none => none) = some (JVal.jstr s, rest)
  rw [List.append_assoc, show (['"'] ++ rest : Chars) = '"' :: rest from rfl,
    parseJStr_render s [] rest]
  rfl

end ExamCore

namespace ExamCore

theorem rt_val_bool (b : Bool) (ind : Bool) (lvl fuel : Nat) (rest : Chars)
    (hfuel : (renderJ (.jbool b) ind lvl).length < fuel) (hrest : jsonDelim rest) :
    parseJVal fuel (renderJ (.jbool b) ind lvl ++ rest) = some (.jbool b, rest) := by
  obtain ⟨f, rfl⟩ : ∃ f, fuel = f + 1 := ⟨fuel - 1, by omega⟩
  rw [parseJVal]
  cases b with
  | true =>
    rw [show renderJ (.jbool true) ind lvl ++ rest = 't' :: (['r', 'u', 'e'] ++ rest) from rfl,
      dropJsonWs_not (by decide),
      if_neg (by rw [notNull (show ¬ 'n' = 't' from by decide)]; simp),
      show 't' :: (['r', 'u', 'e'] ++ rest) = "true".toList ++ rest from rfl,
      if_pos (leadsWith_append_self "true".toList rest)]
    rw [show ("true".toList ++ rest).drop 4 = rest from List.drop_left' rfl]
  | false =>
    rw [show renderJ (.jbool false) ind lvl ++ rest
        = 'f' :: (['a', 'l', 's', 'e'] ++ rest) from rfl,
      dropJsonWs_not (by decide),
      if_neg (by rw [notNull (show ¬ 'n' = 'f' from by decide)]; simp),
      if_neg (by rw [notTrue (show ¬ 't' = 'f' from by decide)]; simp),
      show 'f' :: (['a', 'l', 's', 'e'] ++ rest) = "false".toList ++ rest from rfl,
      if_pos (leadsWith_append_self "false".toList rest)]
    rw [show ("false".toList ++ rest).drop 5 = rest from List.drop_left' rfl]

theorem rt_val_num (q : DecNum) (ind : Bool) (lvl fuel : Nat) (rest : Chars)
    (hwf : wfJ (.jnum q) = true)
    (hfuel : (renderJ (.jnum q) ind lvl).length < fuel) (hrest : jsonDelim rest) :
    parseJVal fuel (renderJ (.jnum q) ind lvl ++ rest) = some (.jnum q, rest) := by
  obtain ⟨f, rfl⟩ : ∃ f, fuel = f + 1 := ⟨fuel - 1, by omega⟩
  obtain ⟨c0, ctail, hnc, hd⟩ := numChars_head q
  have htn : c0.toNat = 45 ∨ (48 ≤ c0.toNat ∧ c0.toNat ≤ 57) := by
    rcases hd with rfl | hd
    · exact Or.inl rfl
    · simp only [isDigitCh, Bool.and_eq_true, decide_eq_true_eq] at hd
      exact Or.inr hd
  have hws : jsonWsCh c0 = false := by
    simp only [jsonWsCh, Bool.or_eq_false_iff, decide_eq_false_iff_not]
    omega
  have hn110 : ('n' : Char).toNat = 110 := rfl
  have ht116 : ('t' : Char).toNat = 116 := rfl
  have hf102 : ('f' : Char).toNat = 102 := rfl
  have hq34 : ('"' : Char).toNat = 34 := rfl
  have hb91 : ('[' : Char).toNat = 91 := rfl
  have hb123 : ('{' : Char).toNat = 123 := rfl
  rw [parseJVal]
  rw [show renderJ (.jnum q) ind lvl ++ rest = numChars q ++ rest from rfl, hnc,
    List.cons_append,
    dropJsonWs_not hws,
    if_neg (by rw [notNull (ne_of_toNat_ne (by omega))]; simp),
    if_neg (by rw [notTrue (ne_of_toNat_ne (by omega))]; simp),
    if_neg (by rw [notFalse (ne_of_toNat_ne (by omega))]; simp)]
  split
  · rename_i r2 heq
    injection heq with h1 _
    exact absurd (congrArg Char.toNat h1) (by omega)
  · rename_i r2 heq
    injection heq with h1 _
    exact absurd (congrArg Char.toNat h1) (by omega)
  · rename_i r2 heq
    injection heq with h1 _
    exact absurd (congrArg Char.toNat h1) (by omega)
  · rename_i hne1 hne2 hne3 heq
    injection heq with h1 h2
    subst h1
    subst h2
    rw [if_pos ?gd]
    case gd =>
      rcases hd with rfl | hd
      · simp
      · simp [hd]
    rw [show c0 :: (ctail ++ rest) = numChars q ++ rest from by rw [hnc]; rfl,
      parseJNum_numChars q hwf rest (jsonDelim_numDelim hrest)]
  · rename_i heq
    exact List.noConfusion heq

end ExamCore

namespace ExamCore

theorem renderItems_head (x : JVal) (t : JArr) (ind : Bool) (lvl : Nat) :
    ∃ c cs, renderItems (.acons x t) ind lvl = c :: cs ∧ jsonWsCh c = false ∧
      ¬ c = ']' ∧ ¬ c = '}' ∧ ¬ c = ',' ∧ ¬ c = '`' := by
  obtain ⟨c, cs, hr, p1, p2, p3, p4, p5⟩ := renderJ_head x ind lvl
  cases t with
  | anil => exact ⟨c, cs, by rw [renderItems, hr], p1, p2, p3, p4, p5⟩
  | acons y t2 =>
    exact ⟨c, _, by rw [renderItems, hr, List.cons_append, List.cons_append], p1, p2, p3, p4, p5⟩

theorem renderMembers_head (k : Chars) (v : JVal) (t : JObj) (ind : Bool) (lvl : Nat) :
    ∃ cs, renderMembers (.ocons k v t) ind lvl = '"' :: cs := by
  cases t with
  | onil =>
    exact ⟨_, by rw [renderMembers, renderStr, List.cons_append, List.cons_append]⟩
  | ocons k2 v2 t2 =>
    exact ⟨_, by rw [renderMembers, renderStr, List.cons_append, List.cons_append,
      List.cons_append, List.cons_append]⟩

theorem rt_val_arr_nil (ind : Bool) (lvl fuel : Nat) (rest : Chars)
    (hfuel : (renderJ (.jarr .anil) ind lvl).length < fuel) (hrest : jsonDelim rest) :
    parseJVal fuel (renderJ (.jarr .anil) ind lvl ++ rest) = some (.jarr .anil, rest) := by
  obtain ⟨f, rfl⟩ : ∃ f, fuel = f + 1 := ⟨fuel - 1, by omega⟩
  rw [parseJVal]
  rw [show renderJ (.jarr .anil) ind lvl ++ rest = '[' :: (']' :: rest) from rfl,
    dropJsonWs_not (by decide),
    if_neg (by rw [notNull (show ¬ 'n' = '[' from by decide)]; simp),
    if_neg (by rw [notTrue (show ¬ 't' = '[' from by decide)]; simp),
    if_neg (by rw [notFalse (show ¬ 'f' = '[' from by decide)]; simp)]
  rfl

theorem rt_val_obj_nil (ind : Bool) (lvl fuel : Nat) (rest : Chars)
    (hfuel : (renderJ (.jobj .onil) ind lvl).length < fuel) (hrest : jsonDelim rest) :
    parseJVal fuel (renderJ (.jobj .onil) ind lvl ++ rest) = some (.jobj .onil, rest) := by
  obtain ⟨f, rfl⟩ : ∃ f, fuel = f + 1 := ⟨fuel - 1, by omega⟩
  rw [parseJVal]
  rw [show renderJ (.jobj .onil) ind lvl ++ rest = '{' :: ('}' :: rest) from rfl,
    dropJsonWs_not (by decide),
    if_neg (by rw [notNull (show ¬ 'n' = '{' from by decide)]; simp),
    if_neg (by rw [notTrue (show ¬ 't' = '{' from by decide)]; simp),
    if_neg (by rw [notFalse (show ¬ 'f' = '{' from by decide)]; simp)]
  rfl

end ExamCore

namespace ExamCore

theorem rt_val_arr_cons (x : JVal) (t : JArr)
    (IH : ∀ (ind2 : Bool) (lvl2 fuel2 : Nat) (lead wsc out : Chars),
      wfA (.acons x t) = true → (JArr.acons x t) ≠ .anil →
      (renderItems (.acons x t) ind2 lvl2).length + 1 < fuel2 →
      (∀ c ∈ lead, jsonWsCh c = true) → (∀ c ∈ wsc, jsonWsCh c = true) →
      jsonDelim (wsc ++ (']' :: out)) →
      parseJItems fuel2 (lead ++ (renderItems (.acons x t) ind2 lvl2 ++ (wsc ++ (']' :: out)))) =
        some (.acons x t, out))
    (ind : Bool) (lvl fuel : Nat) (rest : Chars)
    (hwf : wfJ (.jarr (.acons x t)) = true)
    (hfuel : (renderJ (.jarr (.acons x t)) ind lvl).length < fuel) (hrest : jsonDelim rest) :
    parseJVal fuel (renderJ (.jarr (.acons x t)) ind lvl ++ rest)
      = some (.jarr (.acons x t), rest) := by
  obtain ⟨f, rfl⟩ : ∃ f, fuel = f + 1 := ⟨fuel - 1, by omega⟩
  obtain ⟨c0, cs0, hi0, hp1, hp2, hp3, hp4, hp5⟩ := renderItems_head x t ind (lvl + 1)
  cases ind with
  | true =>
    have hlen : (renderItems (.acons x t) true (lvl + 1)).length + 1 < f := by
      rw [show renderJ (.jarr (.acons x t)) true lvl
          = '[' :: '\n' :: (pad (lvl + 1) ++ renderItems (.acons x t) true (lvl + 1) ++
            '\n' :: (pad lvl ++ [']'])) from rfl] at hfuel
      simp only [List.length_cons, List.length_append, pad, List.length_replicate,
        List.length_singleton] at hfuel
      omega
    rw [parseJVal]
    rw [show renderJ (.jarr (.acons x t)) true lvl ++ rest
        = '[' :: ('\n' :: (((pad (lvl + 1) ++ renderItems (.acons x t) true (lvl + 1)) ++
            ('\n' :: (pad lvl ++ [']']))) ++ rest)) from rfl,
      dropJsonWs_not (by decide),
      if_neg (by rw [notNull (show ¬ 'n' = '[' from by decide)]; simp),
      if_neg (by rw [notTrue (show ¬ 't' = '[' from by decide)]; simp),
      if_neg (by rw [notFalse (show ¬ 'f' = '[' from by decide)]; simp)]
    show (match dropJsonWs ('\n' :: (((pad (lvl + 1) ++ renderItems (.acons x t) true (lvl + 1)) ++
            ('\n' :: (pad lvl ++ [']']))) ++ rest)) with
      | ']' :: r' => some (JVal.jarr .anil, r')
      | _ =>
        match parseJItems f ('\n' :: (((pad (lvl + 1) ++
            renderItems (.acons x t) true (lvl + 1)) ++ ('\n' :: (pad lvl ++ [']']))) ++ rest)) with
        | some (xs, r') => some (JVal.jarr xs, r')
        | none => none) = some (JVal.jarr (.acons x t), rest)
    have hdrop : dropJsonWs ('\n' :: (((pad (lvl + 1) ++
        renderItems (.acons x t) true (lvl + 1)) ++ ('\n' :: (pad lvl ++ [']']))) ++ rest))
        = c0 :: (cs0 ++ (('\n' :: (pad lvl ++ [']'])) ++ rest)) := by
      rw [show dropJsonWs ('\n' :: (((pad (lvl + 1) ++
          renderItems (.acons x t) true (lvl + 1)) ++ ('\n' :: (pad lvl ++ [']']))) ++ rest))
          = dropJsonWs (((pad (lvl + 1) ++ renderItems (.acons x t) true (lvl + 1)) ++
            ('\n' :: (pad lvl ++ [']']))) ++ rest) from by
          rw [dropJsonWs, if_pos (by decide)],
        List.append_assoc, List.append_assoc,
        dropJsonWs_ws_prefix (pad (lvl + 1)) _ pad_ws, hi0,
        List.cons_append,
        dropJsonWs_not hp1]
    rw [hdrop]
    split
    · rename_i r2 heq
      injection heq with h1 _
      exact absurd h1 hp2
    · rename_i hne heq
      rw [show ('\n' :: (((pad (lvl + 1) ++ renderItems (.acons x t) true (lvl + 1)) ++
            ('\n' :: (pad lvl ++ [']']))) ++ rest))
          = ('\n' :: pad (lvl + 1)) ++ (renderItems (.acons x t) true (lvl + 1) ++
            (('\n' :: pad lvl) ++ (']' :: rest))) from by
          simp [List.append_assoc],
        IH true (lvl + 1) f ('\n' :: pad (lvl + 1))
          ('\n' :: pad lvl) rest (by simpa [wfJ] using hwf) (by simp) hlen
          (by intro c hc
              rcases List.mem_cons.mp hc with rfl | hc
              · decide
              · exact pad_ws c hc)
          (by intro c hc
              rcases List.mem_cons.mp hc with rfl | hc
              · decide
              · exact pad_ws c hc)
          (Or.inr (Or.inr (Or.inr rfl)))]
  | false =>
    have hlen : (renderItems (.acons x t) false (lvl + 1)).length + 1 < f := by
      rw [show renderJ (.jarr (.acons x t)) false lvl
          = '[' :: (renderItems (.acons x t) false (lvl + 1) ++ [']']) from rfl] at hfuel
      simp only [List.length_cons, List.length_append, List.length_singleton] at hfuel
      omega
    rw [parseJVal]
    rw [show renderJ (.jarr (.acons x t)) false lvl ++ rest
        = '[' :: ((renderItems (.acons x t) false (lvl + 1) ++ [']']) ++ rest) from rfl,
      dropJsonWs_not (by decide),
      if_neg (by rw [notNull (show ¬ 'n' = '[' from by decide)]; simp),
      if_neg (by rw [notTrue (show ¬ 't' = '[' from by decide)]; simp),
      if_neg (by rw [notFalse (show ¬ 'f' = '[' from by decide)]; simp)]
    show (match dropJsonWs ((renderItems (.acons x t) false (lvl + 1) ++ [']']) ++ rest) with
      | ']' :: r' => some (JVal.jarr .anil, r')
      | _ =>
        match parseJItems f ((renderItems (.acons x t) false (lvl + 1) ++ [']']) ++ rest) with
        | some (xs, r') => some (JVal.jarr xs, r')
        | none => none) = some (JVal.jarr (.acons x t), rest)
    have hdrop : dropJsonWs ((renderItems (.acons x t) false (lvl + 1) ++ [']']) ++ rest)
        = c0 :: (cs0 ++ ([']'] ++ rest)) := by
      rw [List.append_assoc, hi0, List.cons_append, dropJsonWs_not hp1]
    rw [hdrop]
    split
    · rename_i r2 heq
      injection heq with h1 _
      exact absurd h1 hp2
    · rename_i hne heq
      rw [show ((renderItems (.acons x t) false (lvl + 1) ++ [']']) ++ rest)
          = ([] : Chars) ++ (renderItems (.acons x t) false (lvl + 1) ++
            (([] : Chars) ++ (']' :: rest))) from by simp,
        IH false (lvl + 1) f [] [] rest
          (by simpa [wfJ] using hwf) (by simp) hlen (by simp) (by simp)
          (Or.inr (Or.inl rfl))]

end ExamCore

namespace ExamCore

theorem rt_val_obj_cons (k : Chars) (v : JVal) (t : JObj)
    (IH : ∀ (acc : JObj) (ind2 : Bool) (lvl2 fuel2 : Nat) (lead wsc out : Chars),
      wfO (.ocons k v t) = true → (JObj.ocons k v t) ≠ .onil →
      (renderMembers (.ocons k v t) ind2 lvl2).length < fuel2 →
      (∀ a, hasKeyO a (JObj.ocons k v t) = true → hasKeyO a acc = false) →
      (∀ c ∈ lead, jsonWsCh c = true) → (∀ c ∈ wsc, jsonWsCh c = true) →
      jsonDelim (wsc ++ ('}' :: out)) →
      parseJMembers fuel2 acc
          (lead ++ (renderMembers (.ocons k v t) ind2 lvl2 ++ (wsc ++ ('}' :: out)))) =
        some (oappend acc (.ocons k v t), out))
    (ind : Bool) (lvl fuel : Nat)
    (rest : Chars) (hwf : wfJ (.jobj (.ocons k v t)) = true)
    (hfuel : (renderJ (.jobj (.ocons k v t)) ind lvl).length < fuel) (hrest : jsonDelim rest) :
    parseJVal fuel (renderJ (.jobj (.ocons k v t)) ind lvl ++ rest)
      = some (.jobj (.ocons k v t), rest) := by
  obtain ⟨f, rfl⟩ : ∃ f, fuel = f + 1 := ⟨fuel - 1, by omega⟩
  obtain ⟨cs0, hi0⟩ := renderMembers_head k v t ind (lvl + 1)
  cases ind with
  | true =>
    have hlen : (renderMembers (.ocons k v t) true (lvl + 1)).length < f := by
      rw [show renderJ (.jobj (.ocons k v t)) true lvl
          = '{' :: '\n' :: (pad (lvl + 1) ++ renderMembers (.ocons k v t) true (lvl + 1) ++
            '\n' :: (pad lvl ++ ['}'])) from rfl] at hfuel
      simp only [List.length_cons, List.length_append, pad, List.length_replicate,
        List.length_singleton] at hfuel
      omega
    rw [parseJVal]
    rw [show renderJ (.jobj (.ocons k v t)) true lvl ++ rest
        = '{' :: ('\n' :: (((pad (lvl + 1) ++ renderMembers (.ocons k v t) true (lvl + 1)) ++
            ('\n' :: (pad lvl ++ ['}']))) ++ rest)) from rfl,
      dropJsonWs_not (by decide),
      if_neg (by rw [notNull (show ¬ 'n' = '{' from by decide)]; simp),
      if_neg (by rw [notTrue (show ¬ 't' = '{' from by decide)]; simp),
      if_neg (by rw [notFalse (show ¬ 'f' = '{' from by decide)]; simp)]
    show (match dropJsonWs ('\n' :: (((pad (lvl + 1) ++
            renderMembers (.ocons k v t) true (lvl + 1)) ++
            ('\n' :: (pad lvl ++ ['}']))) ++ rest)) with
      | '}' :: r' => some (JVal.jobj .onil, r')
      | _ =>
        match parseJMembers f .onil ('\n' :: (((pad (lvl + 1) ++
            renderMembers (.ocons k v t) true (lvl + 1)) ++
            ('\n' :: (pad lvl ++ ['}']))) ++ rest)) with
        | some (kvs, r') => some (JVal.jobj kvs, r')
        | none => none) = some (JVal.jobj (.ocons k v t), rest)
    have hdrop : dropJsonWs ('\n' :: (((pad (lvl + 1) ++
        renderMembers (.ocons k v t) true (lvl + 1)) ++ ('\n' :: (pad lvl ++ ['}']))) ++ rest))
        = '"' :: (cs0 ++ (('\n' :: (pad lvl ++ ['}'])) ++ rest)) := by
      rw [show dropJsonWs ('\n' :: (((pad (lvl + 1) ++
          renderMembers (.ocons k v t) true (lvl + 1)) ++ ('\n' :: (pad lvl ++ ['}']))) ++ rest))
          = dropJsonWs (((pad (lvl + 1) ++ renderMembers (.ocons k v t) true (lvl + 1)) ++
            ('\n' :: (pad lvl ++ ['}']))) ++ rest) from by
          rw [dropJsonWs, if_pos (by decide)],
        List.append_assoc, List.append_assoc,
        dropJsonWs_ws_prefix (pad (lvl + 1)) _ pad_ws, hi0,
        List.cons_append,
        dropJsonWs_not (by decide)]
    rw [hdrop]
    split
    · rename_i r2 heq
      injection heq with h1 _
      exact absurd h1 (by decide)
    · rename_i hne heq
      rw [show ('\n' :: (((pad (lvl + 1) ++ renderMembers (.ocons k v t) true (lvl + 1)) ++
            ('\n' :: (pad lvl ++ ['}']))) ++ rest))
          = ('\n' :: pad (lvl + 1)) ++ (renderMembers (.ocons k v t) true (lvl + 1) ++
            (('\n' :: pad lvl) ++ ('}' :: rest))) from by
          simp [List.append_assoc],
        IH .onil true (lvl + 1) f ('\n' :: pad (lvl + 1))
          ('\n' :: pad lvl) rest (by simpa [wfJ] using hwf) (by simp) hlen
          (fun _ _ => rfl)
          (by intro c hc
              rcases List.mem_cons.mp hc with rfl | hc
              · decide
              · exact pad_ws c hc)
          (by intro c hc
              rcases List.mem_cons.mp hc with rfl | hc
              · decide
              · exact pad_ws c hc)
          (Or.inr (Or.inr (Or.inr rfl)))]
      rw [show oappend .onil (.ocons k v t) = .ocons k v t from rfl]
  | false =>
    have hlen : (renderMembers (.ocons k v t) false (lvl + 1)).length < f := by
      rw [show renderJ (.jobj (.ocons k v t)) false lvl
          = '{' :: (renderMembers (.ocons k v t) false (lvl + 1) ++ ['}']) from rfl] at hfuel
      simp only [List.length_cons, List.length_append, List.length_singleton] at hfuel
      omega
    rw [parseJVal]
    rw [show renderJ (.jobj (.ocons k v t)) false lvl ++ rest
        = '{' :: ((renderMembers (.ocons k v t) false (lvl + 1) ++ ['}']) ++ rest) from rfl,
      dropJsonWs_not (by decide),
      if_neg (by rw [notNull (show ¬ 'n' = '{' from by decide)]; simp),
      if_neg (by rw [notTrue (show ¬ 't' = '{' from by decide)]; simp),
      if_neg (by rw [notFalse (show ¬ 'f' = '{' from by decide)]; simp)]
    show (match dropJsonWs ((renderMembers (.ocons k v t) false (lvl + 1) ++ ['}']) ++ rest) with
      | '}' :: r' => some (JVal.jobj .onil, r')
      | _ =>
        match parseJMembers f .onil ((renderMembers (.ocons k v t) false (lvl + 1) ++
            ['}']) ++ rest) with
        | some (kvs, r') => some (JVal.jobj kvs, r')
        | none => none) = some (JVal.jobj (.ocons k v t), rest)
    have hdrop : dropJsonWs ((renderMembers (.ocons k v t) false (lvl + 1) ++ ['}']) ++ rest)
        = '"' :: (cs0 ++ (['}'] ++ rest)) := by
      rw [List.append_assoc, hi0, List.cons_append, dropJsonWs_not (by decide)]
    rw [hdrop]
    split
    · rename_i r2 heq
      injection heq with h1 _
      exact absurd h1 (by decide)
    · rename_i hne heq
      rw [show ((renderMembers (.ocons k v t) false (lvl + 1) ++ ['}']) ++ rest)
          = ([] : Chars) ++ (renderMembers (.ocons k v t) false (lvl + 1) ++
            (([] : Chars) ++ ('}' :: rest))) from by simp,
        IH .onil false (lvl + 1) f [] [] rest
          (by simpa [wfJ] using hwf) (by simp) hlen (fun _ _ => rfl) (by simp) (by simp)
          (Or.inr (Or.inr (Or.inl rfl)))]
      rw [show oappend .onil (.ocons k v t) = .ocons k v t from rfl]

end ExamCore

namespace ExamCore

end ExamCore

namespace ExamCore

end ExamCore

namespace ExamCore

mutual

theorem rt_val : ∀ (v : JVal) (ind : Bool) (lvl fuel : Nat) (rest : Chars),
    wfJ v = true → (renderJ v ind lvl).length < fuel → jsonDelim rest →
    parseJVal fuel (renderJ v ind lvl ++ rest) = some (v, rest)
  | .jnull, ind, lvl, fuel, rest, _, h2, h3 => rt_val_null ind lvl fuel rest h2 h3
  | .jbool b, ind, lvl, fuel, rest, _, h2, h3 => rt_val_bool b ind lvl fuel rest h2 h3
  | .jstr s, ind, lvl, fuel, rest, _, h2, h3 => rt_val_str s ind lvl fuel rest h2 h3
  | .jnum q, ind, lvl, fuel, rest, h1, h2, h3 => rt_val_num q ind lvl fuel rest h1 h2 h3
  | .jarr .anil, ind, lvl, fuel, rest, _, h2, h3 => rt_val_arr_nil ind lvl fuel rest h2 h3
  | .jarr (.acons x t), ind, lvl, fuel, rest, h1, h2, h3 =>
    rt_val_arr_cons x t
      (fun ind2 lvl2 fuel2 lead wsc out a1 a2 a3 a4 a5 a6 =>
        rt_items (.acons x t) ind2 lvl2 fuel2 lead wsc out a1 a2 a3 a4 a5 a6)
      ind lvl fuel rest h1 h2 h3
  | .jobj .onil, ind, lvl, fuel, rest, _, h2, h3 => rt_val_obj_nil ind lvl fuel rest h2 h3
  | .jobj (.ocons k v t), ind, lvl, fuel, rest, h1, h2, h3 =>
    rt_val_obj_cons k v t
      (fun acc ind2 lvl2 fuel2 lead wsc out a1 a2 a3 a4 a5 a6 a7 =>
        rt_members (.ocons k v t) acc ind2 lvl2 fuel2 lead wsc out a1 a2 a3 a4 a5 a6 a7)
      ind lvl fuel rest h1 h2 h3

theorem rt_items : ∀ (xs : JArr) (ind : Bool) (lvl fuel : Nat) (lead wsc out : Chars),
    wfA xs = true → xs ≠ .anil → (renderItems xs ind lvl).length + 1 < fuel →
    (∀ c ∈ lead, jsonWsCh c = true) → (∀ c ∈ wsc, jsonWsCh c = true) →
    jsonDelim (wsc ++ (']' :: out)) →
    parseJItems fuel (lead ++ (renderItems xs ind lvl ++ (wsc ++ (']' :: out)))) =
      some (xs, out)
  | .anil, _, _, _, _, _, _, _, hne, _, _, _, _ => absurd rfl hne
  | .acons x .anil, ind, lvl, fuel, lead, wsc, out, hwf, _, hlen, hlead, hwsc, hdelim => by
    obtain ⟨f, rfl⟩ : ∃ f, fuel = f + 1 := ⟨fuel - 1, by omega⟩
    have hx : wfJ x = true := by
      rw [wfA, Bool.and_eq_true] at hwf
      exact hwf.1
    have hf1 : 1 ≤ f := by
      have := renderJ_length_pos x ind lvl
      rw [show renderItems (.acons x .anil) ind lvl = renderJ x ind lvl from rfl] at hlen
      omega
    have hfx : (renderJ x ind lvl).length < f := by
      rw [show renderItems (.acons x .anil) ind lvl = renderJ x ind lvl from rfl] at hlen
      omega
    rw [parseJItems,
      show renderItems (.acons x .anil) ind lvl = renderJ x ind lvl from rfl,
      parseJVal_ws_prefix f hf1 lead _ hlead,
      rt_val x ind lvl f (wsc ++ (']' :: out)) hx hfx hdelim]
    dsimp only
    rw [dropJsonWs_ws_cons wsc hwsc ']' (by decide) out]
    rfl
  | .acons x (.acons y t2), ind, lvl, fuel, lead, wsc, out, hwf, _, hlen, hlead, hwsc, hdelim => by
    obtain ⟨f, rfl⟩ : ∃ f, fuel = f + 1 := ⟨fuel - 1, by omega⟩
    have hx : wfJ x = true := by
      rw [wfA, Bool.and_eq_true] at hwf
      exact hwf.1
    have hwf2 : wfA (.acons y t2) = true := by
      rw [wfA, Bool.and_eq_true] at hwf
      exact hwf.2
    have hlpos := renderJ_length_pos x ind lvl
    have hlpos2 := renderJ_length_pos y ind lvl
    have hlit : 1 ≤ (renderItems (.acons y t2) ind lvl).length := by
      obtain ⟨c, cs, hc, -⟩ := renderItems_head y t2 ind lvl
      rw [hc]
      simp
    cases ind with
    | true =>
      have hitems : renderItems (.acons x (.acons y t2)) true lvl
          = (renderJ x true lvl ++ (',' :: '\n' :: pad lvl)) ++
            renderItems (.acons y t2) true lvl := rfl
      have hlens : (renderJ x true lvl).length + (2 + 2 * lvl) +
          (renderItems (.acons y t2) true lvl).length + 1
          < f + 1 := by
        rw [hitems] at hlen
        simp only [List.length_append, List.length_cons, pad,
          List.length_replicate] at hlen
        omega
      rw [parseJItems,
        show (lead ++ (renderItems (.acons x (.acons y t2)) true lvl ++ (wsc ++ (']' :: out))))
          = lead ++ (renderJ x true lvl ++ ((',' :: '\n' :: pad lvl) ++
            (renderItems (.acons y t2) true lvl ++ (wsc ++ (']' :: out))))) from by
          rw [hitems]
          simp [List.append_assoc],
        parseJVal_ws_prefix f (by omega) lead _ hlead,
        rt_val x true lvl f _ hx (by omega) (by exact Or.inl rfl)]
      dsimp only
      rw [show ((',' :: '\n' :: pad lvl) ++
          (renderItems (.acons y t2) true lvl ++ (wsc ++ (']' :: out))))
          = ',' :: ('\n' :: (pad lvl ++
            (renderItems (.acons y t2) true lvl ++ (wsc ++ (']' :: out))))) from rfl,
        dropJsonWs_not (by decide)]
      show (match parseJItems f ('\n' :: (pad lvl ++
          (renderItems (.acons y t2) true lvl ++ (wsc ++ (']' :: out))))) with
        | some (xs, r'') => some (JArr.acons x xs, r'')
        | none => none) = some (JArr.acons x (.acons y t2), out)
      rw [show ('\n' :: (pad lvl ++
          (renderItems (.acons y t2) true lvl ++ (wsc ++ (']' :: out)))))
          = ('\n' :: pad lvl) ++
            (renderItems (.acons y t2) true lvl ++ (wsc ++ (']' :: out))) from rfl,
        rt_items (.acons y t2) true lvl f ('\n' :: pad lvl) wsc out hwf2 (by simp)
          (by omega)
          (by intro c hc
              rcases List.mem_cons.mp hc with rfl | hc
              · decide
              · exact pad_ws c hc)
          hwsc hdelim]
    | false =>
      have hitems : renderItems (.acons x (.acons y t2)) false lvl
          = (renderJ x false lvl ++ [',']) ++
            renderItems (.acons y t2) false lvl := rfl
      have hlens : (renderJ x false lvl).length + 1 +
          (renderItems (.acons y t2) false lvl).length + 1 < f + 1 := by
        rw [hitems] at hlen
        simp only [List.length_append, List.length_cons, List.length_nil] at hlen
        omega
      rw [parseJItems,
        show (lead ++ (renderItems (.acons x (.acons y t2)) false lvl ++ (wsc ++ (']' :: out))))
          = lead ++ (renderJ x false lvl ++ ([','] ++
            (renderItems (.acons y t2) false lvl ++ (wsc ++ (']' :: out))))) from by
          rw [hitems]
          simp [List.append_assoc],
        parseJVal_ws_prefix f (by omega) lead _ hlead,
        rt_val x false lvl f _ hx (by omega) (by exact Or.inl rfl)]
      dsimp only
      rw [show ([','] ++ (renderItems (.acons y t2) false lvl ++ (wsc ++ (']' :: out))))
          = ',' :: (renderItems (.acons y t2) false lvl ++ (wsc ++ (']' :: out))) from rfl,
        dropJsonWs_not (by decide)]
      show (match parseJItems f (renderItems (.acons y t2) false lvl ++ (wsc ++ (']' :: out))) with
        | some (xs, r'') => some (JArr.acons x xs, r'')
        | none => none) = some (JArr.acons x (.acons y t2), out)
      rw [show (renderItems (.acons y t2) false lvl ++ (wsc ++ (']' :: out)))
          = ([] : Chars) ++ (renderItems (.acons y t2) false lvl ++ (wsc ++ (']' :: out)))
          from by simp,
        rt_items (.acons y t2) false lvl f [] wsc out hwf2 (by simp) (by omega)
          (by simp) hwsc hdelim]

theorem rt_members : ∀ (o acc : JObj) (ind : Bool) (lvl fuel : Nat) (lead wsc out : Chars),
    wfO o = true → o ≠ .onil → (renderMembers o ind lvl).length < fuel →
    (∀ k, hasKeyO k o = true → hasKeyO k acc = false) →
    (∀ c ∈ lead, jsonWsCh c = true) → (∀ c ∈ wsc, jsonWsCh c = true) →
    jsonDelim (wsc ++ ('}' :: out)) →
    parseJMembers fuel acc (lead ++ (renderMembers o ind lvl ++ (wsc ++ ('}' :: out)))) =
      some (oappend acc o, out)
  | .onil, _, _, _, _, _, _, _, _, hne, _, _, _, _, _ => absurd rfl hne
  | .ocons k v .onil, acc, ind, lvl, fuel, lead, wsc, out, hwf, _, hlen, hdis, hlead, hwsc,
      hdelim => by
    obtain ⟨f, rfl⟩ : ∃ f, fuel = f + 1 := ⟨fuel - 1, by omega⟩
    have hv : wfJ v = true := by
      rw [wfO, Bool.and_eq_true, Bool.and_eq_true] at hwf
      exact hwf.1.2
    have hkacc : hasKeyO k acc = false := hdis k (by rw [hasKeyO]; simp)
    have hlv := renderJ_length_pos v ind lvl
    have hmem : renderMembers (.ocons k v .onil) ind lvl
        = (renderStr k ++ (if ind then ':' :: ' ' :: [] else [':'])) ++ renderJ v ind lvl := rfl
    have hlens : (renderStr k).length + 1 + (renderJ v ind lvl).length ≤
        (renderMembers (.ocons k v .onil) ind lvl).length := by
      rw [hmem]
      cases ind <;> (simp [List.length_append]; omega)
    rw [parseJMembers]
    rw [show (lead ++ (renderMembers (.ocons k v .onil) ind lvl ++ (wsc ++ ('}' :: out))))
        = lead ++ ('"' :: ((k.flatMap escCh ++ ['"']) ++
          ((if ind then ':' :: ' ' :: [] else [':']) ++
            (renderJ v ind lvl ++ (wsc ++ ('}' :: out)))))) from by
        rw [hmem, renderStr]
        simp [List.append_assoc],
      dropJsonWs_ws_prefix lead _ hlead,
      dropJsonWs_not (by decide)]
    show (match parseJStr [] ((k.flatMap escCh ++ ['"']) ++
        ((if ind then ':' :: ' ' :: [] else [':']) ++
          (renderJ v ind lvl ++ (wsc ++ ('}' :: out))))) with
      | none => none
      | some (k2, r1) =>
        match dropJsonWs r1 with
        | ':' :: r2 =>
          (match parseJVal f r2 with
          | none => none
          | some (v2, r3) =>
            match dropJsonWs r3 with
            | ',' :: r4 => parseJMembers f (objSet k2 v2 acc) r4
            | '}' :: r4 => some (objSet k2 v2 acc, r4)
            | _ => none)
        | _ => none) = some (oappend acc (.ocons k v .onil), out)
    rw [List.append_assoc, show (['"'] ++ ((if ind then ':' :: ' ' :: [] else [':']) ++
        (renderJ v ind lvl ++ (wsc ++ ('}' :: out)))) : Chars)
        = '"' :: ((if ind then ':' :: ' ' :: [] else [':']) ++
          (renderJ v ind lvl ++ (wsc ++ ('}' :: out)))) from rfl,
      parseJStr_render k []]
    dsimp only
    cases ind with
    | true =>
      rw [show ((if true then ':' :: ' ' :: [] else [':']) ++
          (renderJ v true lvl ++ (wsc ++ ('}' :: out))) : Chars)
          = ':' :: (' ' :: (renderJ v true lvl ++ (wsc ++ ('}' :: out)))) from rfl,
        dropJsonWs_not (by decide)]
      show (match parseJVal f (' ' :: (renderJ v true lvl ++ (wsc ++ ('}' :: out)))) with
        | none => none
        | some (v2, r3) =>
          match dropJsonWs r3 with
          | ',' :: r4 => parseJMembers f (objSet ([].reverse ++ k) v2 acc) r4
          | '}' :: r4 => some (objSet ([].reverse ++ k) v2 acc, r4)
          | _ => none) = some (oappend acc (.ocons k v .onil), out)
      rw [show (' ' :: (renderJ v true lvl ++ (wsc ++ ('}' :: out))))
          = [' '] ++ (renderJ v true lvl ++ (wsc ++ ('}' :: out))) from rfl,
        parseJVal_ws_prefix f (by omega) [' '] _ (by decide),
        rt_val v true lvl f _ hv (by omega) hdelim]
      dsimp only
      rw [dropJsonWs_ws_cons wsc hwsc '}' (by decide) out]
      show some (objSet ([].reverse ++ k) v acc, out) = some (oappend acc (.ocons k v .onil), out)
      rw [show ([].reverse ++ k : Chars) = k from rfl, objSet_append k v acc hkacc]
    | false =>
      rw [show ((if false then ':' :: ' ' :: [] else [':']) ++
          (renderJ v false lvl ++ (wsc ++ ('}' :: out))) : Chars)
          = ':' :: (renderJ v false lvl ++ (wsc ++ ('}' :: out))) from rfl,
        dropJsonWs_not (by decide)]
      show (match parseJVal f (renderJ v false lvl ++ (wsc ++ ('}' :: out))) with
        | none => none
        | some (v2, r3) =>
          match dropJsonWs r3 with
          | ',' :: r4 => parseJMembers f (objSet ([].reverse ++ k) v2 acc) r4
          | '}' :: r4 => some (objSet ([].reverse ++ k) v2 acc, r4)
          | _ => none) = some (oappend acc (.ocons k v .onil), out)
      rw [rt_val v false lvl f _ hv (by omega) hdelim]
      dsimp only
      rw [dropJsonWs_ws_cons wsc hwsc '}' (by decide) out]
      show some (objSet ([].reverse ++ k) v acc, out) = some (oappend acc (.ocons k v .onil), out)
      rw [show ([].reverse ++ k : Chars) = k from rfl, objSet_append k v acc hkacc]
  | .ocons k v (.ocons k2 v2 t2), acc, ind, lvl, fuel, lead, wsc, out, hwf, _, hlen, hdis,
      hlead, hwsc, hdelim => by
    obtain ⟨f, rfl⟩ : ∃ f, fuel = f + 1 := ⟨fuel - 1, by omega⟩
    have hv : wfJ v = true := by
      rw [wfO, Bool.and_eq_true, Bool.and_eq_true] at hwf
      exact hwf.1.2
    have hknot : hasKeyO k (.ocons k2 v2 t2) = false := by
      rw [wfO, Bool.and_eq_true, Bool.and_eq_true] at hwf
      simpa using hwf.1.1
    have hwft : wfO (.ocons k2 v2 t2) = true := by
      rw [wfO, Bool.and_eq_true, Bool.and_eq_true] at hwf
      exact hwf.2
    have hkacc : hasKeyO k acc = false := hdis k (by rw [hasKeyO]; simp)
    have hdis2 : ∀ a, hasKeyO a (.ocons k2 v2 t2) = true → hasKeyO a (objSet k v acc) = false := by
      intro a ha
      have hak : ¬ k = a := by
        intro hcon
        subst hcon
        rw [ha] at hknot
        cases hknot
      rw [hasKeyO_objSet_ne a k v hak]
      refine hdis a ?_
      rw [hasKeyO, ha]
      simp
    have hoapp : oappend (objSet k v acc) (.ocons k2 v2 t2) = oappend acc (.ocons k v (.ocons k2 v2 t2)) := by
      rw [objSet_append k v acc hkacc, oappend_assoc]
      rfl
    have hlv := renderJ_length_pos v ind lvl
    have hmem : renderMembers (.ocons k v (.ocons k2 v2 t2)) ind lvl
        = (((renderStr k ++ (if ind then ':' :: ' ' :: [] else [':'])) ++ renderJ v ind lvl) ++
          (if ind then ',' :: '\n' :: pad lvl else [','])) ++
          renderMembers (.ocons k2 v2 t2) ind lvl := rfl
    have hlmem : 1 ≤ (renderMembers (.ocons k2 v2 t2) ind lvl).length := by
      obtain ⟨cs2, hc⟩ := renderMembers_head k2 v2 t2 ind lvl
      rw [hc]
      simp
    rw [parseJMembers]
    rw [show (lead ++ (renderMembers (.ocons k v (.ocons k2 v2 t2)) ind lvl ++
        (wsc ++ ('}' :: out))))
        = lead ++ ('"' :: ((k.flatMap escCh ++ ['"']) ++
          ((if ind then ':' :: ' ' :: [] else [':']) ++
            (renderJ v ind lvl ++ ((if ind then ',' :: '\n' :: pad lvl else [',']) ++
              (renderMembers (.ocons k2 v2 t2) ind lvl ++ (wsc ++ ('}' :: out)))))))) from by
        rw [hmem, renderStr]
        simp [List.append_assoc],
      dropJsonWs_ws_prefix lead _ hlead,
      dropJsonWs_not (by decide)]
    show (match parseJStr [] ((k.flatMap escCh ++ ['"']) ++
        ((if ind then ':' :: ' ' :: [] else [':']) ++
          (renderJ v ind lvl ++ ((if ind then ',' :: '\n' :: pad lvl else [',']) ++
            (renderMembers (.ocons k2 v2 t2) ind lvl ++ (wsc ++ ('}' :: out))))))) with
      | none => none
      | some (kk, r1) =>
        match dropJsonWs r1 with
        | ':' :: r2 =>
          (match parseJVal f r2 with
          | none => none
          | some (vv, r3) =>
            match dropJsonWs r3 with
            | ',' :: r4 => parseJMembers f (objSet kk vv acc) r4
            | '}' :: r4 => some (objSet kk vv acc, r4)
            | _ => none)
        | _ => none) = some (oappend acc (.ocons k v (.ocons k2 v2 t2)), out)
    rw [List.append_assoc, show (['"'] ++ ((if ind then ':' :: ' ' :: [] else [':']) ++
        (renderJ v ind lvl ++ ((if ind then ',' :: '\n' :: pad lvl else [',']) ++
          (renderMembers (.ocons k2 v2 t2) ind lvl ++ (wsc ++ ('}' :: out)))))) : Chars)
        = '"' :: ((if ind then ':' :: ' ' :: [] else [':']) ++
          (renderJ v ind lvl ++ ((if ind then ',' :: '\n' :: pad lvl else [',']) ++
            (renderMembers (.ocons k2 v2 t2) ind lvl ++ (wsc ++ ('}' :: out)))))) from rfl,
      parseJStr_render k []]
    dsimp only
    cases ind with
    | true =>
      have hlens : (renderStr k).length + 2 + (renderJ v true lvl).length + (2 + 2 * lvl) +
          (renderMembers (.ocons k2 v2 t2) true lvl).length
          ≤ (renderMembers (.ocons k v (.ocons k2 v2 t2)) true lvl).length := by
        rw [hmem]
        simp [List.length_append, pad]
        omega
      rw [show ((if true then ':' :: ' ' :: [] else [':']) ++
          (renderJ v true lvl ++ ((if true then ',' :: '\n' :: pad lvl else [',']) ++
            (renderMembers (.ocons k2 v2 t2) true lvl ++ (wsc ++ ('}' :: out))))) : Chars)
          = ':' :: (' ' :: (renderJ v true lvl ++ ((',' :: '\n' :: pad lvl) ++
            (renderMembers (.ocons k2 v2 t2) true lvl ++ (wsc ++ ('}' :: out)))))) from rfl,
        dropJsonWs_not (by decide)]
      show (match parseJVal f (' ' :: (renderJ v true lvl ++ ((',' :: '\n' :: pad lvl) ++
          (renderMembers (.ocons k2 v2 t2) true lvl ++ (wsc ++ ('}' :: out)))))) with
        | none => none
        | some (vv, r3) =>
          match dropJsonWs r3 with
          | ',' :: r4 => parseJMembers f (objSet ([].reverse ++ k) vv acc) r4
          | '}' :: r4 => some (objSet ([].reverse ++ k) vv acc, r4)
          | _ => none) = some (oappend acc (.ocons k v (.ocons k2 v2 t2)), out)
      rw [show (' ' :: (renderJ v true lvl ++ ((',' :: '\n' :: pad lvl) ++
          (renderMembers (.ocons k2 v2 t2) true lvl ++ (wsc ++ ('}' :: out))))))
          = [' '] ++ (renderJ v true lvl ++ ((',' :: '\n' :: pad lvl) ++
            (renderMembers (.ocons k2 v2 t2) true lvl ++ (wsc ++ ('}' :: out))))) from rfl,
        parseJVal_ws_prefix f (by omega) [' '] _ (by decide),
        rt_val v true lvl f _ hv (by omega) (by exact Or.inl rfl)]
      dsimp only
      rw [show ((',' :: '\n' :: pad lvl) ++
          (renderMembers (.ocons k2 v2 t2) true lvl ++ (wsc ++ ('}' :: out))))
          = ',' :: ('\n' :: (pad lvl ++
            (renderMembers (.ocons k2 v2 t2) true lvl ++ (wsc ++ ('}' :: out))))) from rfl,
        dropJsonWs_not (by decide)]
      show parseJMembers f (objSet ([].reverse ++ k) v acc) ('\n' :: (pad lvl ++
          (renderMembers (.ocons k2 v2 t2) true lvl ++ (wsc ++ ('}' :: out)))))
          = some (oappend acc (.ocons k v (.ocons k2 v2 t2)), out)
      rw [show ([].reverse ++ k : Chars) = k from rfl,
        show ('\n' :: (pad lvl ++ (renderMembers (.ocons k2 v2 t2) true lvl ++
            (wsc ++ ('}' :: out)))))
          = ('\n' :: pad lvl) ++ (renderMembers (.ocons k2 v2 t2) true lvl ++
            (wsc ++ ('}' :: out))) from rfl,
        rt_members (.ocons k2 v2 t2) (objSet k v acc) true lvl f ('\n' :: pad lvl) wsc out
          hwft (by simp) (by omega) hdis2
          (by intro c hc
              rcases List.mem_cons.mp hc with rfl | hc
              · decide
              · exact pad_ws c hc)
          hwsc hdelim,
        hoapp]
    | false =>
      have hlens : (renderStr k).length + 1 + (renderJ v false lvl).length + 1 +
          (renderMembers (.ocons k2 v2 t2) false lvl).length
          ≤ (renderMembers (.ocons k v (.ocons k2 v2 t2)) false lvl).length := by
        rw [hmem]
        simp [List.length_append]
        omega
      rw [show ((if false then ':' :: ' ' :: [] else [':']) ++
          (renderJ v false lvl ++ ((if false then ',' :: '\n' :: pad lvl else [',']) ++
            (renderMembers (.ocons k2 v2 t2) false lvl ++ (wsc ++ ('}' :: out))))) : Chars)
          = ':' :: (renderJ v false lvl ++ ([','] ++
            (renderMembers (.ocons k2 v2 t2) false lvl ++ (wsc ++ ('}' :: out))))) from rfl,
        dropJsonWs_not (by decide)]
      show (match parseJVal f (renderJ v false lvl ++ ([','] ++
          (renderMembers (.ocons k2 v2 t2) false lvl ++ (wsc ++ ('}' :: out))))) with
        | none => none
        | some (vv, r3) =>
          match dropJsonWs r3 with
          | ',' :: r4 => parseJMembers f (objSet ([].reverse ++ k) vv acc) r4
          | '}' :: r4 => some (objSet ([].reverse ++ k) vv acc, r4)
          | _ => none) = some (oappend acc (.ocons k v (.ocons k2 v2 t2)), out)
      rw [rt_val v false lvl f _ hv (by omega) (by exact Or.inl rfl)]
      dsimp only
      rw [show ([','] ++ (renderMembers (.ocons k2 v2 t2) false lvl ++ (wsc ++ ('}' :: out))))
          = ',' :: (renderMembers (.ocons k2 v2 t2) false lvl ++ (wsc ++ ('}' :: out))) from rfl,
        dropJsonWs_not (by decide)]
      show parseJMembers f (objSet ([].reverse ++ k) v acc)
          (renderMembers (.ocons k2 v2 t2) false lvl ++ (wsc ++ ('}' :: out)))
          = some (oappend acc (.ocons k v (.ocons k2 v2 t2)), out)
      rw [show ([].reverse ++ k : Chars) = k from rfl,
        show (renderMembers (.ocons k2 v2 t2) false lvl ++ (wsc ++ ('}' :: out)))
          = ([] : Chars) ++ (renderMembers (.ocons k2 v2 t2) false lvl ++ (wsc ++ ('}' :: out)))
          from by simp,
        rt_members (.ocons k2 v2 t2) (objSet k v acc) false lvl f [] wsc out
          hwft (by simp) (by omega) hdis2 (by simp) hwsc hdelim,
        hoapp]

end

end ExamCore

namespace ExamCore

/-- `JSON.parse` inverts `JSON.stringify` on well-formed values. -/
theorem parseJson_render (v : JVal) (ind : Bool) (hwf : wfJ v = true) :
    parseJson (renderJ v ind 0) = some v := by
  have h := rt_val v ind 0 ((renderJ v ind 0).length + 1) [] hwf (by omega) trivial
  rw [List.append_nil] at h
  rw [parseJson, h]
  rfl

theorem parseJson_stringify2 (v : JVal) (hwf : wfJ v = true) :
    parseJson (stringify2 v) = some v := parseJson_render v true hwf

theorem parseJson_stringifyC (v : JVal) (hwf : wfJ v = true) :
    parseJson (stringifyC v) = some v := parseJson_render v false hwf

/-- Compact stringification is injective on well-formed values. -/
theorem stringifyC_inj (a b : JVal) (ha : wfJ a = true) (hb : wfJ b = true)
    (h : stringifyC a = stringifyC b) : a = b := by
  have h1 := parseJson_stringifyC a ha
  have h2 := parseJson_stringifyC b hb
  rw [h, h2] at h1
  exact (Option.some_inj.mp h1).symm

theorem objGet_objSet_same (k : Chars) (v : JVal) :
    ∀ o : JObj, objGet k (objSet k v o) = some v
  | .onil => by simp [objSet, objGet]
  | .ocons k2 v2 t => by
    rw [objSet]
    by_cases hk : k2 = k
    · rw [if_pos hk, objGet, if_pos rfl]
    · rw [if_neg hk, objGet, if_neg hk, objGet_objSet_same k v t]

theorem jget_jset_same (o : JObj) (k : Chars) (v : JVal) :
    jget (jset (.jobj o) k v) k = some v := by
  rw [jset, jget]
  exact objGet_objSet_same k v o

theorem jget_jset_ne (x : JVal) (k k2 : Chars) (hne : k ≠ k2) (v : JVal) :
    jget (jset x k v) k2 = jget x k2 := by
  cases x with
  | jobj o => exact objGet_objSet_ne k k2 v hne o
  | jnull => rfl
  | jbool b => rfl
  | jnum q => rfl
  | jstr s => rfl
  | jarr a => rfl

theorem jhas_jset_ne (x : JVal) (k k2 : Chars) (hne : k ≠ k2) (v : JVal) :
    jhas (jset x k v) k2 = jhas x k2 := by
  rw [jhas, jhas, jget_jset_ne x k k2 hne v]

theorem objGet_wf (k : Chars) : ∀ (o : JObj), wfO o = true →
    ∀ v, objGet k o = some v → wfJ v = true
  | .onil, _, v, hv => by cases hv
  | .ocons k2 v2 t, ho, v, hv => by
    rw [wfO, Bool.and_eq_true, Bool.and_eq_true] at ho
    rw [objGet] at hv
    split at hv
    · injection hv with hv
      rw [← hv]
      exact ho.1.2
    · exact objGet_wf k t ho.2 v hv

theorem jget_wf (x : JVal) (hx : wfJ x = true) (k : Chars) (v : JVal)
    (h : jget x k = some v) : wfJ v = true := by
  cases x with
  | jobj o => exact objGet_wf k o hx v h
  | jnull => cases h
  | jbool b => cases h
  | jnum q => cases h
  | jstr s => cases h
  | jarr a => cases h

theorem jset_wf (x : JVal) (hx : wfJ x = true) (k : Chars) (v : JVal)
    (hv : wfJ v = true) : wfJ (jset x k v) = true := by
  cases x with
  | jobj o => exact objSet_wf k v hv o hx
  | jnull => exact hx
  | jbool b => exact hx
  | jnum q => exact hx
  | jstr s => exact hx
  | jarr a => exact hx

theorem wfA_ofList_jstr : ∀ ts : List Chars, wfA (JArr.ofList (ts.map .jstr)) = true
  | [] => rfl
  | t :: ts => by
    simp only [List.map_cons, JArr.ofList]
    rw [wfA, wfA_ofList_jstr ts]
    rfl

/-- Re-normalizing the normalized tag list returns it unchanged. -/
theorem normalizeTags_replay (t : Option JVal) :
    normalizeTags (some (.jarr (JArr.ofList ((normalizeTags t).map .jstr))))
      = normalizeTags t := by
  have hent := normalizeTags_entries t
  have hnd := normalizeTags_nodup t
  have hne := normalizeTags_ne_nil t
  rw [normalizeTags]
  rw [normTagsFold_replay (normalizeTags t) []
    (fun x hx => ⟨(hent x hx).1, (hent x hx).2.1⟩) (by simpa using hnd)]
  rw [List.nil_append, if_pos (by simpa [List.length_pos] using hne)]

theorem foldl_points_canon : ∀ (l : List JVal) (t : DecNum), canonB t = true →
    canonB (l.foldl (fun t p => match pointsOf p with | some q => t.add q | none => t) t) = true
  | [], t, ht => ht
  | p :: l, t, ht => by
    rw [List.foldl_cons]
    refine foldl_points_canon l _ ?_
    cases pointsOf p with
    | none => exact ht
    | some q => exact add_canon t q

theorem qTotal_canon (ms : List MatchInfo) : canonB (qTotal ms) = true :=
  foldl_points_canon _ _ rfl

end ExamCore

namespace ExamCore

/-! ### Occurrence characterization of `findPat` -/

theorem leadsWith_eq : ∀ (pat s : Chars), leadsWith pat s = true → ∃ t, s = pat ++ t
  | [], s, _ => ⟨s, rfl⟩
  | _ :: _, [], h => Bool.noConfusion h
  | p :: ps, c :: cs, h => by
    have h' : (p == c && leadsWith ps cs) = true := h
    rw [Bool.and_eq_true, beq_iff_eq] at h'
    obtain ⟨t, ht⟩ := leadsWith_eq ps cs h'.2
    exact ⟨t, by rw [List.cons_append, ← h'.1, ← ht]⟩

theorem leadsWith_append_indep : ∀ (pat b : Chars), pat.length ≤ b.length → ∀ x : Chars,
    leadsWith pat (b ++ x) = leadsWith pat b
  | [], _, _, _ => rfl
  | p :: ps, [], h, x => by simp at h
  | p :: ps, c :: cs, h, x => by
    show (p == c && leadsWith ps (cs ++ x)) = (p == c && leadsWith ps cs)
    rw [leadsWith_append_indep ps cs (by simpa using h) x]

theorem findPat_some_spec : ∀ (pat s : Chars) (k : Nat), findPat pat s = some k →
    leadsWith pat (s.drop k) = true ∧ ∀ q < k, leadsWith pat (s.drop q) = false
  | pat, [], k, h => by
    rw [findPat] at h
    split at h
    · rename_i hlw
      injection h with h
      subst h
      exact ⟨hlw, fun q hq => absurd hq (by omega)⟩
    · cases h
  | pat, c :: cs, k, h => by
    rw [findPat] at h
    split at h
    · rename_i hlw
      injection h with h
      subst h
      exact ⟨hlw, fun q hq => absurd hq (by omega)⟩
    · rename_i hlw
      cases hrec : findPat pat cs with
      | none => rw [hrec] at h; cases h
      | some j =>
        rw [hrec] at h
        simp only [Option.map_some'] at h
        injection h with h
        subst h
        obtain ⟨h1, h2⟩ := findPat_some_spec pat cs j hrec
        refine ⟨h1, fun q hq => ?_⟩
        match q with
        | 0 => exact Bool.eq_false_iff.mpr hlw
        | q' + 1 => exact h2 q' (by omega)

theorem findPat_eq_some : ∀ (pat s : Chars) (k : Nat),
    leadsWith pat (s.drop k) = true → (∀ q < k, leadsWith pat (s.drop q) = false) →
    findPat pat s = some k
  | pat, [], k, h, hq => by
    match k with
    | 0 =>
      rw [List.drop_zero] at h
      rw [findPat, if_pos h]
    | k' + 1 =>
      have h0 := hq 0 (by omega)
      rw [List.drop_nil] at h
      rw [List.drop_zero] at h0
      rw [h0] at h
      cases h
  | pat, c :: cs, k, h, hq => by
    match k with
    | 0 =>
      rw [List.drop_zero] at h
      rw [findPat, if_pos h]
    | k' + 1 =>
      have h0 := hq 0 (by omega)
      rw [List.drop_zero] at h0
      rw [findPat, if_neg (by rw [h0]; exact Bool.false_ne_true),
        findPat_eq_some pat cs k' h (fun q hqk => hq (q + 1) (by omega))]
      rfl

theorem findPat_transfer (pat a b c : Chars) (k : Nat)
    (h : findPat pat (a ++ b) = some k) (hk : k + pat.length ≤ a.length) :
    findPat pat (a ++ c) = some k := by
  obtain ⟨h1, h2⟩ := findPat_some_spec pat (a ++ b) k h
  have hdb : ∀ (x : Chars) (q : Nat), q ≤ a.length → (a ++ x).drop q = a.drop q ++ x :=
    fun x q hql => List.drop_append_of_le_length hql
  refine findPat_eq_some pat (a ++ c) k ?_ ?_
  · rw [hdb b k (by omega)] at h1
    rw [hdb c k (by omega),
      leadsWith_append_indep pat (a.drop k) (by rw [List.length_drop]; omega) c]
    rw [leadsWith_append_indep pat (a.drop k) (by rw [List.length_drop]; omega) b] at h1
    exact h1
  · intro q hq
    have hql : q + pat.length ≤ a.length := by omega
    have h2q := h2 q hq
    rw [hdb b q (by omega),
      leadsWith_append_indep pat (a.drop q) (by rw [List.length_drop]; omega) b] at h2q
    rw [hdb c q (by omega),
      leadsWith_append_indep pat (a.drop q) (by rw [List.length_drop]; omega) c]
    exact h2q

/-! ### Fence-free strings -/

/-- No `'\n'` immediately followed by a backtick: such a string cannot
contain the closing-fence pattern, nor contribute to one at its end. -/
def FenceFree (s : Chars) : Prop :=
  List.Chain' (fun a b => ¬ (a = '\n' ∧ b = '`')) s

theorem fenceFree_of_noNl : ∀ {s : Chars}, (∀ c ∈ s, ¬ c = '\n') → FenceFree s
  | [], _ => List.chain'_nil
  | [c], _ => List.chain'_singleton c
  | a :: b :: t, h =>
    List.chain'_cons.mpr ⟨fun hp => h a (by simp) hp.1,
      fenceFree_of_noNl (fun c hc => h c (List.mem_cons_of_mem a hc))⟩

theorem fenceFree_append {a b : Chars} (ha : FenceFree a) (hb : FenceFree b)
    (h : ∀ y ∈ b.head?, ¬ y = '`') : FenceFree (a ++ b) :=
  List.Chain'.append ha hb (fun _ _ y hy hp => h y hy hp.2)

theorem fenceFree_cons_head {c : Char} {s : Chars} (h : ∀ y ∈ s.head?, ¬ y = '`')
    (hs : FenceFree s) : FenceFree (c :: s) :=
  List.chain'_cons'.mpr ⟨fun y hy hp => h y hy hp.2, hs⟩

theorem fenceFree_cons_ne {c : Char} {s : Chars} (h : ¬ c = '\n')
    (hs : FenceFree s) : FenceFree (c :: s) :=
  List.chain'_cons'.mpr ⟨fun _ _ hp => h hp.1, hs⟩

theorem fenceFree_drop : ∀ (q : Nat) {b : Chars}, FenceFree b → FenceFree (b.drop q)
  | 0, b, h => h
  | q + 1, [], _ => List.chain'_nil
  | q + 1, c :: t, h => by
    rw [List.drop_succ_cons]
    exact fenceFree_drop q (List.Chain'.tail h)

theorem findPat_close_at (b X : Chars) (hb : FenceFree b) :
    findPat fenceClose (b ++ (fenceClose ++ X)) = some b.length := by
  refine findPat_eq_some _ _ _ ?_ ?_
  · rw [List.drop_left]
    exact leadsWith_append_self fenceClose X
  · intro q hq
    by_contra hc
    have hlw : leadsWith fenceClose ((b ++ (fenceClose ++ X)).drop q) = true :=
      Bool.not_eq_false _ |>.mp hc
    rw [List.drop_append_of_le_length (by omega)] at hlw
    obtain ⟨t, ht⟩ := leadsWith_eq _ _ hlw
    have hff : FenceFree (b.drop q) := fenceFree_drop q hb
    have hlen : 1 ≤ (b.drop q).length := by
      rw [List.length_drop]
      omega
    match hbq : b.drop q with
    | [] => rw [hbq] at hlen; simp at hlen
    | [c0] =>
      rw [hbq] at ht
      rw [show ([c0] ++ (fenceClose ++ X)) = c0 :: ('\n' :: ('`' :: ('`' :: ('`' :: X))))
        from rfl] at ht
      rw [show (fenceClose ++ t : Chars) = '\n' :: ('`' :: ('`' :: ('`' :: t))) from rfl] at ht
      injection ht with e1 ht
      injection ht with e2 ht
      exact absurd e2 (by decide)
    | c0 :: c1 :: r =>
      rw [hbq] at ht hff
      rw [show (fenceClose ++ t : Chars) = '\n' :: ('`' :: ('`' :: ('`' :: t))) from rfl] at ht
      rw [List.cons_append, List.cons_append] at ht
      injection ht with e1 ht
      injection ht with e2 ht
      exact (List.chain'_cons.mp hff).1 ⟨e1, e2⟩

end ExamCore

namespace ExamCore

theorem hexDigitCh_ne_nl (n : Nat) (hn : n < 16) : ¬ hexDigitCh n = '\n' := by
  rw [hexDigitCh]
  split
  · intro he
    have h2 := char_toNat_ofNat_lt (48 + n) (by omega)
    rw [he] at h2
    have h3 : ('\n' : Char).toNat = 10 := rfl
    omega
  · intro he
    have h2 := char_toNat_ofNat_lt (87 + n) (by omega)
    rw [he] at h2
    have h3 : ('\n' : Char).toNat = 10 := rfl
    omega

theorem escCh_noNl (c : Char) : ∀ x ∈ escCh c, ¬ x = '\n' := by
  intro x hx
  rw [escCh] at hx
  split at hx
  · rename_i hc
    rw [Bool.or_eq_true, beq_iff_eq, beq_iff_eq] at hc
    rcases List.mem_cons.mp hx with rfl | hx
    · decide
    · rcases List.mem_singleton.mp hx with rfl
      rcases hc with rfl | rfl <;> decide
  · split at hx
    · rename_i h32
      rcases List.mem_singleton.mp hx with rfl
      intro he
      rw [he] at h32
      exact absurd h32 (by decide)
    · split at hx
      · rcases List.mem_cons.mp hx with rfl | hx
        · decide
        · rcases List.mem_singleton.mp hx with rfl; decide
      · split at hx
        · rcases List.mem_cons.mp hx with rfl | hx
          · decide
          · rcases List.mem_singleton.mp hx with rfl; decide
        · split at hx
          · rcases List.mem_cons.mp hx with rfl | hx
            · decide
            · rcases List.mem_singleton.mp hx with rfl; decide
          · split at hx
            · rcases List.mem_cons.mp hx with rfl | hx
              · decide
              · rcases List.mem_singleton.mp hx with rfl; decide
            · split at hx
              · rcases List.mem_cons.mp hx with rfl | hx
                · decide
                · rcases List.mem_singleton.mp hx with rfl; decide
              · rcases List.mem_cons.mp hx with rfl | hx
                · decide
                · rcases List.mem_cons.mp hx with rfl | hx
                  · decide
                  · rcases List.mem_cons.mp hx with rfl | hx
                    · decide
                    · rcases List.mem_cons.mp hx with rfl | hx
                      · decide
                      · rcases List.mem_cons.mp hx with rfl | hx
                        · exact hexDigitCh_ne_nl _ (by omega)
                        · rcases List.mem_singleton.mp hx with rfl
                          exact hexDigitCh_ne_nl _ (Nat.mod_lt _ (by omega))

theorem renderStr_noNl (k : Chars) : ∀ x ∈ renderStr k, ¬ x = '\n' := by
  intro x hx
  rw [renderStr] at hx
  rcases List.mem_cons.mp hx with rfl | hx
  · decide
  · rcases List.mem_append.mp hx with hx | hx
    · obtain ⟨a, _, hax⟩ := List.mem_flatMap.mp hx
      exact escCh_noNl a x hax
    · rcases List.mem_singleton.mp hx with rfl
      decide

theorem digit_noNl {c : Char} (h : isDigitCh c = true) : ¬ c = '\n' := by
  intro he
  rw [he] at h
  exact absurd h (by decide)

theorem natChars_noNl (n : Nat) : ∀ x ∈ natChars n, ¬ x = '\n' :=
  fun x hx => digit_noNl (natCharsF_digits (n + 1) n (by omega) x hx)

theorem numChars_noNl (q : DecNum) : ∀ x ∈ numChars q, ¬ x = '\n' := by
  intro x hx
  have hsign : ∀ i : Int, x ∈ (if i < 0 then ['-'] else ([] : Chars)) → ¬ x = '\n' := by
    intro i hx
    split at hx
    · rcases List.mem_singleton.mp hx with rfl; decide
    · cases hx
  rw [numChars] at hx
  split at hx
  · rw [intChars] at hx
    rcases List.mem_append.mp hx with hx | hx
    · exact hsign _ hx
    · exact natChars_noNl _ x hx
  · rcases List.mem_append.mp hx with hx | hx
    · rcases List.mem_append.mp hx with hx | hx
      · exact hsign _ hx
      · exact natChars_noNl _ x hx
    · rcases List.mem_cons.mp hx with rfl | hx
      · decide
      · rcases List.mem_append.mp hx with hx | hx
        · rcases List.mem_replicate.mp hx with ⟨_, rfl⟩; decide
        · exact natChars_noNl _ x hx

theorem pad_noNl (n : Nat) : ∀ x ∈ pad n, ¬ x = '\n' := by
  intro x hx
  rcases List.mem_replicate.mp hx with ⟨_, rfl⟩
  decide

theorem pad_head_no_tick (n : Nat) (rest : Chars) (h : ∀ y ∈ rest.head?, ¬ y = '`') :
    ∀ y ∈ (pad n ++ rest).head?, ¬ y = '`' := by
  match n with
  | 0 => exact h
  | n + 1 =>
    intro y hy
    have : pad (n + 1) ++ rest = ' ' :: (List.replicate (2 * n + 1) ' ' ++ rest) := by
      rw [pad, show 2 * (n + 1) = 2 * n + 1 + 1 from by omega, List.replicate_succ]
      rfl
    rw [this] at hy
    rcases Option.mem_some_iff.mp hy with rfl
    decide

theorem head_no_tick_of_cons {s : Chars} {c : Char} {cs : Chars} (hs : s = c :: cs)
    (hc : ¬ c = '`') : ∀ y ∈ s.head?, ¬ y = '`' := by
  intro y hy
  rw [hs] at hy
  rcases Option.mem_some_iff.mp hy with rfl
  exact hc

theorem pad_head_only (n : Nat) : ∀ y ∈ (pad n).head?, ¬ y = '`' := by
  match n with
  | 0 => intro y hy; cases hy
  | n + 1 =>
    intro y hy
    have : pad (n + 1) = ' ' :: List.replicate (2 * n + 1) ' ' := by
      rw [pad, show 2 * (n + 1) = 2 * n + 1 + 1 from by omega, List.replicate_succ]
    rw [this] at hy
    rcases Option.mem_some_iff.mp hy with rfl
    decide

theorem head_no_tick_append {s : Chars} {c : Char} {cs : Chars} (hs : s = c :: cs)
    (hc : ¬ c = '`') (X : Chars) : ∀ y ∈ (s ++ X).head?, ¬ y = '`' := by
  intro y hy
  rw [hs, List.cons_append] at hy
  rcases Option.mem_some_iff.mp hy with rfl
  exact hc

theorem fenceFree_sep (lvl : Nat) : FenceFree (',' :: ('\n' :: pad lvl)) :=
  fenceFree_cons_ne (by decide)
    (fenceFree_cons_head (pad_head_only lvl) (fenceFree_of_noNl (pad_noNl lvl)))

mutual

theorem fenceFree_renderJ : ∀ (v : JVal) (ind : Bool) (lvl : Nat),
    FenceFree (renderJ v ind lvl)
  | .jnull, _, _ => by
    show FenceFree ("null".toList)
    exact fenceFree_of_noNl (by decide)
  | .jbool true, _, _ => by
    show FenceFree ("true".toList)
    exact fenceFree_of_noNl (by decide)
  | .jbool false, _, _ => by
    show FenceFree ("false".toList)
    exact fenceFree_of_noNl (by decide)
  | .jnum q, _, _ => fenceFree_of_noNl (numChars_noNl q)
  | .jstr s, _, _ => fenceFree_of_noNl (renderStr_noNl s)
  | .jarr .anil, _, _ => by
    show FenceFree ['[', ']']
    exact fenceFree_of_noNl (by decide)
  | .jarr (.acons x xs), ind, lvl => by
    have hitems := fenceFree_renderItems (.acons x xs) ind (lvl + 1)
    obtain ⟨c, cs, hhd, _, _, _, _, htick⟩ := renderItems_head x xs ind (lvl + 1)
    cases ind with
    | true =>
      rw [renderJ, if_pos rfl]
      refine fenceFree_cons_ne (by decide) (fenceFree_cons_head ?_ ?_)
      · rw [List.append_assoc]
        exact pad_head_no_tick (lvl + 1) _ (head_no_tick_append hhd htick _)
      · refine fenceFree_append (fenceFree_append
          (fenceFree_of_noNl (pad_noNl (lvl + 1))) hitems
          (head_no_tick_of_cons hhd htick)) ?_ ?_
        case refine_2 =>
          intro y hy
          rcases Option.mem_some_iff.mp hy with rfl
          decide
        refine fenceFree_cons_head (pad_head_no_tick lvl [']'] (by decide)) ?_
        exact fenceFree_of_noNl (by
          intro z hz
          rcases List.mem_append.mp hz with hz | hz
          · exact pad_noNl lvl z hz
          · rcases List.mem_singleton.mp hz with rfl; decide)
    | false =>
      rw [renderJ, if_neg (by simp)]
      refine fenceFree_cons_ne (by decide)
        (fenceFree_append hitems (fenceFree_of_noNl (s := [']']) (by decide)) ?_)
      intro y hy
      rcases Option.mem_some_iff.mp hy with rfl
      decide
  | .jobj .onil, _, _ => by
    show FenceFree ['\x7b', '\x7d']
    exact fenceFree_of_noNl (by decide)
  | .jobj (.ocons k v kvs), ind, lvl => by
    have hmem := fenceFree_renderMembers (.ocons k v kvs) ind (lvl + 1)
    obtain ⟨cs, hhd⟩ := renderMembers_head k v kvs ind (lvl + 1)
    cases ind with
    | true =>
      rw [renderJ, if_pos rfl]
      refine fenceFree_cons_ne (by decide) (fenceFree_cons_head ?_ ?_)
      · rw [List.append_assoc]
        exact pad_head_no_tick (lvl + 1) _ (head_no_tick_append hhd (by decide) _)
      · refine fenceFree_append (fenceFree_append
          (fenceFree_of_noNl (pad_noNl (lvl + 1))) hmem
          (head_no_tick_of_cons hhd (by decide))) ?_ ?_
        case refine_2 =>
          intro y hy
          rcases Option.mem_some_iff.mp hy with rfl
          decide
        refine fenceFree_cons_head (pad_head_no_tick lvl ['}'] (by decide)) ?_
        exact fenceFree_of_noNl (by
          intro z hz
          rcases List.mem_append.mp hz with hz | hz
          · exact pad_noNl lvl z hz
          · rcases List.mem_singleton.mp hz with rfl; decide)
    | false =>
      rw [renderJ, if_neg (by simp)]
      refine fenceFree_cons_ne (by decide)
        (fenceFree_append hmem (fenceFree_of_noNl (s := ['\x7d']) (by decide)) ?_)
      intro y hy
      rcases Option.mem_some_iff.mp hy with rfl
      decide

theorem fenceFree_renderItems : ∀ (a : JArr) (ind : Bool) (lvl : Nat),
    FenceFree (renderItems a ind lvl)
  | .anil, _, _ => List.chain'_nil
  | .acons x .anil, ind, lvl => by
    rw [renderItems]
    exact fenceFree_renderJ x ind lvl
  | .acons x (.acons y ys), ind, lvl => by
    rw [renderItems]
    have hx := fenceFree_renderJ x ind lvl
    have hrec := fenceFree_renderItems (.acons y ys) ind lvl
    obtain ⟨c, cs, hhd, _, _, _, _, htick⟩ := renderItems_head y ys ind lvl
    cases ind with
    | true =>
      refine fenceFree_append (fenceFree_append hx (fenceFree_sep lvl) ?_) hrec
        (head_no_tick_of_cons hhd htick)
      show ∀ y ∈ (',' :: ('\n' :: pad lvl) : Chars).head?, ¬ y = '`'
      intro y hy
      rcases Option.mem_some_iff.mp hy with rfl
      decide
    | false =>
      refine fenceFree_append
        (fenceFree_append hx (fenceFree_of_noNl (s := [',']) (by decide)) ?_) hrec
        (head_no_tick_of_cons hhd htick)
      show ∀ y ∈ ([','] : Chars).head?, ¬ y = '`'
      intro y hy
      rcases Option.mem_some_iff.mp hy with rfl
      decide

theorem fenceFree_renderMembers : ∀ (o : JObj) (ind : Bool) (lvl : Nat),
    FenceFree (renderMembers o ind lvl)
  | .onil, _, _ => List.chain'_nil
  | .ocons k v .onil, ind, lvl => by
    rw [renderMembers]
    have hv := fenceFree_renderJ v ind lvl
    obtain ⟨c, cs, hhd, _, _, _, _, htick⟩ := renderJ_head v ind lvl
    refine fenceFree_append ?_ hv (head_no_tick_of_cons hhd htick)
    refine fenceFree_of_noNl ?_
    intro z hz
    rcases List.mem_append.mp hz with hz | hz
    · exact renderStr_noNl k z hz
    · cases ind with
      | true =>
        rw [if_pos rfl] at hz
        rcases List.mem_cons.mp hz with rfl | hz
        · decide
        · rcases List.mem_singleton.mp hz with rfl; decide
      | false =>
        rw [if_neg (by decide)] at hz
        rcases List.mem_singleton.mp hz with rfl; decide
  | .ocons k v (.ocons k2 v2 t2), ind, lvl => by
    rw [renderMembers]
    have hv := fenceFree_renderJ v ind lvl
    have hrec := fenceFree_renderMembers (.ocons k2 v2 t2) ind lvl
    obtain ⟨c, cs, hhd, _, _, _, _, htick⟩ := renderJ_head v ind lvl
    obtain ⟨cs2, hhd2⟩ := renderMembers_head k2 v2 t2 ind lvl
    refine fenceFree_append (fenceFree_append (fenceFree_append ?_ hv
      (head_no_tick_of_cons hhd htick)) ?_ ?_) hrec
      (head_no_tick_of_cons hhd2 (by decide))
    · refine fenceFree_of_noNl ?_
      intro z hz
      rcases List.mem_append.mp hz with hz | hz
      · exact renderStr_noNl k z hz
      · cases ind with
        | true =>
          rw [if_pos rfl] at hz
          rcases List.mem_cons.mp hz with rfl | hz
          · decide
          · rcases List.mem_singleton.mp hz with rfl; decide
        | false =>
          rw [if_neg (by decide)] at hz
          rcases List.mem_singleton.mp hz with rfl; decide
    · cases ind with
      | true => exact fenceFree_sep lvl
      | false => exact fenceFree_of_noNl (s := [',']) (by decide)
    · cases ind with
      | true =>
        show ∀ y ∈ (',' :: ('\n' :: pad lvl) : Chars).head?, ¬ y = '`'
        intro y hy
        rcases Option.mem_some_iff.mp hy with rfl
        decide
      | false =>
        show ∀ y ∈ ([','] : Chars).head?, ¬ y = '`'
        intro y hy
        rcases Option.mem_some_iff.mp hy with rfl
        decide

end

end ExamCore

namespace ExamCore

/-- The body a rewrite pair carries: the replacement's inner text, or the
match's original inner text. -/
def bodyOf : MatchInfo × Option Chars → Chars
  | (m, none) => m.inner
  | (_, some t) => (t.drop 8).take (t.length - 12)

/-- Replacement texts are complete fenced blocks with fence-free bodies. -/
def GoodPair : MatchInfo × Option Chars → Prop
  | (_, none) => True
  | (_, some t) => ∃ b, t = fenceOpen ++ (b ++ fenceClose) ∧ FenceFree b

/-- The matches the scan finds on the rebuilt document: same gaps, the
replaced bodies. -/
def outMatches : Nat → Nat → List (MatchInfo × Option Chars) → List MatchInfo
  | _, _, [] => []
  | pos, pos2, (m, r) :: rest =>
    { start := pos2 + (m.start - pos)
      full := fenceOpen ++ (bodyOf (m, r) ++ fenceClose)
      inner := bodyOf (m, r) } ::
      outMatches (m.start + m.full.length)
        (pos2 + (m.start - pos) + ((bodyOf (m, r)).length + 12)) rest

theorem bodyOf_some (m : MatchInfo) (t b : Chars) (h : t = fenceOpen ++ (b ++ fenceClose)) :
    bodyOf (m, some t) = b := by
  subst h
  show ((fenceOpen ++ (b ++ fenceClose)).drop 8).take
      ((fenceOpen ++ (b ++ fenceClose)).length - 12) = b
  rw [List.drop_left' (show (fenceOpen : Chars).length = 8 from rfl),
    List.length_append, List.length_append,
    show (fenceOpen : Chars).length + (b.length + (fenceClose : Chars).length) - 12
      = b.length from by
        have h1 : (fenceOpen : Chars).length = 8 := rfl
        have h2 : (fenceClose : Chars).length = 4 := rfl
        omega]
  exact List.take_left b fenceClose

theorem scanAux_stable :
    ∀ (pairs : List (MatchInfo × Option Chars)) (fuel : Nat) (doc : Chars) (base : Nat)
      (fuel2 base2 : Nat),
      (doc.drop base).length < fuel →
      scanAux fuel (doc.drop base) base = pairs.map Prod.fst →
      (∀ p ∈ pairs, GoodPair p) →
      (rebuild doc base pairs).length < fuel2 →
      scanAux fuel2 (rebuild doc base pairs) base2 = outMatches base base2 pairs
  | [], fuel, doc, base, fuel2, base2, hf, hscan, _, hf2 => by
    obtain ⟨f, rfl⟩ : ∃ f, fuel = f + 1 := ⟨fuel - 1, by omega⟩
    obtain ⟨f2, rfl⟩ : ∃ f2, fuel2 = f2 + 1 := ⟨fuel2 - 1, by omega⟩
    rw [scanAux] at hscan
    rw [show rebuild doc base [] = doc.drop base from rfl, outMatches, scanAux]
    cases ho : findPat fenceOpen (doc.drop base) with
    | none => rfl
    | some i =>
      rw [ho] at hscan
      dsimp only at hscan ⊢
      cases hc : findPat fenceClose ((doc.drop base).drop (i + 8)) with
      | none => rfl
      | some j =>
        rw [hc] at hscan
        cases hscan
  | (m, r) :: rest, fuel, doc, base, fuel2, base2, hf, hscan, hg, hf2 => by
    obtain ⟨f, rfl⟩ : ∃ f, fuel = f + 1 := ⟨fuel - 1, by omega⟩
    rw [scanAux] at hscan
    cases ho : findPat fenceOpen (doc.drop base) with
    | none =>
      rw [ho] at hscan
      cases hscan
    | some i =>
      rw [ho] at hscan
      dsimp only at hscan
      cases hc : findPat fenceClose ((doc.drop base).drop (i + 8)) with
      | none =>
        rw [hc] at hscan
        cases hscan
      | some j =>
        rw [hc] at hscan
        dsimp only [List.map_cons] at hscan
        injection hscan with hm hrest
        have hstart : m.start = base + i := by rw [← hm]
        have hfull0 : m.full = ((doc.drop base).drop i).take (8 + j + 4) := by rw [← hm]
        have hinner0 : m.inner = ((doc.drop base).drop (i + 8)).take j := by rw [← hm]
        have hio := findPat_le ho
        have hjc := findPat_le hc
        have hfo8 : (fenceOpen : Chars).length = 8 := rfl
        have hfc4 : (fenceClose : Chars).length = 4 := rfl
        rw [hfo8] at hio
        rw [hfc4, List.length_drop] at hjc
        have hslen : (doc.drop base).length = doc.length - base := by
          rw [List.length_drop]
        rw [hslen] at hio hjc hf
        obtain ⟨hlwo, _⟩ := findPat_some_spec _ _ _ ho
        obtain ⟨t1, ht1⟩ := leadsWith_eq _ _ hlwo
        obtain ⟨hlwc, _⟩ := findPat_some_spec _ _ _ hc
        obtain ⟨t2, ht2⟩ := leadsWith_eq _ _ hlwc
        have hdec : (doc.drop base).drop (i + 8)
            = ((doc.drop base).drop (i + 8)).take j ++ (fenceClose ++ t2) := by
          conv_lhs => rw [← List.take_append_drop j ((doc.drop base).drop (i + 8))]
          rw [ht2]
        have hinlen : (((doc.drop base).drop (i + 8)).take j).length = j := by
          rw [List.length_take, List.length_drop]
          omega
        have ht1eq : t1 = (doc.drop base).drop (i + 8) := by
          have h8 : ((doc.drop base).drop i).drop 8 = t1 := by
            rw [ht1, List.drop_left' hfo8]
          rw [← h8, List.drop_drop]
        have htl : List.take (8 + j + 4)
            (((fenceOpen ++ ((doc.drop base).drop (i + 8)).take j) ++ fenceClose) ++ t2)
            = (fenceOpen ++ ((doc.drop base).drop (i + 8)).take j) ++ fenceClose := by
          refine List.take_left' ?_
          rw [List.length_append, List.length_append, hfo8, hfc4, hinlen]
        have hfull : m.full
            = fenceOpen ++ (((doc.drop base).drop (i + 8)).take j ++ fenceClose) := by
          rw [hfull0, ht1, ht1eq]
          conv_lhs => rw [hdec]
          rw [← List.append_assoc, ← List.append_assoc, htl, List.append_assoc]
        have hfulllen : m.full.length = 8 + j + 4 := by
          rw [hfull, List.length_append, List.length_append, hfo8, hfc4, hinlen]
          omega
        have hrepl : r.getD m.full = fenceOpen ++ (bodyOf (m, r) ++ fenceClose) := by
          cases r with
          | none =>
            rw [show bodyOf (m, none) = m.inner from rfl, hinner0]
            rw [Option.getD_none, hfull]
          | some t =>
            obtain ⟨b, htb, hfb⟩ := hg (m, some t) (List.mem_cons_self _ _)
            rw [Option.getD_some, bodyOf_some m t b htb, htb]
        set nb := bodyOf (m, r) with hnb
        set s2rest := rebuild doc (base + i + 8 + j + 4) rest with hs2rest
        have hreb : rebuild doc base ((m, r) :: rest)
            = ((doc.drop base).take i ++ fenceOpen) ++ ((nb ++ fenceClose) ++ s2rest) := by
          rw [rebuild, hstart, Nat.add_sub_cancel_left, hrepl, hs2rest,
            show base + i + m.full.length = base + i + 8 + j + 4 from by rw [hfulllen]; omega]
          simp only [List.append_assoc]
        have hgap : ((doc.drop base).take i).length = i := by
          rw [List.length_take]
          omega
        have hopen2 : findPat fenceOpen (rebuild doc base ((m, r) :: rest)) = some i := by
          rw [hreb]
          refine findPat_transfer fenceOpen ((doc.drop base).take i ++ fenceOpen) t1 _ i ?_ ?_
          · rw [List.append_assoc, ← ht1, List.take_append_drop]
            exact ho
          · rw [List.length_append, hgap, hfo8]
        have hdrop8 : (rebuild doc base ((m, r) :: rest)).drop (i + 8)
            = nb ++ (fenceClose ++ s2rest) := by
          rw [hreb, List.drop_left' (by rw [List.length_append, hgap, hfo8]),
            List.append_assoc]
        have hclose2 : findPat fenceClose (nb ++ (fenceClose ++ s2rest)) = some nb.length := by
          cases hr : r with
          | some t =>
            obtain ⟨b, htb, hfb⟩ := hg (m, some t) (by rw [hr]; exact List.mem_cons_self _ _)
            have : nb = b := by rw [hnb, hr, bodyOf_some m t b htb]
            rw [this]
            exact findPat_close_at b s2rest hfb
          | none =>
            have hnbi : nb = ((doc.drop base).drop (i + 8)).take j := by
              rw [hnb, hr, show bodyOf (m, none) = m.inner from rfl, hinner0]
            have htr := findPat_transfer fenceClose
              (((doc.drop base).drop (i + 8)).take j ++ fenceClose) t2 s2rest j
              (by rw [List.append_assoc, ← hdec]; exact hc)
              (by rw [List.length_append, hfc4, hinlen])
            rw [hnbi, hinlen, ← List.append_assoc]
            exact htr
        obtain ⟨f2, rfl⟩ : ∃ f2, fuel2 = f2 + 1 := ⟨fuel2 - 1, by omega⟩
        rw [scanAux, hopen2]
        dsimp only
        rw [hdrop8, hclose2]
        dsimp only
        have hreblen : (rebuild doc base ((m, r) :: rest)).length
            = i + 8 + (nb.length + (4 + s2rest.length)) := by
          rw [hreb, List.length_append, List.length_append, List.length_append,
            List.length_append, hgap, hfo8, hfc4]
          omega
        have hdropi : (rebuild doc base ((m, r) :: rest)).drop i
            = fenceOpen ++ ((nb ++ fenceClose) ++ s2rest) := by
          rw [hreb, List.append_assoc, List.drop_left' hgap]
        have htail : (nb ++ (fenceClose ++ s2rest)).drop (nb.length + 4) = s2rest := by
          rw [← List.append_assoc]
          exact List.drop_left' (by rw [List.length_append, hfc4])
        have hfull2 : ((rebuild doc base ((m, r) :: rest)).drop i).take (8 + nb.length + 4)
            = fenceOpen ++ (nb ++ fenceClose) := by
          rw [hdropi, ← List.append_assoc]
          refine List.take_left' ?_
          rw [List.length_append, List.length_append, hfo8, hfc4]
          omega
        have hinner2 : (nb ++ (fenceClose ++ s2rest)).take nb.length = nb :=
          List.take_left nb (fenceClose ++ s2rest)
        rw [hfull2, hinner2, htail]
        have hrest2 : scanAux f ((doc.drop base).drop (i + 8 + (j + 4))) (base + i + 8 + j + 4)
            = rest.map Prod.fst := by
          have he : ((doc.drop base).drop (i + 8)).drop (j + 4)
              = (doc.drop base).drop (i + 8 + (j + 4)) := by
            rw [List.drop_drop]
          rw [← he]
          exact hrest
        have hdd : (doc.drop base).drop (i + 8 + (j + 4)) = doc.drop (base + i + 8 + j + 4) := by
          rw [List.drop_drop]
          congr 1
          omega
        have hlen1 : (doc.drop (base + i + 8 + j + 4)).length < f := by
          rw [List.length_drop]
          omega
        have hlen2 : (rebuild doc (base + i + 8 + j + 4) rest).length < f2 := by
          rw [← hs2rest]
          omega
        have hIH := scanAux_stable rest f doc (base + i + 8 + j + 4) f2
          (base2 + i + 8 + nb.length + 4) hlen1
          (by rw [← hdd]; exact hrest2)
          (fun p hp => hg p (List.mem_cons_of_mem _ hp)) hlen2
        rw [← hs2rest] at hIH
        rw [hIH, outMatches, hstart, Nat.add_sub_cancel_left, ← hnb, hfulllen,
          show base + i + (8 + j + 4) = base + i + 8 + j + 4 from by omega,
          show base2 + i + (nb.length + 12) = base2 + i + 8 + nb.length + 4 from by omega]

theorem docMatches_rebuild (doc : Chars) (pairs : List (MatchInfo × Option Chars))
    (hscan : docMatches doc = pairs.map Prod.fst)
    (hg : ∀ p ∈ pairs, GoodPair p) :
    docMatches (rebuild doc 0 pairs) = outMatches 0 0 pairs := by
  rw [docMatches]
  refine scanAux_stable pairs (doc.length + 1) doc 0 _ 0 ?_ ?_ hg (by omega)
  · rw [List.drop_zero]
    omega
  · rw [List.drop_zero]
    exact hscan

end ExamCore

namespace ExamCore

theorem fenceWrap_eq (b : Chars) : fenceWrap b = fenceOpen ++ (b ++ fenceClose) := by
  rw [fenceWrap, List.append_assoc]

/-- Normalized tags of a parsed block. -/
def ntagsOf (p : JVal) : List Chars := normalizeTags (jget p tagsKey)

/-- The normalized tags as a JSON array value. -/
def ntagsArrOf (p : JVal) : JVal := .jarr (JArr.ofList ((ntagsOf p).map .jstr))

/-- The value a Question Block carries after tag normalization. -/
def qOutVal (p : JVal) : JVal := jset p tagsKey (ntagsArrOf p)

/-- A tags list in fully normalized form: a nonempty duplicate-free array
of nonempty strings over `[a-z0-9-]`. -/
def GoodTags (p : JVal) : Prop :=
  ∃ ts : List Chars, jget p tagsKey = some (.jarr (JArr.ofList (ts.map .jstr))) ∧
    ts ≠ [] ∧ ts.Nodup ∧ ∀ t ∈ ts, t ≠ [] ∧ ∀ c ∈ t, tagCh c = true

theorem wfJ_ntagsArrOf (p : JVal) : wfJ (ntagsArrOf p) = true :=
  wfA_ofList_jstr _

theorem questionUpd_eq (m : MatchInfo) :
    questionUpd m = match parseJson m.inner with
      | none => none
      | some p =>
        if isQuestion p then
          if some (stringifyC (ntagsArrOf p)) ≠ (jget p tagsKey).map stringifyC then
            some { start := m.start, stop := m.start + m.full.length
                   text := fenceWrap (stringify2 (qOutVal p)) }
          else none
        else none := rfl

theorem questionUpd_none_parse (m : MatchInfo) (h : parseJson m.inner = none) :
    questionUpd m = none := by
  rw [questionUpd_eq, h]

theorem questionUpd_none_notq (m : MatchInfo) (p : JVal) (hp : parseJson m.inner = some p)
    (hq : isQuestion p = false) : questionUpd m = none := by
  rw [questionUpd_eq, hp]
  dsimp only
  rw [if_neg (by rw [hq]; exact Bool.false_ne_true)]

theorem jobj_of_jhas (p : JVal) (k : Chars) (h : jhas p k = true) : ∃ o, p = .jobj o := by
  cases p with
  | jobj o => exact ⟨o, rfl⟩
  | jnull => exact Bool.noConfusion h
  | jbool b => exact Bool.noConfusion h
  | jnum q => exact Bool.noConfusion h
  | jstr s => exact Bool.noConfusion h
  | jarr a => exact Bool.noConfusion h

theorem objSet_get_self (k : Chars) (v : JVal) :
    ∀ o : JObj, objGet k o = some v → objSet k v o = o
  | .onil, h => by cases h
  | .ocons k2 v2 t, h => by
    rw [objGet] at h
    rw [objSet]
    by_cases hk : k2 = k
    · rw [if_pos hk] at h
      injection h with h
      rw [if_pos hk, hk, h]
    · rw [if_neg hk] at h
      rw [if_neg hk, objSet_get_self k v t h]

theorem jset_get_self (p : JVal) (k : Chars) (v : JVal) (h : jget p k = some v) :
    jset p k v = p := by
  cases p with
  | jobj o =>
    rw [jset, objSet_get_self k v o h]
  | jnull => cases h
  | jbool b => cases h
  | jnum q => cases h
  | jstr s => cases h
  | jarr a => cases h

theorem tags_of_no_upd (m : MatchInfo) (p : JVal) (hw : wfJ p = true)
    (hp : parseJson m.inner = some p) (hq : isQuestion p = true)
    (hnone : questionUpd m = none) : jget p tagsKey = some (ntagsArrOf p) := by
  rw [questionUpd_eq, hp] at hnone
  dsimp only at hnone
  rw [if_pos hq] at hnone
  split at hnone
  · exact absurd hnone (by simp)
  · rename_i hch
    rw [not_not] at hch
    cases hg : jget p tagsKey with
    | none => rw [hg] at hch; exact absurd hch (by simp)
    | some tv =>
      rw [hg, Option.map_some'] at hch
      have htv : stringifyC (ntagsArrOf p) = stringifyC tv := Option.some_inj.mp hch
      have hwtv : wfJ tv = true := jget_wf p hw tagsKey tv hg
      have heq : ntagsArrOf p = tv :=
        stringifyC_inj (ntagsArrOf p) tv (wfJ_ntagsArrOf p) hwtv htv
      rw [← heq]

theorem isQuestion_qOutVal (p : JVal) : isQuestion (qOutVal p) = isQuestion p := by
  rw [isQuestion, isQuestion, qOutVal,
    jhas_jset_ne p tagsKey problemIdKey (by decide) (ntagsArrOf p)]

theorem pointsOf_qOutVal (p : JVal) : pointsOf (qOutVal p) = pointsOf p := by
  rw [pointsOf, pointsOf, qOutVal,
    jget_jset_ne p tagsKey pointsKey (by decide) (ntagsArrOf p)]

theorem jget_qOutVal_tags (p : JVal) (hq : isQuestion p = true) :
    jget (qOutVal p) tagsKey = some (ntagsArrOf p) := by
  obtain ⟨o, rfl⟩ := jobj_of_jhas p problemIdKey hq
  exact jget_jset_same o tagsKey (ntagsArrOf (.jobj o))

theorem wfJ_qOutVal (p : JVal) (hw : wfJ p = true) : wfJ (qOutVal p) = true :=
  jset_wf p hw tagsKey (ntagsArrOf p) (wfJ_ntagsArrOf p)

theorem qpair_out (m : MatchInfo) (p : JVal) (hw : wfJ p = true)
    (hp : parseJson m.inner = some p) (hq : isQuestion p = true) :
    parseJson (bodyOf (m, (questionUpd m).map Upd.text)) = some (qOutVal p) := by
  rw [questionUpd_eq, hp]
  dsimp only
  rw [if_pos hq]
  split
  · rw [Option.map_some',
      bodyOf_some m _ (stringify2 (qOutVal p)) (by rw [fenceWrap_eq])]
    exact parseJson_stringify2 (qOutVal p) (wfJ_qOutVal p hw)
  · rename_i hch
    rw [not_not] at hch
    have hnone : questionUpd m = none := by
      rw [questionUpd_eq, hp]
      dsimp only
      rw [if_pos hq, if_neg (by rw [not_not]; exact hch)]
    have htags := tags_of_no_upd m p hw hp hq hnone
    rw [Option.map_none', show bodyOf (m, none) = m.inner from rfl, hp,
      qOutVal, jset_get_self p tagsKey (ntagsArrOf p) htags]

theorem ntagsOf_qOutVal (p : JVal) (hq : isQuestion p = true) :
    ntagsOf (qOutVal p) = ntagsOf p := by
  rw [ntagsOf, jget_qOutVal_tags p hq, ntagsArrOf]
  exact normalizeTags_replay (jget p tagsKey)

theorem questionUpd_out_none (m2 : MatchInfo) (p : JVal) (hw : wfJ p = true)
    (hq : isQuestion p = true)
    (hp2 : parseJson m2.inner = some (qOutVal p)) : questionUpd m2 = none := by
  rw [questionUpd_eq, hp2]
  dsimp only
  rw [if_pos (by rw [isQuestion_qOutVal p]; exact hq)]
  rw [if_neg ?_]
  rw [not_not, jget_qOutVal_tags p hq, Option.map_some']
  have harr : ntagsArrOf (qOutVal p) = ntagsArrOf p := by
    rw [ntagsArrOf, ntagsOf_qOutVal p hq, ntagsArrOf]
  rw [harr]

theorem goodTags_qOutVal (p : JVal) (hq : isQuestion p = true) : GoodTags (qOutVal p) := by
  refine ⟨ntagsOf p, ?_, ?_, ?_, ?_⟩
  · rw [jget_qOutVal_tags p hq]
    rfl
  · exact normalizeTags_ne_nil _
  · exact normalizeTags_nodup _
  · intro t ht
    obtain ⟨h1, h2, h3⟩ := normalizeTags_entries (jget p tagsKey) t ht
    exact ⟨h2, h3⟩

end ExamCore

namespace ExamCore

theorem jhas_mdAfter1 (md : JVal) (qc : Nat) (k : Chars)
    (hk : ¬ ("num_questions".toList : Chars) = k) : jhas (mdAfter1 md qc) k = jhas md k := by
  rw [mdAfter1]
  split
  · exact jhas_jset_ne md _ k hk _
  · rfl

theorem jget_mdAfter1_ne (md : JVal) (qc : Nat) (k : Chars)
    (hk : ¬ ("num_questions".toList : Chars) = k) : jget (mdAfter1 md qc) k = jget md k := by
  rw [mdAfter1]
  split
  · exact jget_jset_ne md _ k hk _
  · rfl

theorem jhas_mdAfter2 (md : JVal) (qc : Nat) (total : DecNum) (k : Chars)
    (hk1 : ¬ ("num_questions".toList : Chars) = k)
    (hk2 : ¬ ("score_total".toList : Chars) = k) :
    jhas (mdAfter2 md qc total) k = jhas md k := by
  rw [mdAfter2]
  split
  · rw [jhas_jset_ne _ _ k hk2, jhas_mdAfter1 md qc k hk1]
  · exact jhas_mdAfter1 md qc k hk1

theorem jget_mdAfter2_ne (md : JVal) (qc : Nat) (total : DecNum) (k : Chars)
    (hk1 : ¬ ("num_questions".toList : Chars) = k)
    (hk2 : ¬ ("score_total".toList : Chars) = k) :
    jget (mdAfter2 md qc total) k = jget md k := by
  rw [mdAfter2]
  split
  · rw [jget_jset_ne _ _ k hk2, jget_mdAfter1_ne md qc k hk1]
  · exact jget_mdAfter1_ne md qc k hk1

theorem isQuestion_mdAfter2 (md : JVal) (qc : Nat) (total : DecNum) :
    isQuestion (mdAfter2 md qc total) = isQuestion md := by
  rw [isQuestion, isQuestion]
  exact jhas_mdAfter2 md qc total problemIdKey (by decide) (by decide)

theorem pointsOf_mdAfter2 (md : JVal) (qc : Nat) (total : DecNum) :
    pointsOf (mdAfter2 md qc total) = pointsOf md := by
  rw [pointsOf, pointsOf, jget_mdAfter2_ne md qc total pointsKey (by decide) (by decide)]

theorem canonB_ofNat (n : Nat) : canonB (DecNum.ofNat n) = true := rfl

theorem wfJ_mdAfter1 (md : JVal) (hw : wfJ md = true) (qc : Nat) :
    wfJ (mdAfter1 md qc) = true := by
  rw [mdAfter1]
  split
  · exact jset_wf md hw _ _ (canonB_ofNat qc)
  · exact hw

theorem wfJ_mdAfter2 (md : JVal) (hw : wfJ md = true) (qc : Nat) (total : DecNum)
    (ht : canonB total = true) : wfJ (mdAfter2 md qc total) = true := by
  rw [mdAfter2]
  split
  · exact jset_wf _ (wfJ_mdAfter1 md hw qc) _ _ ht
  · exact wfJ_mdAfter1 md hw qc

theorem jget_mdAfter1_numq (o : JObj) (qc : Nat) :
    jget (mdAfter1 (.jobj o) qc) "num_questions".toList
      = some (.jnum (DecNum.ofNat qc)) := by
  rw [mdAfter1]
  split
  · exact jget_jset_same o _ _
  · rename_i hch
    rw [Bool.not_eq_true] at hch
    rw [mdChanged1] at hch
    cases hg : jget (.jobj o) "num_questions".toList with
    | none => rw [hg] at hch; cases hch
    | some v =>
      rw [hg] at hch
      cases v with
      | jnum q =>
        dsimp only at hch
        have : q = DecNum.ofNat qc := by
          by_contra hne
          rw [decide_eq_true hne] at hch
          cases hch
        rw [this]
      | jnull => cases hch
      | jbool b => cases hch
      | jstr s => cases hch
      | jarr a => cases hch
      | jobj o2 => cases hch

theorem mdAfter1_jobj (o : JObj) (qc : Nat) : ∃ o1, mdAfter1 (.jobj o) qc = .jobj o1 := by
  rw [mdAfter1]
  split
  · exact ⟨_, rfl⟩
  · exact ⟨o, rfl⟩

theorem scoreView_mdAfter2 (o : JObj) (qc : Nat) (total : DecNum) :
    scoreView (jget (mdAfter2 (.jobj o) qc total) "score_total".toList) = some total := by
  obtain ⟨o1, ho1⟩ := mdAfter1_jobj o qc
  rw [mdAfter2]
  split
  · rw [ho1]
    rw [show jset (.jobj o1) "score_total".toList (.jnum total)
        = .jobj (objSet "score_total".toList (.jnum total) o1) from rfl]
    rw [show jget (.jobj (objSet "score_total".toList (.jnum total) o1))
          "score_total".toList
        = objGet "score_total".toList (objSet "score_total".toList (.jnum total) o1)
        from rfl]
    rw [objGet_objSet_same]
    rfl
  · rename_i hch
    rw [Bool.not_eq_true, mdChanged2] at hch
    cases hv : scoreView (jget (mdAfter1 (.jobj o) qc) "score_total".toList) with
    | none => rw [hv] at hch; cases hch
    | some q =>
      rw [hv] at hch
      dsimp only at hch
      have : q = total := by
        by_contra hne
        rw [decide_eq_true hne] at hch
        cases hch
      rw [this]

theorem jget_mdAfter2_numq (o : JObj) (qc : Nat) (total : DecNum) :
    jget (mdAfter2 (.jobj o) qc total) "num_questions".toList
      = some (.jnum (DecNum.ofNat qc)) := by
  rw [mdAfter2]
  split
  · rw [jget_jset_ne _ _ _ (by decide) _]
    exact jget_mdAfter1_numq o qc
  · exact jget_mdAfter1_numq o qc

theorem mdChanged1_out_obj (o : JObj) (qc : Nat) (total : DecNum) :
    mdChanged1 (mdAfter2 (.jobj o) qc total) qc = false := by
  rw [mdChanged1, jget_mdAfter2_numq o qc total]
  simp

theorem mdChanged2_out_obj (o : JObj) (qc : Nat) (total : DecNum) :
    mdChanged2 (mdAfter1 (mdAfter2 (.jobj o) qc total) qc) total = false := by
  rw [mdAfter1, mdChanged1_out_obj o qc total]
  rw [if_neg (by exact Bool.false_ne_true)]
  rw [mdChanged2, scoreView_mdAfter2 o qc total]
  simp

theorem jset_nonobj (md : JVal) (h : ∀ o, md ≠ .jobj o) (k : Chars) (v : JVal) :
    jset md k v = md := by
  cases md with
  | jobj o => exact absurd rfl (h o)
  | jnull => rfl
  | jbool b => rfl
  | jnum q => rfl
  | jstr s => rfl
  | jarr a => rfl

theorem mdAfter2_nonobj (md : JVal) (qc : Nat) (total : DecNum)
    (h : ∀ o, md ≠ .jobj o) : mdAfter2 md qc total = md := by
  have h1 : mdAfter1 md qc = md := by
    rw [mdAfter1]
    split
    · exact jset_nonobj md h _ _
    · rfl
  rw [mdAfter2, h1]
  split
  · exact jset_nonobj md h _ _
  · rfl

theorem mdChanged1_nonobj (md : JVal) (qc : Nat) (h : ∀ o, md ≠ .jobj o) :
    mdChanged1 md qc = true := by
  rw [mdChanged1]
  cases md with
  | jobj o => exact absurd rfl (h o)
  | jnull => rfl
  | jbool b => rfl
  | jnum q => rfl
  | jstr s => rfl
  | jarr a => rfl

end ExamCore

namespace ExamCore

/-- When every pending replacement equals the text already there,
rebuilding returns the document unchanged. -/
theorem rebuild_trivial : ∀ (l : List (MatchInfo × Option Chars)) (pos : Nat) (doc : Chars),
    MatchesChain doc pos (l.map Prod.fst) → (∀ p ∈ l, p.2.getD p.1.full = p.1.full) →
    rebuild doc pos l = doc.drop pos
  | [], _, _, _, _ => rfl
  | (m, r) :: rest, pos, doc, hch, hn => by
    dsimp only [List.map_cons, MatchesChain] at hch
    obtain ⟨hpos, hbound, h12, hfull, hrest⟩ := hch
    have hr : r.getD m.full = m.full := hn (m, r) (List.mem_cons_self _ _)
    rw [rebuild,
      rebuild_trivial rest _ doc hrest (fun p hp => hn p (List.mem_cons_of_mem _ hp)), hr]
    have e1 : m.full ++ doc.drop (m.start + m.full.length) = doc.drop m.start := by
      have h := drop_split doc m.start (m.start + m.full.length) (by omega)
      rw [Nat.add_sub_cancel_left, ← hfull] at h
      exact h
    rw [List.append_assoc, e1]
    exact drop_split doc pos m.start hpos

theorem le_fst_of_mem_enumFrom : ∀ (l : List MatchInfo) (k : Nat) (q : Nat × MatchInfo),
    q ∈ l.enumFrom k → k ≤ q.1
  | [], _, _, h => absurd h (List.not_mem_nil _)
  | a :: l, k, q, h => by
    rw [List.enumFrom_cons] at h
    rcases List.mem_cons.mp h with rfl | h
    · exact le_rfl
    · exact le_trans (by omega) (le_fst_of_mem_enumFrom l (k + 1) q h)

theorem snd_mem_of_mem_enumFrom : ∀ (l : List MatchInfo) (k : Nat) (q : Nat × MatchInfo),
    q ∈ l.enumFrom k → q.2 ∈ l
  | [], _, _, h => absurd h (List.not_mem_nil _)
  | a :: l, k, q, h => by
    rw [List.enumFrom_cons] at h
    rcases List.mem_cons.mp h with rfl | h
    · exact List.mem_cons_self _ _
    · exact List.mem_cons_of_mem _ (snd_mem_of_mem_enumFrom l (k + 1) q h)

theorem rewritePairs_cons (m0 : MatchInfo) (l : List MatchInfo) :
    rewritePairs (m0 :: l) = (m0, (matchUpd (m0 :: l) 0 m0).map Upd.text) ::
      ((l.enumFrom 1).map fun q => (q.2, (matchUpd (m0 :: l) q.1 q.2).map Upd.text)) := by
  rw [rewritePairs, List.enum_cons, List.map_cons]

/-- The correspondence between a parsed block of the output document and
the one of the input: same question flag, same number-typed points, and a
normalized tags list on questions. -/
def QR (p2 p1 : JVal) : Prop :=
  isQuestion p2 = isQuestion p1 ∧ pointsOf p2 = pointsOf p1 ∧
    (isQuestion p1 = true → GoodTags p2)

def foldPts (t : DecNum) (l : List JVal) : DecNum :=
  l.foldl (fun t p => match pointsOf p with | some q => t.add q | none => t) t

theorem rel_facts : ∀ {l2 l1 : List JVal}, List.Forall₂ QR l2 l1 →
    (l2.filter isQuestion).length = (l1.filter isQuestion).length ∧
    (∀ t, foldPts t (l2.filter isQuestion) = foldPts t (l1.filter isQuestion)) ∧
    (∀ p ∈ l2.filter isQuestion, GoodTags p) := by
  intro l2 l1 h
  induction h with
  | nil => exact ⟨rfl, fun t => rfl, by intro p hp; cases hp⟩
  | @cons a b l2t l1t hab htail ih =>
    obtain ⟨hq, hpts, hgt⟩ := hab
    obtain ⟨ih1, ih2, ih3⟩ := ih
    cases hqb : isQuestion b with
    | true =>
      have hqa : isQuestion a = true := by rw [hq, hqb]
      rw [List.filter_cons_of_pos hqa, List.filter_cons_of_pos hqb]
      refine ⟨by rw [List.length_cons, List.length_cons, ih1], ?_, ?_⟩
      · intro t
        rw [foldPts, List.foldl_cons, foldPts, List.foldl_cons, hpts]
        exact ih2 _
      · intro p hp
        rcases List.mem_cons.mp hp with rfl | hp
        · exact hgt hqb
        · exact ih3 p hp
    | false =>
      have hqa : isQuestion a = false := by rw [hq, hqb]
      rw [List.filter_cons_of_neg (by rw [hqa]; exact Bool.false_ne_true),
        List.filter_cons_of_neg (by rw [hqb]; exact Bool.false_ne_true)]
      exact ⟨ih1, ih2, ih3⟩

theorem qfacts_of_rel (ms2 ms1 : List MatchInfo)
    (h : List.Forall₂ QR (ms2.filterMap fun m => parseJson m.inner)
      (ms1.filterMap fun m => parseJson m.inner)) :
    qCount ms2 = qCount ms1 ∧ qTotal ms2 = qTotal ms1 := by
  obtain ⟨h1, h2, _⟩ := rel_facts h
  exact ⟨h1, h2 ⟨0, 0⟩⟩

theorem metaOf_cons_some (m : MatchInfo) (l : List MatchInfo) (w : JVal)
    (hp : parseJson m.inner = some w) (hq : isQuestion w = false) :
    metaOf (m :: l) = some (w, m) := by
  rw [metaOf, hp]
  dsimp only
  rw [if_neg (by rw [hq]; exact Bool.false_ne_true)]

theorem metaOf_cons_nparse (m : MatchInfo) (l : List MatchInfo)
    (hp : parseJson m.inner = none) : metaOf (m :: l) = none := by
  rw [metaOf, hp]

theorem metaOf_cons_q (m : MatchInfo) (l : List MatchInfo) (w : JVal)
    (hp : parseJson m.inner = some w) (hq : isQuestion w = true) :
    metaOf (m :: l) = none := by
  rw [metaOf, hp]
  dsimp only
  rw [if_pos hq]

theorem metaUpd_cons_eq (m : MatchInfo) (l : List MatchInfo) (w : JVal)
    (hp : parseJson m.inner = some w) (hq : isQuestion w = false) :
    metaUpd (m :: l) =
      if jTruthy w = true ∧ qCount (m :: l) > 0 then
        if mdChanged1 w (qCount (m :: l)) ||
            mdChanged2 (mdAfter1 w (qCount (m :: l))) (qTotal (m :: l)) then
          some { start := m.start, stop := m.start + m.full.length
                 text := fenceWrap (stringify2
                   (mdAfter2 w (qCount (m :: l)) (qTotal (m :: l)))) }
        else none
      else none := by
  rw [metaUpd, metaOf_cons_some m l w hp hq]

theorem metaUpd_cons_nparse (m : MatchInfo) (l : List MatchInfo)
    (hp : parseJson m.inner = none) : metaUpd (m :: l) = none := by
  rw [metaUpd, metaOf_cons_nparse m l hp]

theorem metaUpd_cons_q (m : MatchInfo) (l : List MatchInfo) (w : JVal)
    (hp : parseJson m.inner = some w) (hq : isQuestion w = true) :
    metaUpd (m :: l) = none := by
  rw [metaUpd, metaOf_cons_q m l w hp hq]

end ExamCore

namespace ExamCore

theorem filterMap_inner_cons (m2 : MatchInfo) (l : List MatchInfo) :
    ((m2 :: l).filterMap fun mm => parseJson mm.inner)
      = match parseJson m2.inner with
        | none => l.filterMap fun mm => parseJson mm.inner
        | some p => p :: (l.filterMap fun mm => parseJson mm.inner) := by
  rw [List.filterMap_cons]
  cases parseJson m2.inner <;> rfl

theorem outMatches_rel (msx : List MatchInfo) :
    ∀ (l : List MatchInfo) (k pos pos2 : Nat), 1 ≤ k →
      (∀ m' ∈ outMatches pos pos2
          ((l.enumFrom k).map fun q => (q.2, (matchUpd msx q.1 q.2).map Upd.text)),
        questionUpd m' = none) ∧
      List.Forall₂ QR
        ((outMatches pos pos2
            ((l.enumFrom k).map fun q => (q.2, (matchUpd msx q.1 q.2).map Upd.text))).filterMap
          fun m => parseJson m.inner)
        (l.filterMap fun m => parseJson m.inner)
  | [], k, pos, pos2, hk => by
    constructor
    · intro m' hm'
      cases hm'
    · exact List.Forall₂.nil
  | m :: rest, k, pos, pos2, hk => by
    rw [List.enumFrom_cons, List.map_cons]
    dsimp only
    rw [show matchUpd msx k m = questionUpd m from by rw [matchUpd, if_neg (by omega)]]
    rw [outMatches]
    obtain ⟨ih1, ih2⟩ := outMatches_rel msx rest (k + 1) (m.start + m.full.length)
      (pos2 + (m.start - pos) + ((bodyOf (m, (questionUpd m).map Upd.text)).length + 12))
      (by omega)
    cases hp : parseJson m.inner with
    | none =>
      have hb : bodyOf (m, (questionUpd m).map Upd.text) = m.inner := by
        rw [questionUpd_none_parse m hp]
        rfl
      have hparse2 : parseJson (bodyOf (m, (questionUpd m).map Upd.text)) = none := by
        rw [hb, hp]
      constructor
      · intro m' hm'
        rcases List.mem_cons.mp hm' with rfl | hm'
        · exact questionUpd_none_parse _ hparse2
        · exact ih1 m' hm'
      · rw [filterMap_inner_cons, filterMap_inner_cons]
        dsimp only
        rw [hparse2, hp]
        exact ih2
    | some p =>
      have hw : wfJ p = true := parseJson_wf _ _ hp
      cases hq : isQuestion p with
      | false =>
        have hb : bodyOf (m, (questionUpd m).map Upd.text) = m.inner := by
          rw [questionUpd_none_notq m p hp hq]
          rfl
        have hparse2 : parseJson (bodyOf (m, (questionUpd m).map Upd.text)) = some p := by
          rw [hb, hp]
        constructor
        · intro m' hm'
          rcases List.mem_cons.mp hm' with rfl | hm'
          · exact questionUpd_none_notq _ p hparse2 hq
          · exact ih1 m' hm'
        · rw [filterMap_inner_cons, filterMap_inner_cons]
          dsimp only
          rw [hparse2, hp]
          refine List.Forall₂.cons ⟨rfl, rfl, ?_⟩ ih2
          intro hcon
          rw [hq] at hcon
          cases hcon
      | true =>
        have hparse2 : parseJson (bodyOf (m, (questionUpd m).map Upd.text))
            = some (qOutVal p) := qpair_out m p hw hp hq
        constructor
        · intro m' hm'
          rcases List.mem_cons.mp hm' with rfl | hm'
          · exact questionUpd_out_none _ p hw hq hparse2
          · exact ih1 m' hm'
        · rw [filterMap_inner_cons, filterMap_inner_cons]
          dsimp only
          rw [hparse2, hp]
          refine List.Forall₂.cons ⟨isQuestion_qOutVal p, pointsOf_qOutVal p,
            fun _ => goodTags_qOutVal p hq⟩ ih2

end ExamCore

namespace ExamCore

theorem questionUpd_text (m : MatchInfo) (u : Upd) (h : questionUpd m = some u) :
    ∃ w, u.text = fenceWrap (stringify2 w) := by
  rw [questionUpd_eq] at h
  split at h
  · exact absurd h (by simp)
  · rename_i p hp
    split at h
    · split at h
      · injection h with h
        subst h
        exact ⟨qOutVal p, rfl⟩
      · exact absurd h (by simp)
    · exact absurd h (by simp)

theorem metaUpd_text (ms : List MatchInfo) (u : Upd) (h : metaUpd ms = some u) :
    ∃ w, u.text = fenceWrap (stringify2 w) := by
  rw [metaUpd] at h
  cases hmo : metaOf ms with
  | none => rw [hmo] at h; exact absurd h (by simp)
  | some pr =>
    obtain ⟨md, mm⟩ := pr
    rw [hmo] at h
    dsimp only at h
    split at h
    · split at h
      · injection h with h
        subst h
        exact ⟨mdAfter2 md (qCount ms) (qTotal ms), rfl⟩
      · exact absurd h (by simp)
    · exact absurd h (by simp)

theorem goodPair_rewritePairs (ms : List MatchInfo) :
    ∀ p ∈ rewritePairs ms, GoodPair p := by
  intro p hp
  rw [rewritePairs] at hp
  obtain ⟨q, hq, rfl⟩ := List.mem_map.mp hp
  cases hu : matchUpd ms q.1 q.2 with
  | none => exact trivial
  | some u =>
    have hex : ∃ w, u.text = fenceWrap (stringify2 w) := by
      rw [matchUpd] at hu
      split at hu
      · cases hm : metaUpd ms with
        | some u2 =>
          rw [hm] at hu
          injection hu with hu
          rw [← hu]
          exact metaUpd_text ms u2 hm
        | none =>
          rw [hm] at hu
          exact questionUpd_text _ u hu
      · exact questionUpd_text _ u hu
    obtain ⟨w, hw⟩ := hex
    show GoodPair (q.2, some u.text)
    rw [hw, fenceWrap_eq]
    exact ⟨stringify2 w, rfl, fenceFree_renderJ w true 0⟩

end ExamCore


namespace ExamCore

theorem second_run_spec (doc : Chars) :
    List.Forall₂ QR
      ((docMatches (normalizeExamMetadataAndTags doc)).filterMap fun m => parseJson m.inner)
      ((docMatches doc).filterMap fun m => parseJson m.inner) ∧
    ∀ p ∈ rewritePairs (docMatches (normalizeExamMetadataAndTags doc)),
      p.2.getD p.1.full = p.1.full := by
  have hms2 : docMatches (normalizeExamMetadataAndTags doc)
      = outMatches 0 0 (rewritePairs (docMatches doc)) := by
    rw [normalize_rebuild doc]
    exact docMatches_rebuild doc (rewritePairs (docMatches doc))
      (rewritePairs_map_fst (docMatches doc)).symm
      (goodPair_rewritePairs (docMatches doc))
  cases hms : docMatches doc with
  | nil =>
    rw [hms] at hms2
    rw [hms2]
    constructor
    · exact List.Forall₂.nil
    · intro p hp
      exact absurd hp (List.not_mem_nil p)
  | cons m0 mtail =>
    rw [hms] at hms2
    rw [rewritePairs_cons m0 mtail, outMatches] at hms2
    obtain ⟨htail1, htail2⟩ := outMatches_rel (m0 :: mtail) mtail 1
      (m0.start + m0.full.length)
      (0 + (m0.start - 0) +
        ((bodyOf (m0, (matchUpd (m0 :: mtail) 0 m0).map Upd.text)).length + 12))
      (by omega)
    obtain ⟨mh, TP, hms3, hmhin, hmhfull, htl1, htl2⟩ :
        ∃ (mh : MatchInfo) (TP : List MatchInfo),
          docMatches (normalizeExamMetadataAndTags doc) = mh :: TP ∧
          mh.inner = bodyOf (m0, (matchUpd (m0 :: mtail) 0 m0).map Upd.text) ∧
          mh.full = fenceOpen ++
            (bodyOf (m0, (matchUpd (m0 :: mtail) 0 m0).map Upd.text) ++ fenceClose) ∧
          (∀ m' ∈ TP, questionUpd m' = none) ∧
          List.Forall₂ QR (TP.filterMap fun m => parseJson m.inner)
            (mtail.filterMap fun m => parseJson m.inner) :=
      ⟨_, _, hms2, rfl, rfl, htail1, htail2⟩
    have hmu0 : matchUpd (m0 :: mtail) 0 m0
        = match metaUpd (m0 :: mtail) with
          | some u => some u
          | none => questionUpd m0 := by
      rw [matchUpd, if_pos rfl]
    have hclose : questionUpd mh = none →
        (metaUpd (mh :: TP) = none ∨
          ∃ u2, metaUpd (mh :: TP) = some u2 ∧ u2.text = mh.full) →
        ∀ p ∈ rewritePairs (docMatches (normalizeExamMetadataAndTags doc)),
          p.2.getD p.1.full = p.1.full := by
      intro hq1 hmeta
      rw [hms3, rewritePairs_cons mh TP]
      intro p hp
      rcases List.mem_cons.mp hp with rfl | hp
      · dsimp only
        rw [matchUpd, if_pos rfl]
        rcases hmeta with hmeta | ⟨u2, hmeta, htext⟩
        · rw [hmeta]
          dsimp only
          rw [hq1]
          rfl
        · rw [hmeta]
          dsimp only
          rw [Option.map_some', Option.getD_some, htext]
      · obtain ⟨q, hql, rfl⟩ := List.mem_map.mp hp
        have hk := le_fst_of_mem_enumFrom TP 1 q hql
        dsimp only
        rw [matchUpd, if_neg (by omega), htl1 q.2 (snd_mem_of_mem_enumFrom TP 1 q hql)]
        rfl
    cases hp0 : parseJson m0.inner with
    | none =>
      have hmu : metaUpd (m0 :: mtail) = none := metaUpd_cons_nparse m0 mtail hp0
      have hqu : questionUpd m0 = none := questionUpd_none_parse m0 hp0
      have hbody : bodyOf (m0, (matchUpd (m0 :: mtail) 0 m0).map Upd.text) = m0.inner := by
        rw [hmu0, hmu]
        dsimp only
        rw [hqu]
        rfl
      have hV : parseJson mh.inner = none := by
        rw [hmhin, hbody]
        exact hp0
      have hq1 : questionUpd mh = none := questionUpd_none_parse mh hV
      have hmeta : metaUpd (mh :: TP) = none := metaUpd_cons_nparse mh TP hV
      refine ⟨?_, hclose hq1 (Or.inl hmeta)⟩
      rw [hms3, filterMap_inner_cons, filterMap_inner_cons, hV, hp0]
      exact htl2
    | some p =>
      have hwp : wfJ p = true := parseJson_wf _ _ hp0
      cases hq : isQuestion p with
      | true =>
        have hmu : metaUpd (m0 :: mtail) = none := metaUpd_cons_q m0 mtail p hp0 hq
        have hbody : bodyOf (m0, (matchUpd (m0 :: mtail) 0 m0).map Upd.text)
            = bodyOf (m0, (questionUpd m0).map Upd.text) := by
          rw [hmu0, hmu]
        have hV : parseJson mh.inner = some (qOutVal p) := by
          rw [hmhin, hbody]
          exact qpair_out m0 p hwp hp0 hq
        have hq1 : questionUpd mh = none := questionUpd_out_none mh p hwp hq hV
        have hmeta : metaUpd (mh :: TP) = none :=
          metaUpd_cons_q mh TP (qOutVal p) hV (by rw [isQuestion_qOutVal]; exact hq)
        refine ⟨?_, hclose hq1 (Or.inl hmeta)⟩
        rw [hms3, filterMap_inner_cons, filterMap_inner_cons, hV, hp0]
        exact List.Forall₂.cons ⟨isQuestion_qOutVal p, pointsOf_qOutVal p,
          fun _ => goodTags_qOutVal p hq⟩ htl2
      | false =>
        cases hmuO : metaUpd (m0 :: mtail) with
        | none =>
          have hqu : questionUpd m0 = none := questionUpd_none_notq m0 p hp0 hq
          have hbody : bodyOf (m0, (matchUpd (m0 :: mtail) 0 m0).map Upd.text)
              = m0.inner := by
            rw [hmu0, hmuO]
            dsimp only
            rw [hqu]
            rfl
          have hV : parseJson mh.inner = some p := by
            rw [hmhin, hbody]
            exact hp0
          have hq1 : questionUpd mh = none := questionUpd_none_notq mh p hV hq
          have hrel2 : List.Forall₂ QR ((mh :: TP).filterMap fun m => parseJson m.inner)
              ((m0 :: mtail).filterMap fun m => parseJson m.inner) := by
            rw [filterMap_inner_cons, filterMap_inner_cons, hV, hp0]
            exact List.Forall₂.cons
              ⟨rfl, rfl, fun hcon => absurd hcon (by rw [hq]; exact Bool.false_ne_true)⟩ htl2
          obtain ⟨hqc, htot⟩ := qfacts_of_rel (mh :: TP) (m0 :: mtail) hrel2
          have hmeta : metaUpd (mh :: TP) = none := by
            rw [metaUpd_cons_eq mh TP p hV hq, hqc, htot]
            rw [metaUpd_cons_eq m0 mtail p hp0 hq] at hmuO
            by_cases hC : jTruthy p = true ∧ qCount (m0 :: mtail) > 0
            · rw [if_pos hC] at hmuO ⊢
              by_cases hD : (mdChanged1 p (qCount (m0 :: mtail)) ||
                  mdChanged2 (mdAfter1 p (qCount (m0 :: mtail)))
                    (qTotal (m0 :: mtail))) = true
              · rw [if_pos hD] at hmuO
                exact absurd hmuO (by simp)
              · rw [if_neg hD]
            · rw [if_neg hC]
          refine ⟨?_, hclose hq1 (Or.inl hmeta)⟩
          rw [hms3]
          exact hrel2
        | some u =>
          have hmuK := hmuO
          rw [metaUpd_cons_eq m0 mtail p hp0 hq] at hmuK
          by_cases hC : jTruthy p = true ∧ qCount (m0 :: mtail) > 0
          case neg =>
            rw [if_neg hC] at hmuK
            exact absurd hmuK (by simp)
          rw [if_pos hC] at hmuK
          by_cases hD : (mdChanged1 p (qCount (m0 :: mtail)) ||
              mdChanged2 (mdAfter1 p (qCount (m0 :: mtail)))
                (qTotal (m0 :: mtail))) = true
          case neg =>
            rw [if_neg hD] at hmuK
            exact absurd hmuK (by simp)
          rw [if_pos hD] at hmuK
          injection hmuK with hmuK
          have hutext : u.text
              = fenceWrap (stringify2
                  (mdAfter2 p (qCount (m0 :: mtail)) (qTotal (m0 :: mtail)))) := by
            rw [← hmuK]
          have hbody : bodyOf (m0, (matchUpd (m0 :: mtail) 0 m0).map Upd.text)
              = stringify2 (mdAfter2 p (qCount (m0 :: mtail)) (qTotal (m0 :: mtail))) := by
            rw [hmu0, hmuO]
            dsimp only
            rw [Option.map_some']
            exact bodyOf_some m0 u.text _ (by rw [hutext, fenceWrap_eq])
          have hw0 : wfJ (mdAfter2 p (qCount (m0 :: mtail)) (qTotal (m0 :: mtail))) = true :=
            wfJ_mdAfter2 p hwp _ _ (qTotal_canon _)
          have hV : parseJson mh.inner
              = some (mdAfter2 p (qCount (m0 :: mtail)) (qTotal (m0 :: mtail))) := by
            rw [hmhin, hbody]
            exact parseJson_stringify2 _ hw0
          have hq0 : isQuestion
              (mdAfter2 p (qCount (m0 :: mtail)) (qTotal (m0 :: mtail))) = false := by
            rw [isQuestion_mdAfter2]
            exact hq
          have hq1 : questionUpd mh = none := questionUpd_none_notq mh _ hV hq0
          have hrel2 : List.Forall₂ QR ((mh :: TP).filterMap fun m => parseJson m.inner)
              ((m0 :: mtail).filterMap fun m => parseJson m.inner) := by
            rw [filterMap_inner_cons, filterMap_inner_cons, hV, hp0]
            refine List.Forall₂.cons ⟨?_, ?_, ?_⟩ htl2
            · rw [isQuestion_mdAfter2]
            · exact pointsOf_mdAfter2 p _ _
            · intro hcon
              exact absurd hcon (by rw [hq]; exact Bool.false_ne_true)
          obtain ⟨hqc, htot⟩ := qfacts_of_rel (mh :: TP) (m0 :: mtail) hrel2
          have hmeta2 := metaUpd_cons_eq mh TP _ hV hq0
          rw [hqc, htot] at hmeta2
          by_cases hobj : ∃ o, p = .jobj o
          · obtain ⟨o, rfl⟩ := hobj
            have hch1 : mdChanged1
                (mdAfter2 (.jobj o) (qCount (m0 :: mtail)) (qTotal (m0 :: mtail)))
                (qCount (m0 :: mtail)) = false := mdChanged1_out_obj o _ _
            have hch2 : mdChanged2
                (mdAfter1 (mdAfter2 (.jobj o) (qCount (m0 :: mtail)) (qTotal (m0 :: mtail)))
                  (qCount (m0 :: mtail))) (qTotal (m0 :: mtail)) = false :=
              mdChanged2_out_obj o _ _
            have hmeta : metaUpd (mh :: TP) = none := by
              rw [hmeta2, hch1, hch2, Bool.or_self]
              split
              · rw [if_neg (by exact Bool.false_ne_true)]
              · rfl
            refine ⟨by rw [hms3]; exact hrel2, hclose hq1 (Or.inl hmeta)⟩
          · have hnonobj : ∀ o, p ≠ .jobj o := fun o h => hobj ⟨o, h⟩
            have hW : mdAfter2 p (qCount (m0 :: mtail)) (qTotal (m0 :: mtail)) = p :=
              mdAfter2_nonobj p _ _ hnonobj
            have hch1 : mdChanged1
                (mdAfter2 p (qCount (m0 :: mtail)) (qTotal (m0 :: mtail)))
                (qCount (m0 :: mtail)) = true := by
              rw [hW]
              exact mdChanged1_nonobj p _ hnonobj
            have htruthy : jTruthy
                (mdAfter2 p (qCount (m0 :: mtail)) (qTotal (m0 :: mtail))) = true := by
              rw [hW]
              exact hC.1
            have hmeta : metaUpd (mh :: TP) = some
                { start := mh.start, stop := mh.start + mh.full.length
                  text := fenceWrap (stringify2
                    (mdAfter2 (mdAfter2 p (qCount (m0 :: mtail)) (qTotal (m0 :: mtail)))
                      (qCount (m0 :: mtail)) (qTotal (m0 :: mtail)))) } := by
              rw [hmeta2, if_pos ⟨htruthy, hC.2⟩, if_pos (by rw [hch1, Bool.true_or])]
            have htext : fenceWrap (stringify2
                (mdAfter2 (mdAfter2 p (qCount (m0 :: mtail)) (qTotal (m0 :: mtail)))
                  (qCount (m0 :: mtail)) (qTotal (m0 :: mtail)))) = mh.full := by
              conv_lhs => rw [hW]
              rw [fenceWrap_eq, ← hbody, ← hmhfull]
            refine ⟨by rw [hms3]; exact hrel2, hclose hq1 (Or.inr ⟨_, hmeta, htext⟩)⟩

end ExamCore

namespace ExamCore

/-- Running the normalizer on its own output changes nothing. -/
theorem normalize_idem (doc : Chars) :
    normalizeExamMetadataAndTags (normalizeExamMetadataAndTags doc)
      = normalizeExamMetadataAndTags doc := by
  obtain ⟨_, htriv⟩ := second_run_spec doc
  rw [normalize_rebuild (normalizeExamMetadataAndTags doc),
    rebuild_trivial _ 0 _ (by rw [rewritePairs_map_fst]; exact docMatches_chain _) htriv,
    List.drop_zero]

/-- Every parseable Question Block of the output carries a fully
normalized tags array. -/
theorem questionVals_out (doc : Chars) :
    ∀ p ∈ questionVals (normalizeExamMetadataAndTags doc), GoodTags p := by
  obtain ⟨hrel, _⟩ := second_run_spec doc
  obtain ⟨_, _, h3⟩ := rel_facts hrel
  exact h3

theorem normalize_no_upd (s : Chars) (hupd : metaStep (normLoop (docMatches s)) = []) :
    normalizeExamMetadataAndTags s = s := by
  simp only [normalizeExamMetadataAndTags]
  by_cases hnil : docMatches s = []
  · rw [if_pos hnil]
  · rw [if_neg hnil, if_pos hupd]

end ExamCore

namespace ExamCore

def c4wdoc : Chars :=
  ("```json\n\x7b\"problem_id\": \"p1\", \"tags\": [\"misc\"], \"answer\": \"a\"\x7d\n```").toList

def c4wq : JVal :=
  .jobj (.ocons "problem_id".toList (.jstr "p1".toList)
    (.ocons "tags".toList (.jarr (.acons (.jstr "misc".toList) .anil))
      (.ocons "answer".toList (.jstr "a".toList) .onil)))

/-- C4: after `normalizeExamMetadataAndTags` returns, every parseable
Question Block of the output carries a `tags` value that is an array of
strings, each nonempty and matching `^[a-z0-9-]+$`, with no duplicates and
with at least one entry (the `"misc"` fallback covers lists that would
become empty). -/
theorem claim_C4 (doc : Chars) :
    ∀ p ∈ questionVals (normalizeExamMetadataAndTags doc),
      ∃ ts : List Chars,
        jget p tagsKey = some (.jarr (JArr.ofList (ts.map .jstr))) ∧
        ts ≠ [] ∧ ts.Nodup ∧ ∀ t ∈ ts, t ≠ [] ∧ ∀ c ∈ t, tagCh c = true :=
  fun p hp => questionVals_out doc p hp

theorem claim_C4_witness :
    ∃ ts : List Chars,
      jget c4wq tagsKey = some (.jarr (JArr.ofList (ts.map .jstr))) ∧
      ts ≠ [] ∧ ts.Nodup ∧ ∀ t ∈ ts, t ≠ [] ∧ ∀ c ∈ t, tagCh c = true :=
  claim_C4 c4wdoc c4wq (by decide)

/-- C5: `normalizeExamMetadataAndTags` is idempotent — running it on its
own output returns that output byte-for-byte — and when the loop collects
no updates at all the function returns the input string itself. -/
theorem claim_C5 :
    (∀ s : Chars, normalizeExamMetadataAndTags (normalizeExamMetadataAndTags s)
        = normalizeExamMetadataAndTags s) ∧
    (∀ s : Chars, metaStep (normLoop (docMatches s)) = [] →
      normalizeExamMetadataAndTags s = s) :=
  ⟨normalize_idem, normalize_no_upd⟩

theorem claim_C5_witness :
    normalizeExamMetadataAndTags "exam".toList = "exam".toList :=
  claim_C5.2 "exam".toList (by decide)

end ExamCore
